import Mathlib

/-!
# A verification development for `cpp-search-server`

A shallow embedding of the TF-IDF search server (`search_server.h`,
`search_server.cpp`, `string_processing.cpp`) and theorems about its index
store, query parser, ranking engine and match explainer.

Conventions of the embedding.

* `std::string` / `std::string_view` are lists of characters (`Str`).
* `std::map` is a key-ordered association list (`OrdMap`), `std::set` a
  key-ordered list (`OrdSet`), `std::unordered_set` a duplicate-free list in
  first-insertion order (`HashSet`; the C++ iteration order is unspecified).
* `double` is exact: term frequencies are rationals, relevances live in an
  arbitrary linearly ordered field `K` and `std::log` is a parameter
  `log : ℚ → K` (for the reals: `fun q => Real.log q`).
* A member function that mutates the server returns the outcome of the call
  together with the state the server is left in; a `const` member function
  returns its outcome only.  A thrown exception is `Except.error`.
-/

namespace Search

/-! ## Strings and exceptions -/

/-- A `std::string` / `std::string_view`: its sequence of characters. -/
abbrev Str := List Char

/-- The exceptions thrown by the server, and `undefined_behaviour` for a read
outside a string (`text[0]` on an empty view, `raw_query[size - 1]` on an empty
query). -/
inductive Exception where
  | invalid_argument
  | out_of_range
  | undefined_behaviour
  deriving DecidableEq, Repr

deriving instance DecidableEq for Except

/-! ## Containers -/

/-- A `std::map<κ, V>`: association list kept in ascending key order. -/
abbrev OrdMap (κ : Type) (V : Type) := List (κ × V)

namespace OrdMap

variable {κ V : Type} [DecidableEq κ] [LT κ] [DecidableRel (LT.lt : κ → κ → Prop)]

/-- Lookup, `map::find`. -/
def find? : OrdMap κ V → κ → Option V
  | [], _ => none
  | (k', v) :: rest, k => if k' = k then some v else find? rest k

/-- Membership test, `map::count(k) > 0`. -/
def contains (m : OrdMap κ V) (k : κ) : Bool := (find? m k).isSome

/-- Insertion of a key that is not yet present, at its place in key order. -/
def insertNew (k : κ) (v : V) : OrdMap κ V → OrdMap κ V
  | [] => [(k, v)]
  | (k', v') :: rest =>
    if k < k' then (k, v) :: (k', v') :: rest else (k', v') :: insertNew k v rest

/-- In-place change of the value stored under a key that is present. -/
def replace (k : κ) (f : V → V) : OrdMap κ V → OrdMap κ V
  | [] => []
  | (k', v') :: rest =>
    if k' = k then (k', f v') :: rest else (k', v') :: replace k f rest

/-- The update `f(m[k])`: `operator[]` value-initialises a missing entry with
`dflt` and the referenced value is then changed by `f`. -/
def modify (m : OrdMap κ V) (k : κ) (dflt : V) (f : V → V) : OrdMap κ V :=
  if contains m k then replace k f m else insertNew k (f dflt) m

/-- Insertion that leaves an existing entry alone, `map::emplace`. -/
def emplace (m : OrdMap κ V) (k : κ) (v : V) : OrdMap κ V :=
  if contains m k then m else insertNew k v m

/-- Removal of a key, `map::erase(k)`. -/
def erase (m : OrdMap κ V) (k : κ) : OrdMap κ V :=
  m.filter (fun e => decide (e.1 ≠ k))

/-- The keys in iteration order. -/
def keys (m : OrdMap κ V) : List κ := m.map Prod.fst

end OrdMap

/-- A `std::set<κ>`: list kept in ascending order. -/
abbrev OrdSet (κ : Type) := List κ

namespace OrdSet

variable {κ : Type} [DecidableEq κ] [LT κ] [DecidableRel (LT.lt : κ → κ → Prop)]

/-- Insertion of an element that is not yet present, at its place in order. -/
def insertNew (k : κ) : OrdSet κ → OrdSet κ
  | [] => [k]
  | k' :: rest => if k < k' then k :: k' :: rest else k' :: insertNew k rest

/-- Set insertion, `set::insert` / `set::emplace`. -/
def insert (s : OrdSet κ) (k : κ) : OrdSet κ :=
  if k ∈ s then s else insertNew k s

/-- Removal of an element, `set::erase(k)`. -/
def erase (s : OrdSet κ) (k : κ) : OrdSet κ :=
  s.filter (fun e => decide (e ≠ k))

end OrdSet

/-- A `std::unordered_set<κ>`: duplicate-free list, enumerated in the order of
first insertion. -/
abbrev HashSet (κ : Type) := List κ

/-- Insertion into an unordered set, `unordered_set::insert`. -/
def HashSet.insert {κ : Type} [DecidableEq κ] (s : HashSet κ) (k : κ) : HashSet κ :=
  if k ∈ s then s else s ++ [k]

/-! ## `string_processing.cpp` -/

/-- The loop of `SplitIntoWords`: `word` is the word being read. -/
def SplitIntoWords.loop : Str → Str → List Str → List Str × Str
  | [], word, words => (words, word)
  | c :: rest, word, words =>
    if c = ' ' then
      if word ≠ [] then SplitIntoWords.loop rest [] (words ++ [word])
      else SplitIntoWords.loop rest word words
    else SplitIntoWords.loop rest (word ++ [c]) words

/-- Embeds `SplitIntoWords`: the maximal space-free runs of `text`. -/
def SplitIntoWords (text : Str) : List Str :=
  let r := SplitIntoWords.loop text [] []
  if r.2 ≠ [] then r.1 ++ [r.2] else r.1

/-- The loop of `SplitIntoWordsView` over the positions `i` of `text`; the
first argument is the text from position `i` on, `word` the current view. -/
def SplitIntoWordsView.loop (text : Str) : Str → Nat → Nat → Str → List Str → List Str × Str
  | [], _, _, word, words => (words, word)
  | c :: rest, i, startNewWord, word, words =>
    if c = ' ' then
      -- word.remove_suffix(text.size() - i)
      let word1 := word.take (word.length - (text.length - i))
      let words1 := if i ≠ startNewWord then words ++ [word1] else words
      -- word = text; word.remove_prefix(i + 1)
      SplitIntoWordsView.loop text rest (i + 1) (i + 1) (text.drop (i + 1)) words1
    else SplitIntoWordsView.loop text rest (i + 1) startNewWord word words

/-- Embeds `SplitIntoWordsView`: the same runs as views into `text`. -/
def SplitIntoWordsView (text : Str) : List Str :=
  let r := SplitIntoWordsView.loop text text 0 0 text []
  if r.2 ≠ [] ∧ r.2.head? ≠ some ' ' then r.1 ++ [r.2] else r.1

/-! ## `document.h` -/

/-- Modelled from the spec: `DocumentStatus` of `document.h`, the fixed small
enumeration ACTUAL / IRRELEVANT / BANNED / REMOVED. -/
inductive DocumentStatus where
  | ACTUAL
  | IRRELEVANT
  | BANNED
  | REMOVED
  deriving DecidableEq, Repr

/-- Modelled from the spec: `Document` of `document.h`, the triple
`{id, relevance, rating}` returned by the ranking engine. -/
structure Document (K : Type) where
  id : Int
  relevance : K
  rating : Int

/-! ## The server state -/

/-- Embeds `SearchServer::DocumentData`. -/
structure DocumentData where
  rating : Int
  status : DocumentStatus
  deriving DecidableEq, Repr

/-- Embeds `SearchServer::QueryWord`. -/
structure QueryWord where
  data : Str
  is_minus : Bool
  is_stop : Bool
  deriving DecidableEq, Repr

/-- Embeds `SearchServer::Query`. -/
structure Query where
  plus_words : HashSet Str
  minus_words : HashSet Str
  deriving DecidableEq, Repr

/-- The data members of `SearchServer`. -/
structure SearchServer where
  stop_words_ : OrdSet Str
  word_to_document_freqs_ : OrdMap Str (OrdMap Int ℚ)
  documents_ : OrdMap Int DocumentData
  document_ids_ : OrdSet Int
  document_to_word_freqs_ : OrdMap Int (OrdMap Str ℚ)
  words_ : OrdSet Str
  deriving DecidableEq

/-- The predicate type of `FindTopDocuments`: `(id, status, rating) ↦ bool`. -/
abbrev KeyMapper := Int → DocumentStatus → Int → Bool

/-- Embeds `MAX_RESULT_DOCUMENT_COUNT`. -/
def MAX_RESULT_DOCUMENT_COUNT : Nat := 5

/-- Wrap-around of a mathematical integer into the range of a 32-bit `int`. -/
def wrapInt32 (x : Int) : Int := (x + 2147483648) % 4294967296 - 2147483648

namespace SearchServer

/-- Embeds `SearchServer::IsValidWord`: no character with `c >= 0 && c < 32`. -/
def IsValidWord (word : Str) : Bool :=
  word.all (fun c => !(decide (Char.ofNat 0 ≤ c) && decide (c < ' ')))

/-- The stop words constructor loop: reject a word with a control character,
insert the others. -/
def construct.loop : List Str → OrdSet Str → Except Exception (OrdSet Str)
  | [], acc => .ok acc
  | word :: rest, acc =>
    if !IsValidWord word then .error .invalid_argument
    else construct.loop rest (OrdSet.insert acc word)

/-- The constructor `SearchServer(const StringCollection& stop_words)`. -/
def construct (stop_words : List Str) : Except Exception SearchServer :=
  match construct.loop stop_words [] with
  | .error e => .error e
  | .ok sw => .ok
    { stop_words_ := sw, word_to_document_freqs_ := [], documents_ := [],
      document_ids_ := [], document_to_word_freqs_ := [], words_ := [] }

/-- The constructor `SearchServer(std::string stop_words)`. -/
def constructString (stop_words : Str) : Except Exception SearchServer :=
  construct (SplitIntoWords stop_words)

/-- The constructor `SearchServer(std::string_view stop_words)`. -/
def constructView (stop_words : Str) : Except Exception SearchServer :=
  construct (SplitIntoWordsView stop_words)

/-- Embeds `SearchServer::IsStopWord`. -/
def IsStopWord (s : SearchServer) (word : Str) : Bool :=
  decide (word ∈ s.stop_words_)

/-- The loop of `SplitIntoWordsNoStop` over the words of the text. -/
def SplitIntoWordsNoStop.loop (s : SearchServer) : List Str → List Str → Except Exception (List Str)
  | [], words => .ok words
  | word :: rest, words =>
    if !IsValidWord word then .error .invalid_argument
    else if !s.IsStopWord word then SplitIntoWordsNoStop.loop s rest (words ++ [word])
    else SplitIntoWordsNoStop.loop s rest words

/-- Embeds `SearchServer::SplitIntoWordsNoStop`. -/
def SplitIntoWordsNoStop (s : SearchServer) (text : Str) : Except Exception (List Str) :=
  SplitIntoWordsNoStop.loop s (SplitIntoWordsView text) []

/-- Embeds `SearchServer::ComputeAverageRating`: `int` sum, truncating division. -/
def ComputeAverageRating (ratings : List Int) : Int :=
  if ratings = [] then 0
  else
    let rating_sum := ratings.foldl (fun acc r => wrapInt32 (acc + r)) 0
    Int.tdiv rating_sum (wrapInt32 ratings.length)

/-- One round of the loop of `AddDocument`: intern the word, then add
`inv_word_count` to its entry in the inverted and in the forward index. -/
def AddDocument.step (document_id : Int) (inv_word_count : ℚ) (s : SearchServer)
    (word : Str) : SearchServer :=
  { s with
    words_ := OrdSet.insert s.words_ word
    word_to_document_freqs_ :=
      OrdMap.modify s.word_to_document_freqs_ word []
        (fun freqs => OrdMap.modify freqs document_id 0 (fun x => x + inv_word_count))
    document_to_word_freqs_ :=
      OrdMap.modify s.document_to_word_freqs_ document_id []
        (fun freqs => OrdMap.modify freqs word 0 (fun x => x + inv_word_count)) }

/-- Embeds `SearchServer::AddDocument`. -/
def AddDocument (s : SearchServer) (document_id : Int) (document : Str)
    (status : DocumentStatus) (ratings : List Int) : Except Exception Unit × SearchServer :=
  if !IsValidWord document then (.error .invalid_argument, s)
  else if decide (document_id < 0) || OrdMap.contains s.documents_ document_id then
    (.error .invalid_argument, s)
  else
    match s.SplitIntoWordsNoStop document with
    | .error e => (.error e, s)
    | .ok words =>
      let inv_word_count : ℚ := 1 / (words.length : ℚ)
      let s1 := words.foldl (AddDocument.step document_id inv_word_count) s
      (.ok (),
        { s1 with
          documents_ := OrdMap.emplace s1.documents_ document_id
            { rating := ComputeAverageRating ratings, status := status }
          document_ids_ := OrdSet.insert s1.document_ids_ document_id })

/-- Embeds `SearchServer::GetDocumentCount`. -/
def GetDocumentCount (s : SearchServer) : Nat := s.documents_.length

/-- The range `begin() .. end()`: the ids in ascending order. -/
def ids (s : SearchServer) : List Int := s.document_ids_

/-- Embeds `SearchServer::GetWordFrequencies`. -/
def GetWordFrequencies (s : SearchServer) (document_id : Int) : OrdMap Str ℚ :=
  if OrdMap.contains s.document_to_word_freqs_ document_id then
    (OrdMap.find? s.document_to_word_freqs_ document_id).getD []
  else []

/-- The loop of the sequential `RemoveDocument` over the forward entry of the
document: `word_to_document_freqs_.at(word).erase(document_id)`; `at` throws
`out_of_range` for a word without inverted entry, the erasures done so far
stay. -/
def RemoveDocument.loop (document_id : Int) :
    List (Str × ℚ) → OrdMap Str (OrdMap Int ℚ) → Except Exception Unit × OrdMap Str (OrdMap Int ℚ)
  | [], inv => (.ok (), inv)
  | (word, _) :: rest, inv =>
    if OrdMap.contains inv word then
      RemoveDocument.loop document_id rest
        (OrdMap.replace word (fun freqs => OrdMap.erase freqs document_id) inv)
    else (.error .out_of_range, inv)

/-- Embeds `SearchServer::RemoveDocument(int)`. -/
def RemoveDocument (s : SearchServer) (document_id : Int) : Except Exception Unit × SearchServer :=
  match OrdMap.find? s.document_to_word_freqs_ document_id with
  | none => (.error .out_of_range, s)
  | some word_freqs =>
    match RemoveDocument.loop document_id word_freqs s.word_to_document_freqs_ with
    | (.error e, inv) => (.error e, { s with word_to_document_freqs_ := inv })
    | (.ok _, inv) =>
      (.ok (),
        { s with
          word_to_document_freqs_ := inv
          document_to_word_freqs_ := OrdMap.erase s.document_to_word_freqs_ document_id
          document_ids_ := OrdSet.erase s.document_ids_ document_id
          documents_ := OrdMap.erase s.documents_ document_id })

/-- Embeds `SearchServer::RemoveDocument(const execution::sequenced_policy&, int)`:
the same statements, the loop written with `for_each(execution::seq, ...)`. -/
def RemoveDocumentSeq (s : SearchServer) (document_id : Int) : Except Exception Unit × SearchServer :=
  match OrdMap.find? s.document_to_word_freqs_ document_id with
  | none => (.error .out_of_range, s)
  | some word_freqs =>
    match RemoveDocument.loop document_id word_freqs s.word_to_document_freqs_ with
    | (.error e, inv) => (.error e, { s with word_to_document_freqs_ := inv })
    | (.ok _, inv) =>
      (.ok (),
        { s with
          word_to_document_freqs_ := inv
          document_to_word_freqs_ := OrdMap.erase s.document_to_word_freqs_ document_id
          document_ids_ := OrdSet.erase s.document_ids_ document_id
          documents_ := OrdMap.erase s.documents_ document_id })

/-- Embeds `SearchServer::RemoveDocument(const execution::parallel_policy&, int)`:
returns at once for an id without metadata; the words of the forward entry are
collected and `word_to_document_freqs_[word].erase(document_id)` is run for each
(every word is a different key, so the order of the rounds is immaterial);
then the metadata and the id are erased.  The forward entry is not erased. -/
def RemoveDocumentPar (s : SearchServer) (document_id : Int) : Except Exception Unit × SearchServer :=
  if !OrdMap.contains s.documents_ document_id then (.ok (), s)
  else
    match OrdMap.find? s.document_to_word_freqs_ document_id with
    | none => (.error .out_of_range, s)
    | some id_to_word =>
      let words_for_erase := id_to_word.map Prod.fst
      let inv := words_for_erase.foldl
        (fun inv word => OrdMap.modify inv word [] (fun freqs => OrdMap.erase freqs document_id))
        s.word_to_document_freqs_
      (.ok (),
        { s with
          word_to_document_freqs_ := inv
          documents_ := OrdMap.erase s.documents_ document_id
          document_ids_ := OrdSet.erase s.document_ids_ document_id })


/-! ### Query parsing -/

/-- Embeds `SearchServer::ParseQueryWord`; `text[0]` reads outside an empty view. -/
def ParseQueryWord (s : SearchServer) (text : Str) : Except Exception QueryWord :=
  match text with
  | [] => .error .undefined_behaviour
  | c :: rest =>
    if c = '-' then .ok { data := rest, is_minus := true, is_stop := s.IsStopWord rest }
    else .ok { data := text, is_minus := false, is_stop := s.IsStopWord text }

/-- The loop over the words of the query, shared by `ParseQuery` and
`ParseQueryPar`: a word that is not a stop word goes to the minus set or to
the plus set. -/
def ParseQuery.loop (s : SearchServer) : List Str → Query → Except Exception Query
  | [], query => .ok query
  | word :: rest, query =>
    match s.ParseQueryWord word with
    | .error e => .error e
    | .ok query_word =>
      if !query_word.is_stop then
        if query_word.is_minus then
          ParseQuery.loop s rest { query with minus_words := HashSet.insert query.minus_words query_word.data }
        else
          ParseQuery.loop s rest { query with plus_words := HashSet.insert query.plus_words query_word.data }
      else ParseQuery.loop s rest query

/-- Embeds `SearchServer::ParseQueryPar`, the parser without validation. -/
def ParseQueryPar (s : SearchServer) (raw_query : Str) : Except Exception Query :=
  ParseQuery.loop s (SplitIntoWordsView raw_query) { plus_words := [], minus_words := [] }

end SearchServer

/-- The search of `std::string_view::find(pattern)` from the position `i` of
the remaining text: the first position at which `pattern` starts. -/
def find.loop (pattern : Str) : Str → Nat → Option Nat
  | [], i => if pattern = [] then some i else none
  | c :: rest, i =>
    if pattern.isPrefixOf (c :: rest) then some i else find.loop pattern rest (i + 1)

/-- Embeds `std::string_view::find(pattern)`; `none` is `npos`. -/
def find (text pattern : Str) : Option Nat := find.loop pattern text 0

namespace SearchServer

/-- Embeds `SearchServer::ParseQuery`, the validating parser.  The last test reads
`raw_query[size - 1]`, which lies outside an empty query. -/
def ParseQuery (s : SearchServer) (raw_query : Str) : Except Exception Query :=
  if !IsValidWord raw_query then .error .invalid_argument
  else if find raw_query ['-', '-'] ≠ none then .error .invalid_argument
  else if find raw_query ['-', ' '] ≠ none then .error .invalid_argument
  else
    match raw_query[raw_query.length - 1]? with
    | none => .error .undefined_behaviour
    | some c =>
      if c = '-' then .error .invalid_argument
      else ParseQuery.loop s (SplitIntoWordsView raw_query) { plus_words := [], minus_words := [] }

/-! ### Ranking -/

variable {K : Type} [LinearOrderedField K]

/-- Embeds `SearchServer::ComputeWordInverseDocumentFreq`:
`log(GetDocumentCount() * 1.0 / word_to_document_freqs_.at(word).size())`. -/
def ComputeWordInverseDocumentFreq (log : ℚ → K) (s : SearchServer) (word : Str) :
    Except Exception K :=
  match OrdMap.find? s.word_to_document_freqs_ word with
  | none => .error .out_of_range
  | some freqs => .ok (log ((s.GetDocumentCount : ℚ) * 1 / (freqs.length : ℚ)))

/-- The inner loop of the plus-word pass of the sequential `FindAllDocuments`
over the pairs `(document_id, term_freq)` of one word. -/
def FindAllDocuments.addWord (s : SearchServer) (key_mapper : KeyMapper)
    (inverse_document_freq : K) : List (Int × ℚ) → OrdMap Int K → Except Exception (OrdMap Int K)
  | [], document_to_relevance => .ok document_to_relevance
  | (document_id, term_freq) :: rest, document_to_relevance =>
    match OrdMap.find? s.documents_ document_id with
    | none => .error .out_of_range
    | some data =>
      if key_mapper document_id data.status data.rating then
        FindAllDocuments.addWord s key_mapper inverse_document_freq rest
          (OrdMap.modify document_to_relevance document_id 0
            (fun x => x + (term_freq : K) * inverse_document_freq))
      else
        FindAllDocuments.addWord s key_mapper inverse_document_freq rest document_to_relevance

/-- The plus-word pass of the sequential `FindAllDocuments`. -/
def FindAllDocuments.plusLoop (log : ℚ → K) (s : SearchServer) (key_mapper : KeyMapper) :
    List Str → OrdMap Int K → Except Exception (OrdMap Int K)
  | [], document_to_relevance => .ok document_to_relevance
  | word :: rest, document_to_relevance =>
    match OrdMap.find? s.word_to_document_freqs_ word with
    | none => FindAllDocuments.plusLoop log s key_mapper rest document_to_relevance
    | some freqs =>
      match ComputeWordInverseDocumentFreq log s word with
      | .error e => .error e
      | .ok inverse_document_freq =>
        match FindAllDocuments.addWord s key_mapper inverse_document_freq freqs
            document_to_relevance with
        | .error e => .error e
        | .ok document_to_relevance1 =>
          FindAllDocuments.plusLoop log s key_mapper rest document_to_relevance1

/-- The minus-word pass of the sequential `FindAllDocuments`: every document of
a minus word is erased from the relevance map. -/
def FindAllDocuments.minusLoop (s : SearchServer) : List Str → OrdMap Int K → OrdMap Int K
  | [], document_to_relevance => document_to_relevance
  | word :: rest, document_to_relevance =>
    match OrdMap.find? s.word_to_document_freqs_ word with
    | none => FindAllDocuments.minusLoop s rest document_to_relevance
    | some freqs =>
      FindAllDocuments.minusLoop s rest
        (freqs.foldl (fun rel e => OrdMap.erase rel e.1) document_to_relevance)

/-- The last loop of `FindAllDocuments`: one `Document` for every entry of the
relevance map, with the rating `documents_.at(document_id).rating`. -/
def FindAllDocuments.collect (s : SearchServer) : List (Int × K) → Except Exception (List (Document K))
  | [] => .ok []
  | (document_id, relevance) :: rest =>
    match OrdMap.find? s.documents_ document_id with
    | none => .error .out_of_range
    | some data =>
      match FindAllDocuments.collect s rest with
      | .error e => .error e
      | .ok matched_documents =>
        .ok ({ id := document_id, relevance := relevance, rating := data.rating } :: matched_documents)

/-- Embeds `SearchServer::FindAllDocuments(const std::execution::sequenced_policy&, ...)`. -/
def FindAllDocuments (log : ℚ → K) (s : SearchServer) (query : Query) (key_mapper : KeyMapper) :
    Except Exception (List (Document K)) :=
  match FindAllDocuments.plusLoop log s key_mapper query.plus_words [] with
  | .error e => .error e
  | .ok document_to_relevance =>
    FindAllDocuments.collect s (FindAllDocuments.minusLoop s query.minus_words document_to_relevance)

end SearchServer

/-- Modelled from the spec: `ConcurrentMap` of `concurrent_map.h`, the sharded
accumulator.  A fixed number of buckets, each an ordinary map from document id
to accumulated relevance; a key is routed to the bucket `key mod bucket_count`. -/
structure ConcurrentMap (K : Type) where
  buckets : List (OrdMap Int K)

namespace ConcurrentMap

variable {K : Type} [LinearOrderedField K]

/-- Modelled from the spec: the constructor `ConcurrentMap(bucket_count)`. -/
def create (bucket_count : Nat) : ConcurrentMap K :=
  { buckets := List.replicate bucket_count [] }

/-- The change `f` applied to the bucket at position `i`. -/
def changeBucket (f : OrdMap Int K → OrdMap Int K) : Nat → List (OrdMap Int K) → List (OrdMap Int K)
  | _, [] => []
  | 0, b :: rest => f b :: rest
  | i + 1, b :: rest => b :: changeBucket f i rest

/-- Modelled from the spec: `m[key].ref_to_value += delta`, done under the lock
of the bucket of `key`. -/
def add (m : ConcurrentMap K) (key : Int) (delta : K) : ConcurrentMap K :=
  { buckets := changeBucket (fun b => OrdMap.modify b key 0 (fun x => x + delta))
      (key % (m.buckets.length : Int)).toNat m.buckets }

/-- Modelled from the spec: `BuildOrdinaryMap`, every bucket is drained into
one ordinary map. -/
def BuildOrdinaryMap (m : ConcurrentMap K) : OrdMap Int K :=
  m.buckets.foldl (fun result bucket => bucket.foldl (fun r e => OrdMap.emplace r e.1 e.2) result) []

end ConcurrentMap

/-- The insertion step of `sort`. -/
def sort.insert {α : Type} (comp : α → α → Bool) (x : α) : List α → List α
  | [] => [x]
  | y :: ys => if comp x y then x :: y :: ys else y :: sort.insert comp x ys

/-- Embeds `std::sort(first, last, comp)`, as insertion sort (the standard fixes the
result only up to the order of elements neither of which goes before the
other). -/
def sort {α : Type} (comp : α → α → Bool) : List α → List α
  | [] => []
  | x :: xs => sort.insert comp x (sort comp xs)

namespace SearchServer

variable {K : Type} [LinearOrderedField K]

/-- Embeds `SearchServer::FindAllDocuments(const std::execution::parallel_policy&, ...)`.
The rounds of the `for_each(std::execution::par, ...)` loops are run in the
order of the ranges.  The predicate `key_mapper` is not consulted and the
minus words are only compared with the plus word itself. -/
def FindAllDocumentsPar (log : ℚ → K) (s : SearchServer) (query : Query) (_key_mapper : KeyMapper) :
    Except Exception (List (Document K)) :=
  let document_to_relevance_mt : Except Exception (ConcurrentMap K) :=
    query.plus_words.foldl
      (fun acc word =>
        match acc with
        | .error e => .error e
        | .ok cm =>
          let contain_minus := query.minus_words.any (fun minus_word => decide (minus_word = word))
          if OrdMap.contains s.word_to_document_freqs_ word && !contain_minus then
            match ComputeWordInverseDocumentFreq log s word with
            | .error e => .error e
            | .ok inverse_document_freq =>
              .ok (((OrdMap.find? s.word_to_document_freqs_ word).getD []).foldl
                (fun cm doc_freq =>
                  ConcurrentMap.add cm doc_freq.1 ((doc_freq.2 : K) * inverse_document_freq))
                cm)
          else .ok cm)
      (.ok (ConcurrentMap.create 100))
  match document_to_relevance_mt with
  | .error e => .error e
  | .ok cm => FindAllDocuments.collect s (ConcurrentMap.BuildOrdinaryMap cm)

/-- The comparator of `FindTopDocuments`. -/
def compareDocuments (lhs rhs : Document K) : Bool :=
  if |lhs.relevance - rhs.relevance| < 1 / 1000000 then decide (lhs.rating > rhs.rating)
  else decide (lhs.relevance > rhs.relevance)

/-- The tail of both `FindTopDocuments`: sort, then cut to
`MAX_RESULT_DOCUMENT_COUNT` documents. -/
def sortAndTruncate (matched_documents : List (Document K)) : List (Document K) :=
  let sorted := sort compareDocuments matched_documents
  if sorted.length > MAX_RESULT_DOCUMENT_COUNT then sorted.take MAX_RESULT_DOCUMENT_COUNT
  else sorted

/-- Embeds `SearchServer::FindTopDocuments(query, key_mapper)`, the sequential variant. -/
def FindTopDocuments (log : ℚ → K) (s : SearchServer) (query : Str) (key_mapper : KeyMapper) :
    Except Exception (List (Document K)) :=
  match s.ParseQuery query with
  | .error e => .error e
  | .ok structuredQuery =>
    match FindAllDocuments log s structuredQuery key_mapper with
    | .error e => .error e
    | .ok matched_documents => .ok (sortAndTruncate matched_documents)

/-- Embeds `SearchServer::FindTopDocuments(std::execution::parallel_policy, query, key_mapper)`. -/
def FindTopDocumentsPar (log : ℚ → K) (s : SearchServer) (query : Str) (key_mapper : KeyMapper) :
    Except Exception (List (Document K)) :=
  match s.ParseQuery query with
  | .error e => .error e
  | .ok structuredQuery =>
    match FindAllDocumentsPar log s structuredQuery key_mapper with
    | .error e => .error e
    | .ok matched_documents => .ok (sortAndTruncate matched_documents)

/-- The predicate of `FindTopDocuments(raw_query, doc_status)`. -/
def statusIs (doc_status : DocumentStatus) : KeyMapper :=
  fun _ status _ => decide (status = doc_status)

/-- The predicate of `FindTopDocuments(raw_query)`. -/
def isActual : KeyMapper := statusIs DocumentStatus.ACTUAL

/-! ### Matching -/

/-- Whether `word_to_document_freqs_.count(word) > 0 &&
word_to_document_freqs_.at(word).count(document_id) > 0`. -/
def indexedUnder (s : SearchServer) (word : Str) (document_id : Int) : Bool :=
  match OrdMap.find? s.word_to_document_freqs_ word with
  | none => false
  | some freqs => OrdMap.contains freqs document_id

/-- The body of the sequential `MatchDocument` after the query is parsed. -/
def MatchDocument.body (s : SearchServer) (query : Query) (document_id : Int) :
    Except Exception (List Str × DocumentStatus) :=
  match OrdMap.find? s.documents_ document_id with
  | none => .error .out_of_range
  | some data =>
    let isMinus := query.minus_words.any (fun word => s.indexedUnder word document_id)
    let matched_words :=
      if !isMinus then query.plus_words.filter (fun word => s.indexedUnder word document_id)
      else []
    .ok (matched_words, data.status)

/-- Embeds `SearchServer::MatchDocument(raw_query, document_id)`, the sequential
variant (also reached through `std::execution::sequenced_policy`). -/
def MatchDocument (s : SearchServer) (raw_query : Str) (document_id : Int) :
    Except Exception (List Str × DocumentStatus) :=
  match s.ParseQuery raw_query with
  | .error e => .error e
  | .ok query => MatchDocument.body s query document_id

/-- Embeds `SearchServer::MatchDocument(execution::parallel_policy, raw_query, document_id)`. -/
def MatchDocumentPar (s : SearchServer) (raw_query : Str) (document_id : Int) :
    Except Exception (List Str × DocumentStatus) :=
  if OrdMap.contains s.document_to_word_freqs_ document_id then
    match s.ParseQueryPar raw_query with
    | .error e => .error e
    | .ok query =>
      let word_freqs := (OrdMap.find? s.document_to_word_freqs_ document_id).getD []
      if query.minus_words.any (fun word => OrdMap.contains word_freqs word) then
        match OrdMap.find? s.documents_ document_id with
        | none => .error .out_of_range
        | some data => .ok ([], data.status)
      else
        -- a vector of plus_words.size() empty strings, the matches copied to its front
        let copied := query.plus_words.filter (fun word => OrdMap.contains word_freqs word)
        let matched_words := copied ++ List.replicate (query.plus_words.length - copied.length) []
        let sorted := sort (fun (a b : Str) => decide (a < b)) matched_words
        -- erase(begin, upper_bound(begin, end, ""))
        let kept := sorted.dropWhile (fun word => !decide (([] : Str) < word))
        match OrdMap.find? s.documents_ document_id with
        | none => .error .out_of_range
        | some data => .ok (kept, data.status)
  else
    match OrdMap.find? s.documents_ document_id with
    | none => .error .out_of_range
    | some data => .ok ([], data.status)

end SearchServer

end Search

namespace Search

/-! ## `request_queue.h`, `request_queue.cpp` -/

/-- Embeds `RequestQueue::QueryResult`: the time of a request and the number of
documents it returned. -/
structure QueryResult where
  timestamp : Nat
  results : Int
  deriving DecidableEq, Repr

/-- Embeds the data members of `RequestQueue`: the deque of records with its
front first, the counter of requests without result (an `int`) and the clock
(a `uint64_t`).  The member `search_server_` is a reference; the server it
refers to is passed to `AddFindRequest` in its state at the call. -/
structure RequestQueue where
  requests_ : List QueryResult
  no_result_requests_ : Int
  current_time_ : Nat
  deriving DecidableEq, Repr

namespace RequestQueue

/-- Embeds `minute_in_day_`. -/
def minute_in_day_ : Nat := 1440

/-- Embeds the constructor: an empty deque, both counters 0. -/
def create : RequestQueue :=
  { requests_ := [], no_result_requests_ := 0, current_time_ := 0 }

/-- The difference `a - b` of two `uint64_t`. -/
def subUInt64 (a b : Nat) : Nat :=
  (a + 18446744073709551616 - b) % 18446744073709551616

/-- The `while` loop of `AddRequest`: as long as the deque is not empty and its
front is `minute_in_day_` or more ticks old, the front is removed and, when it
had no result, the counter is decremented. -/
def AddRequest.evict (current_time : Nat) : List QueryResult → Int → List QueryResult × Int
  | [], no_result_requests => ([], no_result_requests)
  | front :: rest, no_result_requests =>
    if minute_in_day_ ≤ subUInt64 current_time front.timestamp then
      AddRequest.evict current_time rest
        (if front.results = 0 then wrapInt32 (no_result_requests - 1) else no_result_requests)
    else (front :: rest, no_result_requests)

/-- Embeds `RequestQueue::AddRequest`. -/
def AddRequest (q : RequestQueue) (count_results : Int) : RequestQueue :=
  let current_time := (q.current_time_ + 1) % 18446744073709551616
  let evicted := AddRequest.evict current_time q.requests_ q.no_result_requests_
  { requests_ := evicted.1 ++ [{ timestamp := current_time, results := count_results }]
    no_result_requests_ := if count_results = 0 then wrapInt32 (evicted.2 + 1) else evicted.2
    current_time_ := current_time }

/-- Embeds `RequestQueue::GetNoResultRequests`. -/
def GetNoResultRequests (q : RequestQueue) : Int := q.no_result_requests_

/-- Embeds `RequestQueue::AddFindRequest(raw_query, document_predicate)`: when
`FindTopDocuments` throws, nothing is recorded; otherwise the number of
returned documents is recorded by `AddRequest`. -/
def AddFindRequest {K : Type} [LinearOrderedField K] (log : ℚ → K) (q : RequestQueue)
    (search_server : SearchServer) (raw_query : Str) (document_predicate : KeyMapper) :
    Except Exception (List (Document K)) × RequestQueue :=
  match search_server.FindTopDocuments log raw_query document_predicate with
  | .error e => (.error e, q)
  | .ok documents => (.ok documents, q.AddRequest (wrapInt32 documents.length))

/-- The records of the calls number `start + 1`, `start + 2`, ... of
`AddRequest` with the given result counts: the call number `i` is made at the
time `i` of the 64-bit clock. -/
def records (start : Nat) : List Int → List QueryResult
  | [] => []
  | count_results :: rest =>
    { timestamp := (start + 1) % 18446744073709551616, results := count_results } ::
      records (start + 1) rest

/-- The arguments of one call `AddFindRequest(raw_query, document_predicate)`,
with the server behind the reference `search_server_` in its state at the
call. -/
structure FindRequest where
  search_server : SearchServer
  raw_query : Str
  document_predicate : KeyMapper

/-- A sequence of calls of `AddFindRequest` on the queue, first call first; a
call that throws is followed by the next call, as when the caller catches the
exception. -/
def AddFindRequests {K : Type} [LinearOrderedField K] (log : ℚ → K) (q : RequestQueue)
    (calls : List FindRequest) : RequestQueue :=
  calls.foldl
    (fun queue call =>
      (AddFindRequest log queue call.search_server call.raw_query call.document_predicate).2)
    q

/-- The result counts of the calls that return, in the order of the calls: a
call returns when its `FindTopDocuments` does, with that many documents. -/
def returnedCounts {K : Type} [LinearOrderedField K] (log : ℚ → K) :
    List FindRequest → List Int
  | [] => []
  | call :: rest =>
    match call.search_server.FindTopDocuments log call.raw_query call.document_predicate with
    | .error _ => returnedCounts log rest
    | .ok documents => (documents.length : Int) :: returnedCounts log rest

end RequestQueue

/-! ## Concrete servers -/

/-- A newly constructed server without stop words, `SearchServer(""s)`. -/
def newServer : SearchServer :=
  { stop_words_ := [], word_to_document_freqs_ := [], documents_ := [],
    document_ids_ := [], document_to_word_freqs_ := [], words_ := [] }

/-- The corpus of the scenario: document 1 is "a b c" with ratings 1, 2, 3 and
document 2 is "a b" with rating 4, both ACTUAL, no stop words. -/
def scenarioServer : SearchServer :=
  ((newServer.AddDocument 1 "a b c".toList DocumentStatus.ACTUAL [1, 2, 3]).2.AddDocument
    2 "a b".toList DocumentStatus.ACTUAL [4]).2

/-- A server whose only document has an empty text: `AddDocument(1, "", ACTUAL, {})`
on a new server. -/
def emptyTextServer : SearchServer :=
  (newServer.AddDocument 1 [] DocumentStatus.ACTUAL []).2

/-- Three calls of `AddFindRequest` with the default predicate on the corpus of
the scenario: the queries "a", "--bad" and "zzz". -/
def scenarioCalls : List RequestQueue.FindRequest :=
  [{ search_server := scenarioServer, raw_query := "a".toList,
     document_predicate := SearchServer.isActual },
   { search_server := scenarioServer, raw_query := "--bad".toList,
     document_predicate := SearchServer.isActual },
   { search_server := scenarioServer, raw_query := "zzz".toList,
     document_predicate := SearchServer.isActual }]

end Search

namespace Search

/-! ## Reachable states -/

/-- The states of a server that is constructed and then used through
`AddDocument` and the three `RemoveDocument` overloads; a call that throws
leaves the state it has produced so far. -/
inductive Reachable : SearchServer → Prop where
  | construct (stop_words : List Str) (s : SearchServer) :
      SearchServer.construct stop_words = .ok s → Reachable s
  | add (s : SearchServer) (document_id : Int) (document : Str) (status : DocumentStatus)
      (ratings : List Int) :
      Reachable s → Reachable (s.AddDocument document_id document status ratings).2
  | remove (s : SearchServer) (document_id : Int) :
      Reachable s → Reachable (s.RemoveDocument document_id).2
  | removeSeq (s : SearchServer) (document_id : Int) :
      Reachable s → Reachable (s.RemoveDocumentSeq document_id).2
  | removePar (s : SearchServer) (document_id : Int) :
      Reachable s → Reachable (s.RemoveDocumentPar document_id).2

/-- The states reached without the parallel `RemoveDocument`. -/
inductive ReachableSeq : SearchServer → Prop where
  | construct (stop_words : List Str) (s : SearchServer) :
      SearchServer.construct stop_words = .ok s → ReachableSeq s
  | add (s : SearchServer) (document_id : Int) (document : Str) (status : DocumentStatus)
      (ratings : List Int) :
      ReachableSeq s → ReachableSeq (s.AddDocument document_id document status ratings).2
  | remove (s : SearchServer) (document_id : Int) :
      ReachableSeq s → ReachableSeq (s.RemoveDocument document_id).2
  | removeSeq (s : SearchServer) (document_id : Int) :
      ReachableSeq s → ReachableSeq (s.RemoveDocumentSeq document_id).2

/-- Whether the inverted index `inv` has the document under the word. -/
def invertedHas (inv : OrdMap Str (OrdMap Int ℚ)) (word : Str) (document_id : Int) : Bool :=
  match OrdMap.find? inv word with
  | none => false
  | some freqs => OrdMap.contains freqs document_id

/-- The term frequency the inverted index `inv` stores for the pair (word,
document); `none` when it has no such entry. -/
def invertedFreq (inv : OrdMap Str (OrdMap Int ℚ)) (word : Str) (document_id : Int) : Option ℚ :=
  match OrdMap.find? inv word with
  | none => none
  | some freqs => OrdMap.find? freqs document_id

/-- The term frequency the forward index `fwd` stores for the pair (document,
word); `none` when it has no such entry. -/
def forwardFreq (fwd : OrdMap Int (OrdMap Str ℚ)) (document_id : Int) (word : Str) : Option ℚ :=
  match OrdMap.find? fwd document_id with
  | none => none
  | some freqs => OrdMap.find? freqs word

/-- Whether the forward index `fwd` has the word under the document. -/
def forwardHas (fwd : OrdMap Int (OrdMap Str ℚ)) (document_id : Int) (word : Str) : Bool :=
  match OrdMap.find? fwd document_id with
  | none => false
  | some freqs => OrdMap.contains freqs word

/-- The words of a text that `AddDocument` indexes: its tokens that are no
stop words. -/
def indexedWords (s : SearchServer) (text : Str) : List Str :=
  (SplitIntoWordsView text).filter (fun w => !s.IsStopWord w)

end Search

namespace Search

/-- The consistency of the two indexes that every reachable state has: a
document of the inverted index has metadata and has the word in its forward
entry, a word of the forward index is a key of the inverted index, and no id
has two metadata entries. -/
structure Consistent (s : SearchServer) : Prop where
  inverted_live : ∀ w id, invertedHas s.word_to_document_freqs_ w id = true →
    OrdMap.contains s.documents_ id = true
  inverted_forward : ∀ w id, invertedHas s.word_to_document_freqs_ w id = true →
    forwardHas s.document_to_word_freqs_ id w = true
  forward_word : ∀ id w, forwardHas s.document_to_word_freqs_ id w = true →
    OrdMap.contains s.word_to_document_freqs_ w = true
  documents_nodup : (OrdMap.keys s.documents_).Nodup

/-- Whether the document has metadata and the predicate accepts
`(id, status, rating)`. -/
def passes (s : SearchServer) (key_mapper : KeyMapper) (document_id : Int) : Bool :=
  match OrdMap.find? s.documents_ document_id with
  | none => false
  | some data => key_mapper document_id data.status data.rating

/-- The set `C` of the ranking contract, as the list of its ids in ascending
order: the live documents that are indexed under at least one plus word of the
query, satisfy the predicate, and are indexed under no minus word. -/
def candidates (s : SearchServer) (query : Query) (key_mapper : KeyMapper) : List Int :=
  (OrdMap.keys s.documents_).filter (fun id =>
    query.plus_words.any (fun word => s.indexedUnder word id) &&
      passes s key_mapper id &&
      !query.minus_words.any (fun word => s.indexedUnder word id))

end Search

namespace Search

/-! ## The ranking order -/

/-- Two results are tied: their relevances differ by less than 1e-6. -/
def nearTie {K : Type} [LinearOrderedField K] (a b : Document K) : Prop :=
  |a.relevance - b.relevance| < 1 / 1000000

/-- The order the ranking contract asks of the results at two positions
`i < j`: the relevance of the first exceeds that of the second by at least
1e-6, or the two are tied and the rating of the first is not smaller. -/
def rankedBefore {K : Type} [LinearOrderedField K] (a b : Document K) : Prop :=
  a.relevance - b.relevance ≥ 1 / 1000000 ∨ (nearTie a b ∧ a.rating ≥ b.rating)

/-- The text of `n` words "y", each after a space. -/
def filler : Nat → Str
  | 0 => []
  | n + 1 => ' ' :: 'y' :: filler n

/-- The state the server is left in by the call `AddDocument(...)`. -/
def SearchServer.afterAdd (s : SearchServer) (document_id : Int) (document : Str)
    (status : DocumentStatus) (ratings : List Int) : SearchServer :=
  (s.AddDocument document_id document status ratings).2

/-- A corpus with a cycle of near ties, built by four calls of `AddDocument`
on a new server: the documents 1, 2, 3 are "x" followed by 601, 600 and 599
words "y" and have the ratings 3, 2, 1; document 4 is "z".  For the query "x"
the relevances are ln(4/3)/602, ln(4/3)/601 and ln(4/3)/600. -/
def tieCycleServer : SearchServer :=
  (((newServer.afterAdd 1 ('x' :: filler 601) DocumentStatus.ACTUAL [3]).afterAdd
    2 ('x' :: filler 600) DocumentStatus.ACTUAL [2]).afterAdd
    3 ('x' :: filler 599) DocumentStatus.ACTUAL [1]).afterAdd
    4 "z".toList DocumentStatus.ACTUAL [0]

end Search

/-! # Lemmas on the containers -/

set_option linter.unusedSectionVars false
set_option linter.unusedVariables false

namespace Search

namespace OrdMap

variable {κ V : Type} [DecidableEq κ] [LT κ] [DecidableRel (LT.lt : κ → κ → Prop)]

theorem find?_nil (k : κ) : find? ([] : OrdMap κ V) k = none := rfl

theorem find?_cons (k' : κ) (v : V) (rest : OrdMap κ V) (k : κ) :
    find? ((k', v) :: rest) k = if k' = k then some v else find? rest k := rfl

theorem contains_iff_mem_keys (m : OrdMap κ V) (k : κ) :
    contains m k = true ↔ k ∈ keys m := by
  induction m with
  | nil => simp [contains, find?, keys]
  | cons e rest ih =>
    obtain ⟨k', v⟩ := e
    by_cases h : k' = k
    · simp [contains, find?, keys, h]
    · have h' : ¬ k = k' := fun hh => h hh.symm
      simpa [contains, find?, keys, h, h'] using ih

theorem find?_eq_none_iff (m : OrdMap κ V) (k : κ) :
    find? m k = none ↔ k ∉ keys m := by
  rw [← contains_iff_mem_keys]
  cases hf : find? m k <;> simp [contains, hf]

theorem mem_of_find? {m : OrdMap κ V} {k : κ} {v : V} (h : find? m k = some v) :
    (k, v) ∈ m := by
  induction m with
  | nil => simp [find?] at h
  | cons e rest ih =>
    obtain ⟨k', v'⟩ := e
    by_cases hk : k' = k
    · simp [find?, hk] at h
      simp [hk, h]
    · simp [find?, hk] at h
      exact List.mem_cons_of_mem _ (ih h)

theorem find?_of_mem {m : OrdMap κ V} (hnd : (keys m).Nodup) {k : κ} {v : V}
    (h : (k, v) ∈ m) : find? m k = some v := by
  induction m with
  | nil => simp at h
  | cons e rest ih =>
    obtain ⟨k', v'⟩ := e
    simp only [keys, List.map_cons, List.nodup_cons] at hnd
    rcases List.mem_cons.1 h with heq | hmem
    · cases heq
      simp [find?]
    · have hne : k' ≠ k := by
        rintro rfl
        exact hnd.1 (List.mem_map_of_mem Prod.fst hmem)
      simp [find?, hne, ih hnd.2 hmem]

theorem find?_insertNew (m : OrdMap κ V) (k : κ) (v : V) (k' : κ) (h : find? m k = none) :
    find? (insertNew k v m) k' = if k' = k then some v else find? m k' := by
  induction m with
  | nil =>
    by_cases hk : k' = k
    · simp [insertNew, find?, hk]
    · have : ¬ k = k' := fun hh => hk hh.symm
      simp [insertNew, find?, hk, this]
  | cons e rest ih =>
    obtain ⟨k1, v1⟩ := e
    have hk1 : ¬ k1 = k := by
      intro hh
      simp [find?, hh] at h
    have hrest : find? rest k = none := by simpa [find?, hk1] using h
    by_cases hlt : k < k1
    · by_cases hk : k' = k
      · simp [insertNew, hlt, find?, hk]
      · have : ¬ k = k' := fun hh => hk hh.symm
        simp [insertNew, hlt, find?, hk, this]
    · by_cases hk : k' = k
      · subst hk
        simp [insertNew, hlt, find?, hk1, ih hrest]
      · by_cases h1 : k1 = k'
        · subst h1
          simp [insertNew, hlt, find?, hk]
        · simp [insertNew, hlt, find?, hk, h1, ih hrest]

theorem find?_replace (m : OrdMap κ V) (k : κ) (f : V → V) (k' : κ) :
    find? (replace k f m) k' = if k' = k then (find? m k).map f else find? m k' := by
  induction m with
  | nil => simp [replace, find?]
  | cons e rest ih =>
    obtain ⟨k1, v1⟩ := e
    by_cases h1 : k1 = k
    · subst h1
      by_cases hk : k' = k1
      · simp [replace, find?, hk]
      · have : ¬ k1 = k' := fun hh => hk hh.symm
        simp [replace, find?, hk, this]
    · by_cases hk : k' = k
      · subst hk
        simp [replace, find?, h1, ih]
      · by_cases h2 : k1 = k'
        · simp [replace, find?, h1, hk, h2]
        · simp [replace, find?, h1, hk, h2, ih]

theorem find?_modify (m : OrdMap κ V) (k : κ) (d : V) (f : V → V) (k' : κ) :
    find? (modify m k d f) k' =
      if k' = k then some (f ((find? m k).getD d)) else find? m k' := by
  unfold modify
  cases hf : find? m k with
  | none =>
    have hc : contains m k = false := by simp [contains, hf]
    simp [hc, find?_insertNew m k (f d) k' hf]
  | some v =>
    have hc : contains m k = true := by simp [contains, hf]
    simp [hc, find?_replace, hf]

theorem find?_emplace (m : OrdMap κ V) (k : κ) (v : V) (k' : κ) :
    find? (emplace m k v) k' =
      if k' = k then some ((find? m k).getD v) else find? m k' := by
  unfold emplace
  cases hf : find? m k with
  | none =>
    have hc : contains m k = false := by simp [contains, hf]
    simp [hc, find?_insertNew m k v k' hf]
  | some v0 =>
    have hc : contains m k = true := by simp [contains, hf]
    by_cases hk : k' = k
    · simp [hc, hk, hf]
    · simp [hc, hk]

theorem find?_erase (m : OrdMap κ V) (k k' : κ) :
    find? (erase m k) k' = if k' = k then none else find? m k' := by
  induction m with
  | nil => simp [erase, find?]
  | cons e rest ih =>
    obtain ⟨k1, v1⟩ := e
    unfold erase at ih ⊢
    simp only [ne_eq, decide_not] at ih ⊢
    by_cases h1 : k1 = k
    · subst h1
      by_cases hk : k' = k1
      · subst hk
        simpa [List.filter_cons, find?] using ih
      · have : ¬ k1 = k' := fun hh => hk hh.symm
        simp [List.filter_cons, find?, hk, this, ih]
    · by_cases hk : k' = k
      · subst hk
        simp [List.filter_cons, find?, h1, ih]
      · by_cases h2 : k1 = k'
        · simp [List.filter_cons, find?, h1, hk, h2]
        · simp [List.filter_cons, find?, h1, hk, h2, ih]

theorem keys_insertNew_perm (m : OrdMap κ V) (k : κ) (v : V) :
    (keys (insertNew k v m)).Perm (k :: keys m) := by
  induction m with
  | nil => simp [insertNew, keys]
  | cons e rest ih =>
    obtain ⟨k1, v1⟩ := e
    by_cases hlt : k < k1
    · simp [insertNew, hlt, keys]
    · simp only [insertNew, hlt, if_false, keys, List.map_cons] at ih ⊢
      exact (List.Perm.cons k1 ih).trans (List.Perm.swap k k1 _)

theorem keys_replace (m : OrdMap κ V) (k : κ) (f : V → V) :
    keys (replace k f m) = keys m := by
  induction m with
  | nil => rfl
  | cons e rest ih =>
    obtain ⟨k1, v1⟩ := e
    by_cases h1 : k1 = k
    · simp [replace, h1, keys]
    · simp only [keys] at ih
      simp [replace, h1, keys, ih]

theorem nodup_keys_modify (m : OrdMap κ V) (k : κ) (d : V) (f : V → V)
    (h : (keys m).Nodup) : (keys (modify m k d f)).Nodup := by
  unfold modify
  by_cases hc : contains m k = true
  · simp [hc, keys_replace, h]
  · have hk : k ∉ keys m := fun hh => hc ((contains_iff_mem_keys m k).2 hh)
    simp only [hc]
    exact (keys_insertNew_perm m k (f d)).nodup_iff.2 (List.nodup_cons.2 ⟨hk, h⟩)

theorem nodup_keys_emplace (m : OrdMap κ V) (k : κ) (v : V)
    (h : (keys m).Nodup) : (keys (emplace m k v)).Nodup := by
  unfold emplace
  by_cases hc : contains m k = true
  · simp [hc, h]
  · have hk : k ∉ keys m := fun hh => hc ((contains_iff_mem_keys m k).2 hh)
    simp only [hc]
    exact (keys_insertNew_perm m k v).nodup_iff.2 (List.nodup_cons.2 ⟨hk, h⟩)

theorem keys_erase (m : OrdMap κ V) (k : κ) :
    keys (erase m k) = (keys m).filter (fun x => decide (x ≠ k)) := by
  induction m with
  | nil => rfl
  | cons e rest ih =>
    obtain ⟨k1, v1⟩ := e
    unfold erase keys at ih ⊢
    simp only [ne_eq, decide_not] at ih ⊢
    by_cases h1 : k1 = k
    · simp [List.filter_cons, h1, ih]
    · simp [List.filter_cons, h1, ih]

theorem nodup_keys_erase (m : OrdMap κ V) (k : κ)
    (h : (keys m).Nodup) : (keys (erase m k)).Nodup := by
  rw [keys_erase]
  exact h.filter _

theorem mem_keys_modify (m : OrdMap κ V) (k : κ) (d : V) (f : V → V) (k' : κ) :
    k' ∈ keys (modify m k d f) ↔ k' = k ∨ k' ∈ keys m := by
  rw [← contains_iff_mem_keys, ← contains_iff_mem_keys]
  unfold contains
  rw [find?_modify]
  by_cases hk : k' = k
  · simp [hk]
  · simp [hk]

theorem mem_keys_erase (m : OrdMap κ V) (k k' : κ) :
    k' ∈ keys (erase m k) ↔ k' ≠ k ∧ k' ∈ keys m := by
  rw [keys_erase]
  simp [List.mem_filter, and_comm]

end OrdMap

end Search

namespace Search

/-! # The tokenizer -/

theorem char_control_iff (c : Char) :
    (decide (Char.ofNat 0 ≤ c) && decide (c < ' ')) = true ↔ c.toNat ≤ 31 := by
  have h0 : Char.ofNat 0 ≤ c := Nat.zero_le _
  have h1 : c < ' ' ↔ c.toNat < 32 := Iff.rfl
  simp only [Bool.and_eq_true, decide_eq_true_eq, h0, true_and, h1]
  omega

theorem IsValidWord_iff (word : Str) :
    SearchServer.IsValidWord word = true ↔ ∀ c ∈ word, ¬ c.toNat ≤ 31 := by
  unfold SearchServer.IsValidWord
  rw [List.all_eq_true]
  constructor
  · intro h c hc hle
    have := h c hc
    rw [Bool.not_eq_true', ← Bool.not_eq_true] at this
    exact this ((char_control_iff c).2 hle)
  · intro h c hc
    rw [Bool.not_eq_true', ← Bool.not_eq_true]
    exact fun hh => h c hc ((char_control_iff c).1 hh)

theorem IsValidWord_false_iff (word : Str) :
    SearchServer.IsValidWord word = false ↔ ∃ c ∈ word, c.toNat ≤ 31 := by
  rw [← Bool.not_eq_true, IsValidWord_iff]
  push_neg
  rfl

theorem IsValidWord_of_infix {w text : Str} (h : w <:+: text)
    (hv : SearchServer.IsValidWord text = true) : SearchServer.IsValidWord w = true := by
  rw [IsValidWord_iff] at hv ⊢
  exact fun c hc => hv c (h.subset hc)

/-- The invariant of the loop of `SplitIntoWordsView`: every word pushed is a
non-empty infix of the text, and the current view stays a suffix of it. -/
theorem SplitIntoWordsView_loop_spec (text : Str) :
    ∀ (rest : Str) (i startNewWord : Nat) (word : Str) (words : List Str),
      word = text.drop startNewWord → startNewWord ≤ i → i + rest.length = text.length →
      (∀ w ∈ words, w ≠ [] ∧ w <:+: text) →
      (∀ w ∈ (SplitIntoWordsView.loop text rest i startNewWord word words).1,
          w ≠ [] ∧ w <:+: text) ∧
        (SplitIntoWordsView.loop text rest i startNewWord word words).2 <:+: text := by
  intro rest
  induction rest with
  | nil =>
    intro i st word words hw _ _ hws
    refine ⟨hws, ?_⟩
    simp only [SplitIntoWordsView.loop]
    rw [hw]
    exact (List.drop_suffix _ _).isInfix
  | cons c rest ih =>
    intro i st word words hw hst hlen hws
    simp only [List.length_cons] at hlen
    by_cases hc : c = ' '
    · simp only [SplitIntoWordsView.loop, hc, if_true]
      apply ih (i + 1) (i + 1) (text.drop (i + 1)) _ rfl (le_refl _) (by omega)
      intro w hmem
      by_cases hi : i = st
      · simp only [hi, ne_eq, not_true_eq_false, if_false] at hmem
        exact hws w hmem
      · simp only [ne_eq, hi, not_false_eq_true, if_true, List.mem_append,
          List.mem_singleton] at hmem
        rcases hmem with hmem | rfl
        · exact hws w hmem
        · constructor
          · intro hnil
            have hl := congrArg List.length hnil
            simp only [hw, List.length_take, List.length_drop, List.length_nil] at hl
            omega
          · rw [hw]
            exact (List.take_prefix _ _).isInfix.trans (List.drop_suffix _ _).isInfix
    · simp only [SplitIntoWordsView.loop, hc, if_false]
      exact ih (i + 1) st word words hw (by omega) (by omega) hws

theorem SplitIntoWordsView_spec (text : Str) :
    ∀ w ∈ SplitIntoWordsView text, w ≠ [] ∧ w <:+: text := by
  have h := SplitIntoWordsView_loop_spec text text 0 0 text [] rfl (le_refl _) (by simp)
    (by simp)
  intro w hw
  unfold SplitIntoWordsView at hw
  simp only at hw
  split at hw
  · rename_i hcond
    rcases List.mem_append.1 hw with hw | hw
    · exact h.1 w hw
    · rw [List.mem_singleton] at hw
      subst hw
      exact ⟨hcond.1, h.2⟩
  · exact h.1 w hw

/-! # The search of `find` -/

theorem find_loop_ne_none_iff (pattern : Str) :
    ∀ (text : Str) (i : Nat), find.loop pattern text i ≠ none ↔ pattern <:+: text := by
  intro text
  induction text with
  | nil =>
    intro i
    by_cases hp : pattern = []
    · simp [find.loop, hp]
    · simp [find.loop, hp]
  | cons c rest ih =>
    intro i
    unfold find.loop
    by_cases hpre : pattern.isPrefixOf (c :: rest) = true
    · simp only [hpre, if_true, ne_eq, reduceCtorEq, not_false_eq_true, true_iff]
      exact (List.isPrefixOf_iff_prefix.1 hpre).isInfix
    · simp only [hpre, Bool.false_eq_true, if_false]
      rw [ih (i + 1), List.infix_cons_iff]
      constructor
      · exact fun h => Or.inr h
      · rintro (h | h)
        · exact absurd (List.isPrefixOf_iff_prefix.2 h) hpre
        · exact h

theorem find_ne_none_iff (text pattern : Str) :
    find text pattern ≠ none ↔ pattern <:+: text :=
  find_loop_ne_none_iff pattern text 0

end Search

namespace Search

/-! # The query parser -/

theorem HashSet_mem_insert {κ : Type} [DecidableEq κ] (s : HashSet κ) (k w : κ) :
    w ∈ HashSet.insert s k ↔ w ∈ s ∨ w = k := by
  unfold HashSet.insert
  by_cases h : k ∈ s
  · simp only [h, if_true]
    constructor
    · exact Or.inl
    · rintro (h1 | rfl)
      · exact h1
      · exact h
  · simp [h]

theorem HashSet_nodup_insert {κ : Type} [DecidableEq κ] (s : HashSet κ) (k : κ)
    (h : s.Nodup) : (HashSet.insert s k).Nodup := by
  unfold HashSet.insert
  by_cases hk : k ∈ s
  · simp [hk, h]
  · simp only [hk, if_false]
    exact List.nodup_append.2 ⟨h, List.nodup_singleton k, by
      intro a ha hb
      rw [List.mem_singleton] at hb
      exact hk (hb ▸ ha)⟩

namespace SearchServer

theorem IsStopWord_iff (s : SearchServer) (w : Str) :
    s.IsStopWord w = true ↔ w ∈ s.stop_words_ := by
  simp [IsStopWord]

theorem ParseQuery_loop_ok (s : SearchServer) :
    ∀ (tokens : List Str) (q0 : Query), (∀ w ∈ tokens, w ≠ []) →
      ∃ q, ParseQuery.loop s tokens q0 = .ok q := by
  intro tokens
  induction tokens with
  | nil => exact fun q0 _ => ⟨q0, rfl⟩
  | cons t rest ih =>
    intro q0 h
    have ht : t ≠ [] := h t (List.mem_cons_self _ _)
    have hrest : ∀ w ∈ rest, w ≠ [] := fun w hw => h w (List.mem_cons_of_mem _ hw)
    cases t with
    | nil => exact absurd rfl ht
    | cons c t' =>
      unfold ParseQuery.loop ParseQueryWord
      by_cases hc : c = '-'
      · simp only [hc, if_true]
        split <;> exact ih _ hrest
      · simp only [hc, if_false]
        split <;> exact ih _ hrest

/-- What the loop of the parser adds to the two sets. -/
theorem ParseQuery_loop_spec (s : SearchServer) :
    ∀ (tokens : List Str) (q0 q : Query), ParseQuery.loop s tokens q0 = .ok q →
      (∀ w, w ∈ q.minus_words ↔
        w ∈ q0.minus_words ∨ (('-' :: w) ∈ tokens ∧ w ∉ s.stop_words_)) ∧
      (∀ w, w ∈ q.plus_words ↔
        w ∈ q0.plus_words ∨ (w ∈ tokens ∧ w.head? ≠ some '-' ∧ w ∉ s.stop_words_)) ∧
      (q0.plus_words.Nodup → q.plus_words.Nodup) ∧
      (q0.minus_words.Nodup → q.minus_words.Nodup) := by
  intro tokens
  induction tokens with
  | nil =>
    intro q0 q h
    simp only [ParseQuery.loop, Except.ok.injEq] at h
    subst h
    simp
  | cons t rest ih =>
    intro q0 q h
    cases t with
    | nil => simp [ParseQuery.loop, ParseQueryWord] at h
    | cons c t' =>
      unfold ParseQuery.loop ParseQueryWord at h
      by_cases hc : c = '-'
      · subst hc
        simp only [if_true] at h
        by_cases hstop : s.IsStopWord t' = true
        · simp only [hstop, Bool.not_true, Bool.false_eq_true, if_false] at h
          obtain ⟨h1, h2, h3, h4⟩ := ih _ _ h
          have hs := (IsStopWord_iff s t').1 hstop
          refine ⟨fun w => ?_, fun w => ?_, h3, h4⟩
          · rw [h1 w]
            simp only [List.mem_cons, List.cons.injEq, true_and]
            constructor
            · rintro (h | ⟨h, hn⟩)
              · exact Or.inl h
              · exact Or.inr ⟨Or.inr h, hn⟩
            · rintro (h | ⟨h | h, hn⟩)
              · exact Or.inl h
              · exact absurd (h ▸ hs) hn
              · exact Or.inr ⟨h, hn⟩
          · rw [h2 w]
            simp only [List.mem_cons]
            constructor
            · rintro (h | ⟨h, hn⟩)
              · exact Or.inl h
              · exact Or.inr ⟨Or.inr h, hn⟩
            · rintro (h | ⟨h | h, hn⟩)
              · exact Or.inl h
              · exact absurd (by rw [h]; rfl) hn.1
              · exact Or.inr ⟨h, hn⟩
        · simp only [hstop, Bool.not_false, if_true] at h
          obtain ⟨h1, h2, h3, h4⟩ := ih _ _ h
          have hs : t' ∉ s.stop_words_ := fun hh => hstop ((IsStopWord_iff s t').2 hh)
          refine ⟨fun w => ?_, fun w => ?_, h3, fun hnd => h4 (HashSet_nodup_insert _ _ hnd)⟩
          · rw [h1 w]
            simp only [HashSet_mem_insert, List.mem_cons, List.cons.injEq, true_and]
            constructor
            · rintro ((h | h) | ⟨h, hn⟩)
              · exact Or.inl h
              · exact Or.inr ⟨Or.inl h, h ▸ hs⟩
              · exact Or.inr ⟨Or.inr h, hn⟩
            · rintro (h | ⟨h | h, hn⟩)
              · exact Or.inl (Or.inl h)
              · exact Or.inl (Or.inr h)
              · exact Or.inr ⟨h, hn⟩
          · rw [h2 w]
            simp only [List.mem_cons]
            constructor
            · rintro (h | ⟨h, hn⟩)
              · exact Or.inl h
              · exact Or.inr ⟨Or.inr h, hn⟩
            · rintro (h | ⟨h | h, hn⟩)
              · exact Or.inl h
              · exact absurd (by rw [h]; rfl) hn.1
              · exact Or.inr ⟨h, hn⟩
      · simp only [hc, if_false] at h
        by_cases hstop : s.IsStopWord (c :: t') = true
        · simp only [hstop, Bool.not_true, Bool.false_eq_true, if_false] at h
          obtain ⟨h1, h2, h3, h4⟩ := ih _ _ h
          have hs := (IsStopWord_iff s (c :: t')).1 hstop
          refine ⟨fun w => ?_, fun w => ?_, h3, h4⟩
          · rw [h1 w]
            simp only [List.mem_cons, List.cons.injEq]
            constructor
            · rintro (h | ⟨h, hn⟩)
              · exact Or.inl h
              · exact Or.inr ⟨Or.inr h, hn⟩
            · rintro (h | ⟨h | h, hn⟩)
              · exact Or.inl h
              · exact absurd h.1.symm hc
              · exact Or.inr ⟨h, hn⟩
          · rw [h2 w]
            simp only [List.mem_cons]
            constructor
            · rintro (h | ⟨h, hn⟩)
              · exact Or.inl h
              · exact Or.inr ⟨Or.inr h, hn⟩
            · rintro (h | ⟨h | h, hn⟩)
              · exact Or.inl h
              · exact absurd (h ▸ hs) hn.2
              · exact Or.inr ⟨h, hn⟩
        · simp only [hstop, Bool.not_false, if_true, Bool.false_eq_true, if_false] at h
          obtain ⟨h1, h2, h3, h4⟩ := ih _ _ h
          have hs : (c :: t') ∉ s.stop_words_ :=
            fun hh => hstop ((IsStopWord_iff s (c :: t')).2 hh)
          refine ⟨fun w => ?_, fun w => ?_, fun hnd => h3 (HashSet_nodup_insert _ _ hnd), h4⟩
          · rw [h1 w]
            simp only [List.mem_cons, List.cons.injEq]
            constructor
            · rintro (h | ⟨h, hn⟩)
              · exact Or.inl h
              · exact Or.inr ⟨Or.inr h, hn⟩
            · rintro (h | ⟨h | h, hn⟩)
              · exact Or.inl h
              · exact absurd h.1.symm hc
              · exact Or.inr ⟨h, hn⟩
          · rw [h2 w]
            simp only [HashSet_mem_insert, List.mem_cons]
            constructor
            · rintro ((h | h) | ⟨h, hn⟩)
              · exact Or.inl h
              · refine Or.inr ⟨Or.inl h, ?_, h ▸ hs⟩
                rw [h]
                simpa using hc
              · exact Or.inr ⟨Or.inr h, hn⟩
            · rintro (h | ⟨h | h, hn⟩)
              · exact Or.inl (Or.inl h)
              · exact Or.inl (Or.inr h)
              · exact Or.inr ⟨h, hn⟩

end SearchServer

end Search

namespace Search

namespace SearchServer

/-- When the validating parser is past its four tests. -/
theorem ParseQuery_eq_loop (s : SearchServer) (raw_query : Str) (h : raw_query ≠ [])
    (h1 : ¬ ∃ c ∈ raw_query, c.toNat ≤ 31) (h2 : ¬ ['-', '-'] <:+: raw_query)
    (h3 : ¬ ['-', ' '] <:+: raw_query) (h4 : raw_query.getLast? ≠ some '-') :
    s.ParseQuery raw_query =
      ParseQuery.loop s (SplitIntoWordsView raw_query) { plus_words := [], minus_words := [] } := by
  have hv : IsValidWord raw_query = true := by
    rw [← Bool.not_eq_false, IsValidWord_false_iff]
    exact h1
  have hf2 : find raw_query ['-', '-'] = none := by
    by_contra hh
    exact h2 ((find_ne_none_iff _ _).1 hh)
  have hf3 : find raw_query ['-', ' '] = none := by
    by_contra hh
    exact h3 ((find_ne_none_iff _ _).1 hh)
  unfold ParseQuery
  rw [← List.getLast?_eq_getElem?]
  cases hl : raw_query.getLast? with
  | none => exact absurd (List.getLast?_eq_none_iff.1 hl) h
  | some c =>
    have hc : c ≠ '-' := fun hh => h4 (by rw [hl, hh])
    simp [hv, hf2, hf3, hc]

theorem ParseQuery_error_of (s : SearchServer) (raw_query : Str)
    (h : (∃ c ∈ raw_query, c.toNat ≤ 31) ∨ ['-', '-'] <:+: raw_query ∨
      ['-', ' '] <:+: raw_query ∨ raw_query.getLast? = some '-') :
    s.ParseQuery raw_query = .error .invalid_argument := by
  unfold ParseQuery
  by_cases hv : IsValidWord raw_query = true
  · by_cases h2 : find raw_query ['-', '-'] = none
    · by_cases h3 : find raw_query ['-', ' '] = none
      · have h1 : ¬ ∃ c ∈ raw_query, c.toNat ≤ 31 := by
          rw [← IsValidWord_false_iff]
          simp [hv]
        have h2' : ¬ ['-', '-'] <:+: raw_query := by
          rw [← find_ne_none_iff]
          simp [h2]
        have h3' : ¬ ['-', ' '] <:+: raw_query := by
          rw [← find_ne_none_iff]
          simp [h3]
        have h4 : raw_query.getLast? = some '-' := by
          rcases h with h | h | h | h
          · exact absurd h h1
          · exact absurd h h2'
          · exact absurd h h3'
          · exact h
        rw [← List.getLast?_eq_getElem?, h4]
        simp [hv, h2, h3]
      · simp [hv, h2, h3]
    · simp [hv, h2]
  · simp [hv]

/-- An accepted query passes the four tests and is the outcome of the loop. -/
theorem ParseQuery_ok (s : SearchServer) (raw_query : Str) (q : Query)
    (h : s.ParseQuery raw_query = .ok q) :
    ¬ ['-', '-'] <:+: raw_query ∧
      ParseQuery.loop s (SplitIntoWordsView raw_query) { plus_words := [], minus_words := [] }
        = .ok q := by
  have hne : raw_query ≠ [] := by
    rintro rfl
    simp [ParseQuery, IsValidWord, find, find.loop] at h
  by_cases hc : (∃ c ∈ raw_query, c.toNat ≤ 31) ∨ ['-', '-'] <:+: raw_query ∨
      ['-', ' '] <:+: raw_query ∨ raw_query.getLast? = some '-'
  · rw [ParseQuery_error_of s raw_query hc] at h
    cases h
  · push_neg at hc
    obtain ⟨h1, h2, h3, h4⟩ := hc
    rw [ParseQuery_eq_loop s raw_query hne (by push_neg; exact h1) h2 h3 h4] at h
    exact ⟨h2, h⟩

end SearchServer

open SearchServer

/-- Claim C7. For a non-empty query string the validating parser fails with
`invalid_argument` exactly when the string has a character with code 0..31, or
contains "--", or contains "- ", or ends with '-'; in every other case it
returns a query.  "--bad", "word -" and "word - other" are rejected, "word -other"
is accepted. -/
theorem C7_ParseQuery_invalid_argument_iff (s : SearchServer) (raw_query : Str)
    (h : raw_query ≠ []) :
    (s.ParseQuery raw_query = .error .invalid_argument ↔
      ((∃ c ∈ raw_query, c.toNat ≤ 31) ∨ ['-', '-'] <:+: raw_query ∨
        ['-', ' '] <:+: raw_query ∨ raw_query.getLast? = some '-')) ∧
    (s.ParseQuery raw_query ≠ .error .invalid_argument → ∃ q, s.ParseQuery raw_query = .ok q) ∧
    s.ParseQuery "--bad".toList = .error .invalid_argument ∧
    s.ParseQuery "word -".toList = .error .invalid_argument ∧
    s.ParseQuery "word - other".toList = .error .invalid_argument ∧
    (∃ q, s.ParseQuery "word -other".toList = .ok q) := by
  have key : ∀ raw : Str, raw ≠ [] →
      ¬ ((∃ c ∈ raw, c.toNat ≤ 31) ∨ ['-', '-'] <:+: raw ∨
        ['-', ' '] <:+: raw ∨ raw.getLast? = some '-') →
      ∃ q, s.ParseQuery raw = .ok q := by
    intro raw hne hc
    push_neg at hc
    obtain ⟨h1, h2, h3, h4⟩ := hc
    rw [ParseQuery_eq_loop s raw hne (by push_neg; exact h1) h2 h3 h4]
    exact ParseQuery_loop_ok s _ _ (fun w hw => (SplitIntoWordsView_spec raw w hw).1)
  refine ⟨⟨fun herr => ?_, ParseQuery_error_of s raw_query⟩, fun hne => ?_, ?_, ?_, ?_, ?_⟩
  · by_contra hc
    obtain ⟨q, hq⟩ := key raw_query h hc
    rw [hq] at herr
    cases herr
  · by_contra hc
    apply hne
    by_cases hcond : (∃ c ∈ raw_query, c.toNat ≤ 31) ∨ ['-', '-'] <:+: raw_query ∨
        ['-', ' '] <:+: raw_query ∨ raw_query.getLast? = some '-'
    · exact ParseQuery_error_of s raw_query hcond
    · exact absurd (key raw_query h hcond) hc
  · exact ParseQuery_error_of s _ (Or.inr (Or.inl (by decide)))
  · exact ParseQuery_error_of s _ (Or.inr (Or.inr (Or.inr (by decide))))
  · exact ParseQuery_error_of s _ (Or.inr (Or.inr (Or.inl (by decide))))
  · exact key _ (by decide) (by decide)

/-- C7 at the server without stop words and the query "word -other", which
passes the four tests. -/
theorem C7_witness :
    "word -other".toList ≠ [] ∧
      (newServer.ParseQuery "word -other".toList ≠ .error .invalid_argument) ∧
      newServer.ParseQuery "word -other".toList =
        .ok { plus_words := ["word".toList], minus_words := ["other".toList] } ∧
      newServer.ParseQuery "--bad".toList = .error .invalid_argument :=
  ⟨by decide, by decide, by decide,
    (C7_ParseQuery_invalid_argument_iff newServer "word -other".toList (by decide)).2.2.1⟩

end Search

namespace Search

open SearchServer

/-- Claim C8. For a query accepted by the validating parser, the minus words are
exactly the words `w` for which the token `-w` occurs in the query and `w` is
no stop word, the plus words are exactly the tokens that do not start with '-'
and are no stop words, and neither set has a duplicate.  (The tokens are the
words returned by `SplitIntoWordsView`, by `SplitIntoWordsView_eq_splitOn` the
non-empty pieces of the query between its spaces.) -/
theorem C8_ParseQuery_plus_minus_sets (s : SearchServer) (raw_query : Str) (q : Query)
    (h : s.ParseQuery raw_query = .ok q) :
    (∀ w, w ∈ q.minus_words ↔
      (('-' :: w) ∈ SplitIntoWordsView raw_query ∧ w ∉ s.stop_words_)) ∧
    (∀ w, w ∈ q.plus_words ↔
      (w ∈ SplitIntoWordsView raw_query ∧ w.head? ≠ some '-' ∧ w ∉ s.stop_words_)) ∧
    q.plus_words.Nodup ∧ q.minus_words.Nodup ∧
    (∀ w ∈ s.stop_words_, w ∉ q.plus_words ∧ w ∉ q.minus_words) := by
  obtain ⟨h1, h2, h3, h4⟩ := ParseQuery_loop_spec s _ _ q (ParseQuery_ok s raw_query q h).2
  have hm : ∀ w, w ∈ q.minus_words ↔
      (('-' :: w) ∈ SplitIntoWordsView raw_query ∧ w ∉ s.stop_words_) := by
    intro w
    rw [h1 w]
    simp
  have hp : ∀ w, w ∈ q.plus_words ↔
      (w ∈ SplitIntoWordsView raw_query ∧ w.head? ≠ some '-' ∧ w ∉ s.stop_words_) := by
    intro w
    rw [h2 w]
    simp
  refine ⟨hm, hp, h3 List.nodup_nil, h4 List.nodup_nil, fun w hw => ⟨?_, ?_⟩⟩
  · exact fun hh => ((hp w).1 hh).2.2 hw
  · exact fun hh => ((hm w).1 hh).2 hw

/-- C8 at the query "word -other" on a server without stop words:
plus = {word}, minus = {other}. -/
theorem C8_witness :
    newServer.ParseQuery "word -other".toList =
        .ok { plus_words := ["word".toList], minus_words := ["other".toList] } ∧
      (∀ w, w ∈ ["other".toList] ↔
        (('-' :: w) ∈ SplitIntoWordsView "word -other".toList ∧ w ∉ newServer.stop_words_)) :=
  ⟨by decide,
    (C8_ParseQuery_plus_minus_sets newServer "word -other".toList
      { plus_words := ["word".toList], minus_words := ["other".toList] } (by decide)).1⟩

/-- Claim C9, as stated, fails. The query "a -a" is accepted and the word "a" is
both a plus word and a minus word of the parsed query. -/
theorem C9_counterexample :
    newServer.ParseQuery "a -a".toList =
        .ok { plus_words := ["a".toList], minus_words := ["a".toList] } ∧
      ∃ w, w ∈ ["a".toList] ∧ w ∈ ["a".toList] :=
  ⟨by decide, "a".toList, by decide, by decide⟩

/-- Claim C9, amended. For a query accepted by the validating parser, a word is
both a plus word and a minus word exactly when it is no stop word and the query
has it as a token of its own and as a token with a leading '-'; the two sets
are disjoint when the query has no such word. -/
theorem C9_plus_minus_overlap_iff (s : SearchServer) (raw_query : Str) (q : Query)
    (h : s.ParseQuery raw_query = .ok q) :
    (∀ w, (w ∈ q.plus_words ∧ w ∈ q.minus_words) ↔
      (w ∉ s.stop_words_ ∧ w ∈ SplitIntoWordsView raw_query ∧
        ('-' :: w) ∈ SplitIntoWordsView raw_query)) ∧
    ((¬ ∃ w, w ∉ s.stop_words_ ∧ w ∈ SplitIntoWordsView raw_query ∧
        ('-' :: w) ∈ SplitIntoWordsView raw_query) →
      ∀ w ∈ q.plus_words, w ∉ q.minus_words) := by
  obtain ⟨hdd, hloop⟩ := ParseQuery_ok s raw_query q h
  obtain ⟨h1, h2, _, _⟩ := ParseQuery_loop_spec s _ _ q hloop
  have key : ∀ w, (w ∈ q.plus_words ∧ w ∈ q.minus_words) ↔
      (w ∉ s.stop_words_ ∧ w ∈ SplitIntoWordsView raw_query ∧
        ('-' :: w) ∈ SplitIntoWordsView raw_query) := by
    intro w
    rw [h1 w, h2 w]
    simp only [List.not_mem_nil, false_or]
    constructor
    · rintro ⟨⟨ha, _, hc⟩, hd, _⟩
      exact ⟨hc, ha, hd⟩
    · rintro ⟨ha, hb, hc⟩
      refine ⟨⟨hb, ?_, ha⟩, hc, ha⟩
      intro hhead
      cases w with
      | nil => simp at hhead
      | cons c w' =>
        simp only [List.head?_cons, Option.some.injEq] at hhead
        subst hhead
        have hinf := (SplitIntoWordsView_spec raw_query _ hc).2
        exact hdd (List.IsInfix.trans ⟨[], w', by simp⟩ hinf)
  refine ⟨key, fun hno w hp hm => hno ⟨w, (key w).1 ⟨hp, hm⟩⟩⟩

/-- C9 amended, at the accepted query "a -b": no word is in both sets. -/
theorem C9_witness :
    newServer.ParseQuery "a -b".toList =
        .ok { plus_words := ["a".toList], minus_words := ["b".toList] } ∧
      ((¬ ∃ w, w ∉ newServer.stop_words_ ∧ w ∈ SplitIntoWordsView "a -b".toList ∧
          ('-' :: w) ∈ SplitIntoWordsView "a -b".toList) →
        ∀ w ∈ ["a".toList], w ∉ ["b".toList]) :=
  ⟨by decide,
    (C9_plus_minus_overlap_iff newServer "a -b".toList
      { plus_words := ["a".toList], minus_words := ["b".toList] } (by decide)).2⟩

namespace SearchServer

theorem SplitIntoWordsNoStop_loop_ok (s : SearchServer) :
    ∀ (tokens words : List Str), (∀ w ∈ tokens, IsValidWord w = true) →
      SplitIntoWordsNoStop.loop s tokens words =
        .ok (words ++ tokens.filter (fun w => !s.IsStopWord w)) := by
  intro tokens
  induction tokens with
  | nil => intro words _; simp [SplitIntoWordsNoStop.loop]
  | cons t rest ih =>
    intro words h
    have ht : IsValidWord t = true := h t (List.mem_cons_self _ _)
    have hrest : ∀ w ∈ rest, IsValidWord w = true := fun w hw => h w (List.mem_cons_of_mem _ hw)
    unfold SplitIntoWordsNoStop.loop
    by_cases hs : s.IsStopWord t = true
    · simp [ht, hs, ih words hrest]
    · simp [ht, hs, ih _ hrest]

/-- On a text without control characters `SplitIntoWordsNoStop` returns the
tokens that are no stop words. -/
theorem SplitIntoWordsNoStop_ok (s : SearchServer) (text : Str)
    (h : IsValidWord text = true) :
    s.SplitIntoWordsNoStop text =
      .ok ((SplitIntoWordsView text).filter (fun w => !s.IsStopWord w)) := by
  unfold SplitIntoWordsNoStop
  rw [SplitIntoWordsNoStop_loop_ok s _ []
    (fun w hw => IsValidWord_of_infix (SplitIntoWordsView_spec text w hw).2 h)]
  simp

/-- The outcome of `AddDocument` is decided by its two tests. -/
theorem AddDocument_outcome (s : SearchServer) (document_id : Int) (document : Str)
    (status : DocumentStatus) (ratings : List Int) :
    (((∃ c ∈ document, c.toNat ≤ 31) ∨ document_id < 0 ∨
        OrdMap.contains s.documents_ document_id = true) ∧
      s.AddDocument document_id document status ratings = (.error .invalid_argument, s)) ∨
    ((¬ ((∃ c ∈ document, c.toNat ≤ 31) ∨ document_id < 0 ∨
        OrdMap.contains s.documents_ document_id = true)) ∧
      (s.AddDocument document_id document status ratings).1 = .ok ()) := by
  by_cases hv : IsValidWord document = true
  · have h1 : ¬ ∃ c ∈ document, c.toNat ≤ 31 := by
      rw [← IsValidWord_false_iff]
      simp [hv]
    by_cases hid : document_id < 0
    · left
      exact ⟨Or.inr (Or.inl hid), by simp [AddDocument, hv, hid]⟩
    · by_cases hc : OrdMap.contains s.documents_ document_id = true
      · left
        exact ⟨Or.inr (Or.inr hc), by simp [AddDocument, hv, hc]⟩
      · right
        refine ⟨?_, ?_⟩
        · rintro (h | h | h)
          · exact h1 h
          · exact hid h
          · exact hc h
        simp [AddDocument, hv, hid, hc, SplitIntoWordsNoStop_ok s document hv]
  · left
    have h1 : ∃ c ∈ document, c.toNat ≤ 31 := by
      rw [← IsValidWord_false_iff]
      simpa using hv
    exact ⟨Or.inl h1, by simp [AddDocument, hv]⟩

end SearchServer

/-- Claim C5. `AddDocument` fails with `invalid_argument` exactly when the text
has a character with code 0..31, or the id is negative, or the id already has
metadata; it fails in no other way, and a failing call leaves the whole server
state (forward index, inverted index, metadata, id set, string pool) as it
was. -/
theorem C5_AddDocument_rejects_iff_and_rolls_back (s : SearchServer) (document_id : Int)
    (document : Str) (status : DocumentStatus) (ratings : List Int) :
    ((s.AddDocument document_id document status ratings).1 = .error .invalid_argument ↔
      ((∃ c ∈ document, c.toNat ≤ 31) ∨ document_id < 0 ∨
        OrdMap.contains s.documents_ document_id = true)) ∧
    (∀ e, (s.AddDocument document_id document status ratings).1 = .error e →
      e = .invalid_argument ∧ (s.AddDocument document_id document status ratings).2 = s) := by
  rcases AddDocument_outcome s document_id document status ratings with ⟨hc, he⟩ | ⟨hc, hok⟩
  · rw [he]
    refine ⟨⟨fun _ => hc, fun _ => rfl⟩, fun e h => ?_⟩
    simp only [Except.error.injEq] at h
    exact ⟨h.symm, rfl⟩
  · rw [hok]
    exact ⟨⟨fun h => (by cases h), fun h => absurd h hc⟩, fun e h => (by cases h)⟩

/-- C5 on the scenario corpus: a text with a tab, a negative id and the live
id 1 are each rejected and leave the server as it was. -/
theorem C5_witness :
    (scenarioServer.AddDocument 3 "a\tb".toList DocumentStatus.ACTUAL []).1
        = .error .invalid_argument ∧
      (scenarioServer.AddDocument (-1) "a".toList DocumentStatus.ACTUAL []).1
        = .error .invalid_argument ∧
      (scenarioServer.AddDocument 1 "a".toList DocumentStatus.ACTUAL []).1
        = .error .invalid_argument ∧
      (scenarioServer.AddDocument 1 "a".toList DocumentStatus.ACTUAL []).2 = scenarioServer ∧
      (scenarioServer.AddDocument 3 "a".toList DocumentStatus.ACTUAL []).1 = .ok () :=
  ⟨(C5_AddDocument_rejects_iff_and_rolls_back scenarioServer 3 "a\tb".toList
      DocumentStatus.ACTUAL []).1.2 (Or.inl (by decide)),
    by decide!, by decide!,
    ((C5_AddDocument_rejects_iff_and_rolls_back scenarioServer 1 "a".toList
      DocumentStatus.ACTUAL []).2 Exception.invalid_argument (by decide!)).2,
    by decide!⟩

end Search

namespace Search

namespace SearchServer

/-! # The loop of `AddDocument` -/

/-- The map built by adding `inv_word_count` once per word. -/
theorem find?_foldl_modify_add (inv_word_count : ℚ) :
    ∀ (words : List Str) (m : OrdMap Str ℚ) (w : Str),
      OrdMap.find? (words.foldl
          (fun freqs word => OrdMap.modify freqs word 0 (fun x => x + inv_word_count)) m) w =
        if w ∈ words then
          some ((OrdMap.find? m w).getD 0 + (words.count w : ℚ) * inv_word_count)
        else OrdMap.find? m w := by
  intro words
  induction words with
  | nil => intro m w; simp
  | cons t rest ih =>
    intro m w
    rw [List.foldl_cons, ih, OrdMap.find?_modify]
    by_cases hwt : w = t
    · subst hwt
      by_cases hr : w ∈ rest
      · simp only [hr, if_true, List.mem_cons, true_or, List.count_cons_self,
          Option.getD_some, Nat.cast_add, Nat.cast_one]
        congr 1
        ring
      · simp only [hr, if_false, if_true, List.mem_cons, true_or, List.count_cons_self,
          List.count_eq_zero_of_not_mem hr, zero_add, Nat.cast_one, one_mul]
    · have htw : ¬ t = w := fun hh => hwt hh.symm
      by_cases hr : w ∈ rest
      · simp [hr, hwt, htw, List.count_cons]
      · simp [hr, hwt, htw]

theorem nodup_keys_foldl_modify_add (inv_word_count : ℚ) :
    ∀ (words : List Str) (m : OrdMap Str ℚ), (OrdMap.keys m).Nodup →
      (OrdMap.keys (words.foldl
          (fun freqs word => OrdMap.modify freqs word 0 (fun x => x + inv_word_count)) m)).Nodup := by
  intro words
  induction words with
  | nil => intro m h; simpa using h
  | cons t rest ih =>
    intro m h
    rw [List.foldl_cons]
    exact ih _ (OrdMap.nodup_keys_modify m t 0 _ h)

end SearchServer

namespace OrdMap

variable {κ : Type} [DecidableEq κ] [LT κ] [DecidableRel (LT.lt : κ → κ → Prop)]

theorem sum_insertNew (m : OrdMap κ ℚ) (k : κ) (v : ℚ) :
    ((insertNew k v m).map Prod.snd).sum = (m.map Prod.snd).sum + v := by
  induction m with
  | nil => simp [insertNew]
  | cons e rest ih =>
    obtain ⟨k1, v1⟩ := e
    by_cases hlt : k < k1
    · simp [insertNew, hlt]
      ring
    · simp [insertNew, hlt, ih]
      ring

theorem sum_replace_add (m : OrdMap κ ℚ) (k : κ) (d : ℚ) (h : contains m k = true) :
    ((replace k (fun x => x + d) m).map Prod.snd).sum = (m.map Prod.snd).sum + d := by
  induction m with
  | nil => simp [contains, find?] at h
  | cons e rest ih =>
    obtain ⟨k1, v1⟩ := e
    by_cases h1 : k1 = k
    · simp [replace, h1]
      ring
    · have hr : contains rest k = true := by simpa [contains, find?, h1] using h
      simp [replace, h1, ih hr]
      ring

theorem sum_modify_add (m : OrdMap κ ℚ) (k : κ) (d : ℚ) :
    ((modify m k 0 (fun x => x + d)).map Prod.snd).sum = (m.map Prod.snd).sum + d := by
  unfold modify
  by_cases hc : contains m k = true
  · simp only [hc, if_true]
    exact sum_replace_add m k d hc
  · simp only [hc]
    rw [if_neg (by simp), sum_insertNew]
    ring

end OrdMap

namespace SearchServer

theorem sum_foldl_modify_add (inv_word_count : ℚ) :
    ∀ (words : List Str) (m : OrdMap Str ℚ),
      ((words.foldl
          (fun freqs word => OrdMap.modify freqs word 0 (fun x => x + inv_word_count)) m).map
            Prod.snd).sum = (m.map Prod.snd).sum + (words.length : ℚ) * inv_word_count := by
  intro words
  induction words with
  | nil => intro m; simp
  | cons t rest ih =>
    intro m
    rw [List.foldl_cons, ih, OrdMap.sum_modify_add]
    simp only [List.length_cons, Nat.cast_add, Nat.cast_one]
    ring

/-- The forward index after the loop of `AddDocument`: the entry of the document
is the old entry with `inv_word_count` added once per word, the other entries
are untouched. -/
theorem forward_foldl_step (document_id : Int) (inv_word_count : ℚ) :
    ∀ (words : List Str) (s : SearchServer) (id : Int),
      OrdMap.find? (words.foldl (AddDocument.step document_id inv_word_count) s).document_to_word_freqs_ id =
        if id = document_id ∧ words ≠ [] then
          some (words.foldl
            (fun freqs word => OrdMap.modify freqs word 0 (fun x => x + inv_word_count))
            ((OrdMap.find? s.document_to_word_freqs_ document_id).getD []))
        else OrdMap.find? s.document_to_word_freqs_ id := by
  intro words
  induction words with
  | nil => intro s id; simp
  | cons t rest ih =>
    intro s id
    rw [List.foldl_cons, ih]
    by_cases hid : id = document_id
    · subst hid
      by_cases hr : rest = []
      · subst hr
        simp [AddDocument.step, OrdMap.find?_modify]
      · simp [hr, AddDocument.step, OrdMap.find?_modify]
    · simp [hid, AddDocument.step, OrdMap.find?_modify]

end SearchServer

end Search

namespace Search

namespace SearchServer

/-! # The state after `AddDocument` and `RemoveDocument` -/

theorem foldl_step_fixed (document_id : Int) (inv_word_count : ℚ) :
    ∀ (words : List Str) (s : SearchServer),
      (words.foldl (AddDocument.step document_id inv_word_count) s).documents_ = s.documents_ ∧
      (words.foldl (AddDocument.step document_id inv_word_count) s).document_ids_ =
        s.document_ids_ ∧
      (words.foldl (AddDocument.step document_id inv_word_count) s).stop_words_ =
        s.stop_words_ := by
  intro words
  induction words with
  | nil => intro s; simp
  | cons t rest ih =>
    intro s
    rw [List.foldl_cons]
    obtain ⟨h1, h2, h3⟩ := ih (AddDocument.step document_id inv_word_count s t)
    exact ⟨h1, h2, h3⟩

/-- The state after an accepted `AddDocument`. -/
theorem AddDocument_ok_state (s : SearchServer) (document_id : Int) (document : Str)
    (status : DocumentStatus) (ratings : List Int)
    (h : (s.AddDocument document_id document status ratings).1 = .ok ()) :
    OrdMap.contains s.documents_ document_id = false ∧
    (s.AddDocument document_id document status ratings).2 =
      { (List.foldl (AddDocument.step document_id (1 / ((indexedWords s document).length : ℚ))) s
          (indexedWords s document)) with
        documents_ := OrdMap.emplace s.documents_ document_id
          { rating := ComputeAverageRating ratings, status := status }
        document_ids_ := OrdSet.insert s.document_ids_ document_id } := by
  rcases AddDocument_outcome s document_id document status ratings with ⟨_, he⟩ | ⟨hc, _⟩
  · rw [he] at h
    cases h
  · push_neg at hc
    obtain ⟨h1, h2, h3⟩ := hc
    have hv : IsValidWord document = true := by
      rw [← Bool.not_eq_false, IsValidWord_false_iff]
      push_neg
      exact h1
    have h3' : OrdMap.contains s.documents_ document_id = false := by simpa using h3
    refine ⟨h3', ?_⟩
    obtain ⟨f1, f2, _⟩ := foldl_step_fixed document_id
      (1 / ((indexedWords s document).length : ℚ)) (indexedWords s document) s
    simp only [AddDocument, hv, Bool.not_true, Bool.false_eq_true, if_false, h3',
      Bool.or_false, decide_eq_true_eq, not_lt.2 h2, SplitIntoWordsNoStop_ok s document hv]
    unfold indexedWords at f1 f2
    rw [f1, f2]
    rfl

/-- What `RemoveDocument` does to the forward index and to the metadata:
nothing when it throws, the erasure of the id when it returns. -/
theorem RemoveDocument_forward (s : SearchServer) (document_id : Int) :
    ((s.RemoveDocument document_id).2.document_to_word_freqs_ = s.document_to_word_freqs_ ∧
      (s.RemoveDocument document_id).2.documents_ = s.documents_) ∨
    ((s.RemoveDocument document_id).2.document_to_word_freqs_ =
        OrdMap.erase s.document_to_word_freqs_ document_id ∧
      (s.RemoveDocument document_id).2.documents_ = OrdMap.erase s.documents_ document_id) := by
  unfold RemoveDocument
  cases OrdMap.find? s.document_to_word_freqs_ document_id with
  | none => exact Or.inl ⟨rfl, rfl⟩
  | some wf =>
    simp only
    cases hl : RemoveDocument.loop document_id wf s.word_to_document_freqs_ with
    | mk r inv =>
      cases r with
      | error e => exact Or.inl ⟨rfl, rfl⟩
      | ok u => exact Or.inr ⟨rfl, rfl⟩

theorem AddDocument_error_state (s : SearchServer) (document_id : Int) (document : Str)
    (status : DocumentStatus) (ratings : List Int) (e : Exception)
    (h : (s.AddDocument document_id document status ratings).1 = .error e) :
    (s.AddDocument document_id document status ratings).2 = s := by
  rcases AddDocument_outcome s document_id document status ratings with ⟨_, he⟩ | ⟨_, hok⟩
  · rw [he]
  · rw [hok] at h
    cases h

theorem RemoveDocumentSeq_eq (s : SearchServer) (document_id : Int) :
    s.RemoveDocumentSeq document_id = s.RemoveDocument document_id := rfl

theorem construct_state (stop_words : List Str) (s : SearchServer)
    (h : construct stop_words = .ok s) :
    s.word_to_document_freqs_ = [] ∧ s.documents_ = [] ∧ s.document_ids_ = [] ∧
      s.document_to_word_freqs_ = [] ∧ s.words_ = [] := by
  unfold construct at h
  cases hl : construct.loop stop_words [] with
  | error e => simp [hl] at h
  | ok sw =>
    simp only [hl, Except.ok.injEq] at h
    subst h
    simp

end SearchServer

open SearchServer

/-- Without the parallel `RemoveDocument`, a document with a forward entry has
metadata. -/
theorem ReachableSeq_forward_live (s : SearchServer) (h : ReachableSeq s) :
    ∀ id, OrdMap.contains s.document_to_word_freqs_ id = true →
      OrdMap.contains s.documents_ id = true := by
  have step_remove : ∀ (s : SearchServer) (document_id : Int),
      (∀ id, OrdMap.contains s.document_to_word_freqs_ id = true →
        OrdMap.contains s.documents_ id = true) →
      ∀ id, OrdMap.contains (s.RemoveDocument document_id).2.document_to_word_freqs_ id = true →
        OrdMap.contains (s.RemoveDocument document_id).2.documents_ id = true := by
    intro s document_id ih id hid
    rcases RemoveDocument_forward s document_id with ⟨h1, h2⟩ | ⟨h1, h2⟩
    · rw [h1] at hid
      rw [h2]
      exact ih id hid
    · rw [h1] at hid
      rw [h2]
      unfold OrdMap.contains at hid ih ⊢
      rw [OrdMap.find?_erase] at hid ⊢
      by_cases hk : id = document_id
      · simp [hk] at hid
      · simp only [hk, if_false] at hid ⊢
        exact ih id hid
  induction h with
  | construct stop_words s hc =>
    obtain ⟨_, _, _, h4, _⟩ := construct_state stop_words s hc
    intro id hid
    simp [h4, OrdMap.contains, OrdMap.find?] at hid
  | add s document_id document status ratings _ ih =>
    intro id hid
    cases hres : (s.AddDocument document_id document status ratings).1 with
    | error e =>
      have := (AddDocument_error_state s document_id document status ratings e hres)
      rw [this] at hid ⊢
      exact ih id hid
    | ok u =>
      obtain ⟨_, hst⟩ := AddDocument_ok_state s document_id document status ratings hres
      rw [hst] at hid ⊢
      simp only [OrdMap.contains] at hid ih ⊢
      rw [OrdMap.find?_emplace]
      rw [forward_foldl_step] at hid
      by_cases hk : id = document_id
      · simp [hk]
      · simp only [hk, false_and, if_false] at hid ⊢
        exact ih id hid
  | remove s document_id _ ih => exact step_remove s document_id ih
  | removeSeq s document_id _ ih => exact step_remove s document_id ih

end Search

namespace Search

open SearchServer

/-- The forward entry written by an accepted `AddDocument` with at least one
indexed word, in a state without the parallel `RemoveDocument`. -/
theorem AddDocument_forward_entry (s : SearchServer) (hs : ReachableSeq s) (document_id : Int)
    (document : Str) (status : DocumentStatus) (ratings : List Int)
    (hok : (s.AddDocument document_id document status ratings).1 = .ok ())
    (hn : 1 ≤ (indexedWords s document).length) :
    (s.AddDocument document_id document status ratings).2.GetWordFrequencies document_id =
      (indexedWords s document).foldl
        (fun freqs word => OrdMap.modify freqs word 0
          (fun x => x + 1 / ((indexedWords s document).length : ℚ))) [] := by
  obtain ⟨hnew, hst⟩ := AddDocument_ok_state s document_id document status ratings hok
  have hfw : OrdMap.find? s.document_to_word_freqs_ document_id = none := by
    cases hf : OrdMap.find? s.document_to_word_freqs_ document_id with
    | none => rfl
    | some v =>
      have := ReachableSeq_forward_live s hs document_id (by simp [OrdMap.contains, hf])
      rw [hnew] at this
      cases this
  have hne : indexedWords s document ≠ [] := by
    intro h
    rw [h] at hn
    simp at hn
  have hfind : OrdMap.find?
      (s.AddDocument document_id document status ratings).2.document_to_word_freqs_ document_id =
      some ((indexedWords s document).foldl
        (fun freqs word => OrdMap.modify freqs word 0
          (fun x => x + 1 / ((indexedWords s document).length : ℚ))) []) := by
    rw [hst]
    simp only
    rw [forward_foldl_step, hfw]
    simp [hne]
  unfold GetWordFrequencies
  simp [OrdMap.contains, hfind]

/-- Claim C6. In a state reached through `AddDocument` and the sequential
`RemoveDocument`, after an accepted `AddDocument(id, text, ...)` whose text has
`n ≥ 1` words that are no stop words, the keys of `GetWordFrequencies(id)` are
exactly these words, each once, a word `w` is mapped to (number of occurrences
of `w` among them) / `n`, and the values sum to 1. -/
theorem C6_GetWordFrequencies_after_AddDocument (s : SearchServer) (hs : ReachableSeq s)
    (document_id : Int) (document : Str) (status : DocumentStatus) (ratings : List Int)
    (hok : (s.AddDocument document_id document status ratings).1 = .ok ())
    (hn : 1 ≤ (indexedWords s document).length) :
    (∀ w, w ∈ OrdMap.keys
        ((s.AddDocument document_id document status ratings).2.GetWordFrequencies document_id) ↔
      w ∈ indexedWords s document) ∧
    (OrdMap.keys
      ((s.AddDocument document_id document status ratings).2.GetWordFrequencies document_id)).Nodup ∧
    (∀ w ∈ indexedWords s document,
      OrdMap.find?
        ((s.AddDocument document_id document status ratings).2.GetWordFrequencies document_id) w =
        some (((indexedWords s document).count w : ℚ) / ((indexedWords s document).length : ℚ))) ∧
    (((s.AddDocument document_id document status ratings).2.GetWordFrequencies document_id).map
      Prod.snd).sum = 1 := by
  rw [AddDocument_forward_entry s hs document_id document status ratings hok hn]
  have hpos : ((indexedWords s document).length : ℚ) ≠ 0 := by
    have : 0 < (indexedWords s document).length := hn
    exact_mod_cast this.ne'
  refine ⟨fun w => ?_, ?_, fun w hw => ?_, ?_⟩
  · rw [← OrdMap.contains_iff_mem_keys]
    unfold OrdMap.contains
    rw [find?_foldl_modify_add]
    by_cases hw : w ∈ indexedWords s document
    · simp [hw]
    · simp [hw, OrdMap.find?]
  · exact nodup_keys_foldl_modify_add _ _ [] (by simp [OrdMap.keys])
  · rw [find?_foldl_modify_add]
    simp only [hw, if_true, OrdMap.find?, Option.getD_none, zero_add]
    congr 1
    field_simp
  · rw [sum_foldl_modify_add]
    simp only [List.map_nil, List.sum_nil, zero_add]
    field_simp

/-- C6 at the new server and the document 1 = "a b a": the frequencies are
a ↦ 2/3, b ↦ 1/3. -/
theorem C6_witness :
    (newServer.AddDocument 1 "a b a".toList DocumentStatus.ACTUAL [1]).2.GetWordFrequencies 1
        = [("a".toList, 2 / 3), ("b".toList, 1 / 3)] ∧
      (((newServer.AddDocument 1 "a b a".toList DocumentStatus.ACTUAL [1]).2.GetWordFrequencies
        1).map Prod.snd).sum = 1 :=
  ⟨by decide!,
    (C6_GetWordFrequencies_after_AddDocument newServer
      (ReachableSeq.construct [] newServer rfl) 1 "a b a".toList DocumentStatus.ACTUAL [1]
      (by decide!) (by decide)).2.2.2⟩

end Search

namespace Search

namespace OrdMap

variable {κ V : Type} [DecidableEq κ] [LT κ] [DecidableRel (LT.lt : κ → κ → Prop)]

theorem contains_modify (m : OrdMap κ V) (k : κ) (d : V) (f : V → V) (k' : κ) :
    contains (modify m k d f) k' = (decide (k' = k) || contains m k') := by
  unfold contains
  rw [find?_modify]
  by_cases hk : k' = k
  · simp [hk]
  · simp [hk]

theorem contains_erase (m : OrdMap κ V) (k k' : κ) :
    contains (erase m k) k' = (!decide (k' = k) && contains m k') := by
  unfold contains
  rw [find?_erase]
  by_cases hk : k' = k
  · simp [hk]
  · simp [hk]

theorem contains_replace (m : OrdMap κ V) (k : κ) (f : V → V) (k' : κ) :
    contains (replace k f m) k' = contains m k' := by
  unfold contains
  rw [find?_replace]
  by_cases hk : k' = k
  · subst hk
    cases find? m k' <;> simp
  · simp [hk]

theorem contains_emplace (m : OrdMap κ V) (k : κ) (v : V) (k' : κ) :
    contains (emplace m k v) k' = (decide (k' = k) || contains m k') := by
  unfold contains
  rw [find?_emplace]
  by_cases hk : k' = k
  · simp [hk]
  · simp [hk]

theorem contains_nil (k : κ) : contains ([] : OrdMap κ V) k = false := rfl

end OrdMap

namespace SearchServer

/-! # The two indexes under `AddDocument` and `RemoveDocument` -/

theorem invertedHas_step (document_id : Int) (inv_word_count : ℚ) (s : SearchServer)
    (w0 w : Str) (id : Int) :
    invertedHas (AddDocument.step document_id inv_word_count s w0).word_to_document_freqs_ w id =
      (invertedHas s.word_to_document_freqs_ w id ||
        (decide (w = w0) && decide (id = document_id))) := by
  unfold invertedHas
  simp only [AddDocument.step, OrdMap.find?_modify]
  by_cases hw : w = w0
  · subst hw
    simp only [if_true, OrdMap.contains_modify, decide_True, Bool.true_and]
    cases OrdMap.find? s.word_to_document_freqs_ w with
    | none => simp [OrdMap.contains_nil]
    | some f => simp [Bool.or_comm]
  · simp [hw]

theorem forwardHas_step (document_id : Int) (inv_word_count : ℚ) (s : SearchServer)
    (w0 w : Str) (id : Int) :
    forwardHas (AddDocument.step document_id inv_word_count s w0).document_to_word_freqs_ id w =
      (forwardHas s.document_to_word_freqs_ id w ||
        (decide (w = w0) && decide (id = document_id))) := by
  unfold forwardHas
  simp only [AddDocument.step, OrdMap.find?_modify]
  by_cases hid : id = document_id
  · subst hid
    simp only [if_true, OrdMap.contains_modify, decide_True, Bool.and_true]
    cases OrdMap.find? s.document_to_word_freqs_ id with
    | none => simp [OrdMap.contains_nil]
    | some f => simp [Bool.or_comm]
  · simp [hid]

theorem contains_inverted_step (document_id : Int) (inv_word_count : ℚ) (s : SearchServer)
    (w0 w : Str) :
    OrdMap.contains (AddDocument.step document_id inv_word_count s w0).word_to_document_freqs_ w =
      (OrdMap.contains s.word_to_document_freqs_ w || decide (w = w0)) := by
  simp only [AddDocument.step, OrdMap.contains_modify, Bool.or_comm]

/-- The two indexes after the loop of `AddDocument`. -/
theorem indexes_foldl_step (document_id : Int) (inv_word_count : ℚ) :
    ∀ (words : List Str) (s : SearchServer) (w : Str) (id : Int),
      invertedHas (words.foldl (AddDocument.step document_id inv_word_count) s).word_to_document_freqs_
          w id =
        (invertedHas s.word_to_document_freqs_ w id ||
          (decide (w ∈ words) && decide (id = document_id))) ∧
      forwardHas (words.foldl (AddDocument.step document_id inv_word_count) s).document_to_word_freqs_
          id w =
        (forwardHas s.document_to_word_freqs_ id w ||
          (decide (w ∈ words) && decide (id = document_id))) ∧
      OrdMap.contains
          (words.foldl (AddDocument.step document_id inv_word_count) s).word_to_document_freqs_ w =
        (OrdMap.contains s.word_to_document_freqs_ w || decide (w ∈ words)) := by
  intro words
  induction words with
  | nil => intro s w id; simp
  | cons t rest ih =>
    intro s w id
    rw [List.foldl_cons]
    obtain ⟨h1, h2, h3⟩ := ih (AddDocument.step document_id inv_word_count s t) w id
    rw [h1, h2, h3, invertedHas_step, forwardHas_step, contains_inverted_step]
    by_cases hwt : w = t <;> by_cases hr : w ∈ rest <;> by_cases hid : id = document_id <;>
      simp [hwt, hr, hid]

/-- The loop of the sequential `RemoveDocument`, when every word of the forward
entry is a key of the inverted index: it returns, the document is gone from the
entries of these words, nothing else changes. -/
theorem RemoveDocument_loop_spec (document_id : Int) :
    ∀ (word_freqs : List (Str × ℚ)) (inv : OrdMap Str (OrdMap Int ℚ)),
      (∀ w ∈ OrdMap.keys word_freqs, OrdMap.contains inv w = true) →
      (RemoveDocument.loop document_id word_freqs inv).1 = .ok () ∧
      (∀ w id, invertedHas (RemoveDocument.loop document_id word_freqs inv).2 w id =
        (invertedHas inv w id &&
          !(decide (w ∈ OrdMap.keys word_freqs) && decide (id = document_id)))) ∧
      (∀ w, OrdMap.contains (RemoveDocument.loop document_id word_freqs inv).2 w =
        OrdMap.contains inv w) := by
  intro word_freqs
  induction word_freqs with
  | nil => intro inv _; simp [RemoveDocument.loop, OrdMap.keys]
  | cons e rest ih =>
    intro inv h
    obtain ⟨w0, tf⟩ := e
    have hw0 : OrdMap.contains inv w0 = true := h w0 (by simp [OrdMap.keys])
    have hrest : ∀ w ∈ OrdMap.keys rest,
        OrdMap.contains (OrdMap.replace w0 (fun freqs => OrdMap.erase freqs document_id) inv) w
          = true := by
      intro w hw
      rw [OrdMap.contains_replace]
      exact h w (by simp only [OrdMap.keys, List.map_cons, List.mem_cons]; exact Or.inr hw)
    obtain ⟨h1, h2, h3⟩ := ih _ hrest
    simp only [RemoveDocument.loop, hw0, if_true]
    refine ⟨h1, fun w id => ?_, fun w => ?_⟩
    · rw [h2 w id]
      unfold invertedHas
      rw [OrdMap.find?_replace]
      by_cases hw : w = w0
      · subst hw
        cases OrdMap.find? inv w with
        | none => simp
        | some f =>
          simp only [if_true, Option.map_some', OrdMap.contains_erase, OrdMap.keys,
            List.map_cons, List.mem_cons, true_or, decide_True, Bool.true_and]
          by_cases hid : id = document_id
          · simp [hid]
          · simp [hid]
      · have hmem : (w ∈ OrdMap.keys ((w0, tf) :: rest)) ↔ w ∈ OrdMap.keys rest := by
          simp [OrdMap.keys, hw]
        simp only [hw, if_false, hmem]
    · rw [h3 w, OrdMap.contains_replace]

/-- The loop of the parallel `RemoveDocument`. -/
theorem RemoveDocumentPar_loop_spec (document_id : Int) :
    ∀ (words : List Str) (inv : OrdMap Str (OrdMap Int ℚ)) (w : Str) (id : Int),
      invertedHas (words.foldl
          (fun inv word => OrdMap.modify inv word [] (fun freqs => OrdMap.erase freqs document_id))
          inv) w id =
        (invertedHas inv w id && !(decide (w ∈ words) && decide (id = document_id))) ∧
      OrdMap.contains (words.foldl
          (fun inv word => OrdMap.modify inv word [] (fun freqs => OrdMap.erase freqs document_id))
          inv) w =
        (OrdMap.contains inv w || decide (w ∈ words)) := by
  intro words
  induction words with
  | nil => intro inv w id; simp
  | cons t rest ih =>
    intro inv w id
    rw [List.foldl_cons]
    obtain ⟨h1, h2⟩ := ih (OrdMap.modify inv t [] (fun freqs => OrdMap.erase freqs document_id)) w id
    rw [h1, h2, OrdMap.contains_modify]
    constructor
    · unfold invertedHas
      rw [OrdMap.find?_modify]
      by_cases hw : w = t
      · subst hw
        cases OrdMap.find? inv w with
        | none => simp [OrdMap.erase, OrdMap.contains_nil]
        | some f =>
          simp only [if_true, Option.getD_some, OrdMap.contains_erase, List.mem_cons, true_or,
            decide_True, Bool.true_and]
          by_cases hid : id = document_id
          · simp [hid]
          · simp [hid]
      · simp [hw]
    · by_cases hw : w = t
      · simp [hw]
      · simp [hw, Bool.or_comm]

end SearchServer

end Search

namespace Search

namespace SearchServer

/-! # Consistency of the reachable states -/

theorem forwardHas_erase (fwd : OrdMap Int (OrdMap Str ℚ)) (document_id id : Int) (w : Str) :
    forwardHas (OrdMap.erase fwd document_id) id w =
      (!decide (id = document_id) && forwardHas fwd id w) := by
  unfold forwardHas
  rw [OrdMap.find?_erase]
  by_cases hid : id = document_id
  · simp [hid]
  · simp [hid]

theorem forwardHas_of_find? {fwd : OrdMap Int (OrdMap Str ℚ)} {id : Int} {wf : OrdMap Str ℚ}
    (h : OrdMap.find? fwd id = some wf) (w : Str) :
    forwardHas fwd id w = true ↔ w ∈ OrdMap.keys wf := by
  unfold forwardHas
  rw [h]
  exact OrdMap.contains_iff_mem_keys wf w

/-- The sequential `RemoveDocument` in a consistent state: it throws without
any change when the id has no forward entry, and otherwise returns. -/
theorem RemoveDocument_state (s : SearchServer) (hc : Consistent s) (document_id : Int) :
    (OrdMap.find? s.document_to_word_freqs_ document_id = none ∧
      s.RemoveDocument document_id = (.error .out_of_range, s)) ∨
    (∃ wf, OrdMap.find? s.document_to_word_freqs_ document_id = some wf ∧
      (RemoveDocument.loop document_id wf s.word_to_document_freqs_).1 = .ok () ∧
      s.RemoveDocument document_id = (.ok (),
        { s with
          word_to_document_freqs_ :=
            (RemoveDocument.loop document_id wf s.word_to_document_freqs_).2
          document_to_word_freqs_ := OrdMap.erase s.document_to_word_freqs_ document_id
          document_ids_ := OrdSet.erase s.document_ids_ document_id
          documents_ := OrdMap.erase s.documents_ document_id })) := by
  cases hf : OrdMap.find? s.document_to_word_freqs_ document_id with
  | none =>
    left
    exact ⟨rfl, by simp [RemoveDocument, hf]⟩
  | some wf =>
    right
    have hwords : ∀ w ∈ OrdMap.keys wf, OrdMap.contains s.word_to_document_freqs_ w = true :=
      fun w hw => hc.forward_word document_id w ((forwardHas_of_find? hf w).2 hw)
    obtain ⟨h1, _, _⟩ := RemoveDocument_loop_spec document_id wf s.word_to_document_freqs_ hwords
    refine ⟨wf, rfl, h1, ?_⟩
    unfold RemoveDocument
    rw [hf]
    simp only
    cases hl : RemoveDocument.loop document_id wf s.word_to_document_freqs_ with
    | mk r inv =>
      rw [hl] at h1
      simp only at h1
      subst h1
      rfl

theorem Consistent_RemoveDocument (s : SearchServer) (hc : Consistent s) (document_id : Int) :
    Consistent (s.RemoveDocument document_id).2 := by
  rcases RemoveDocument_state s hc document_id with ⟨_, he⟩ | ⟨wf, hf, _, hok⟩
  · rw [he]
    exact hc
  · rw [hok]
    have hwords : ∀ w ∈ OrdMap.keys wf, OrdMap.contains s.word_to_document_freqs_ w = true :=
      fun w hw => hc.forward_word document_id w ((forwardHas_of_find? hf w).2 hw)
    obtain ⟨_, h2, h3⟩ := RemoveDocument_loop_spec document_id wf s.word_to_document_freqs_ hwords
    have hold : ∀ w id, invertedHas
        (RemoveDocument.loop document_id wf s.word_to_document_freqs_).2 w id = true →
        invertedHas s.word_to_document_freqs_ w id = true ∧ id ≠ document_id := by
      intro w id h
      rw [h2 w id, Bool.and_eq_true] at h
      refine ⟨h.1, fun hid => ?_⟩
      subst hid
      have hw : w ∈ OrdMap.keys wf :=
        (forwardHas_of_find? hf w).1 (hc.inverted_forward w id h.1)
      simp [hw] at h
    constructor
    · intro w id h
      obtain ⟨h1, hid⟩ := hold w id h
      simp only [OrdMap.contains_erase, hid, decide_False, Bool.not_false, Bool.true_and]
      exact hc.inverted_live w id h1
    · intro w id h
      obtain ⟨h1, hid⟩ := hold w id h
      simp only [forwardHas_erase, hid, decide_False, Bool.not_false, Bool.true_and]
      exact hc.inverted_forward w id h1
    · intro id w h
      simp only [forwardHas_erase, Bool.and_eq_true] at h
      simp only [h3 w]
      exact hc.forward_word id w h.2
    · exact OrdMap.nodup_keys_erase _ _ hc.documents_nodup

theorem Consistent_RemoveDocumentPar (s : SearchServer) (hc : Consistent s) (document_id : Int) :
    Consistent (s.RemoveDocumentPar document_id).2 := by
  unfold RemoveDocumentPar
  by_cases hlive : OrdMap.contains s.documents_ document_id = true
  · simp only [hlive, Bool.not_true, Bool.false_eq_true, if_false]
    cases hf : OrdMap.find? s.document_to_word_freqs_ document_id with
    | none => exact hc
    | some wf =>
      simp only
      have hspec := RemoveDocumentPar_loop_spec document_id (wf.map Prod.fst)
        s.word_to_document_freqs_
      have hold : ∀ w id, invertedHas ((wf.map Prod.fst).foldl
          (fun inv word => OrdMap.modify inv word [] (fun freqs => OrdMap.erase freqs document_id))
          s.word_to_document_freqs_) w id = true →
          invertedHas s.word_to_document_freqs_ w id = true ∧ id ≠ document_id := by
        intro w id h
        rw [(hspec w id).1, Bool.and_eq_true] at h
        refine ⟨h.1, fun hid => ?_⟩
        subst hid
        have hw : w ∈ OrdMap.keys wf :=
          (forwardHas_of_find? hf w).1 (hc.inverted_forward w id h.1)
        simp only [OrdMap.keys] at hw
        simp [hw] at h
      constructor
      · intro w id h
        obtain ⟨h1, hid⟩ := hold w id h
        simp only [OrdMap.contains_erase, hid, decide_False, Bool.not_false, Bool.true_and]
        exact hc.inverted_live w id h1
      · intro w id h
        exact hc.inverted_forward w id (hold w id h).1
      · intro id w h
        simp only [(hspec w id).2, Bool.or_eq_true]
        exact Or.inl (hc.forward_word id w h)
      · exact OrdMap.nodup_keys_erase _ _ hc.documents_nodup
  · simp only [hlive]
    exact hc

theorem Consistent_AddDocument (s : SearchServer) (hc : Consistent s) (document_id : Int)
    (document : Str) (status : DocumentStatus) (ratings : List Int) :
    Consistent (s.AddDocument document_id document status ratings).2 := by
  cases hres : (s.AddDocument document_id document status ratings).1 with
  | error e =>
    rw [AddDocument_error_state s document_id document status ratings e hres]
    exact hc
  | ok u =>
    obtain ⟨_, hst⟩ := AddDocument_ok_state s document_id document status ratings hres
    rw [hst]
    have hspec := indexes_foldl_step document_id (1 / ((indexedWords s document).length : ℚ))
      (indexedWords s document) s
    constructor
    · intro w id h
      simp only [(hspec w id).1, Bool.or_eq_true, Bool.and_eq_true, decide_eq_true_eq] at h
      simp only [OrdMap.contains_emplace, Bool.or_eq_true, decide_eq_true_eq]
      rcases h with h | ⟨_, h⟩
      · exact Or.inr (hc.inverted_live w id h)
      · exact Or.inl h
    · intro w id h
      simp only [(hspec w id).1, Bool.or_eq_true, Bool.and_eq_true, decide_eq_true_eq] at h
      simp only [(hspec w id).2.1, Bool.or_eq_true, Bool.and_eq_true, decide_eq_true_eq]
      rcases h with h | h
      · exact Or.inl (hc.inverted_forward w id h)
      · exact Or.inr h
    · intro id w h
      simp only [(hspec w id).2.1, Bool.or_eq_true, Bool.and_eq_true, decide_eq_true_eq] at h
      simp only [(hspec w id).2.2, Bool.or_eq_true, decide_eq_true_eq]
      rcases h with h | ⟨h, _⟩
      · exact Or.inl (hc.forward_word id w h)
      · exact Or.inr h
    · exact OrdMap.nodup_keys_emplace _ _ _ hc.documents_nodup

end SearchServer

open SearchServer

/-- Every reachable state is consistent. -/
theorem Reachable_consistent (s : SearchServer) (h : Reachable s) : Consistent s := by
  induction h with
  | construct stop_words s hc =>
    obtain ⟨h1, h2, _, h4, _⟩ := construct_state stop_words s hc
    constructor
    · intro w id h
      simp [h1, invertedHas, OrdMap.find?] at h
    · intro w id h
      simp [h1, invertedHas, OrdMap.find?] at h
    · intro id w h
      simp [h4, forwardHas, OrdMap.find?] at h
    · simp [h2, OrdMap.keys]
  | add s document_id document status ratings _ ih =>
    exact Consistent_AddDocument s ih document_id document status ratings
  | remove s document_id _ ih => exact Consistent_RemoveDocument s ih document_id
  | removeSeq s document_id _ ih => exact Consistent_RemoveDocument s ih document_id
  | removePar s document_id _ ih => exact Consistent_RemoveDocumentPar s ih document_id

end Search

namespace Search

/-! # `sort` and the truncation -/

theorem sort_insert_perm {α : Type} (comp : α → α → Bool) (x : α) (l : List α) :
    (sort.insert comp x l).Perm (x :: l) := by
  induction l with
  | nil => simp [sort.insert]
  | cons y ys ih =>
    unfold sort.insert
    by_cases h : comp x y = true
    · simp [h]
    · simp only [h]
      exact (List.Perm.cons y ih).trans (List.Perm.swap x y ys)

theorem sort_perm {α : Type} (comp : α → α → Bool) (l : List α) : (sort comp l).Perm l := by
  induction l with
  | nil => simp [sort]
  | cons x xs ih =>
    unfold sort
    exact (sort_insert_perm comp x _).trans (List.Perm.cons x ih)

namespace SearchServer

variable {K : Type} [LinearOrderedField K]

theorem sortAndTruncate_eq (l : List (Document K)) :
    sortAndTruncate l = (sort compareDocuments l).take MAX_RESULT_DOCUMENT_COUNT := by
  unfold sortAndTruncate
  simp only
  split
  · rfl
  · rename_i h
    rw [List.take_of_length_le (by omega)]

theorem sortAndTruncate_length (l : List (Document K)) :
    (sortAndTruncate l).length = min 5 l.length := by
  rw [sortAndTruncate_eq, List.length_take, (sort_perm compareDocuments l).length_eq]
  rfl

theorem sortAndTruncate_mem (l : List (Document K)) (d : Document K)
    (h : d ∈ sortAndTruncate l) : d ∈ l := by
  rw [sortAndTruncate_eq] at h
  exact (sort_perm compareDocuments l).subset (List.mem_of_mem_take h)

theorem sortAndTruncate_nodup (l : List (Document K)) (h : (l.map Document.id).Nodup) :
    ((sortAndTruncate l).map Document.id).Nodup := by
  rw [sortAndTruncate_eq]
  have h1 : ((sort compareDocuments l).map Document.id).Nodup :=
    ((sort_perm compareDocuments l).map Document.id).nodup_iff.2 h
  exact h1.sublist ((List.take_sublist _ _).map Document.id)

/-! # The sequential `FindAllDocuments` -/

theorem addWord_spec (s : SearchServer) (key_mapper : KeyMapper) (idf : K) :
    ∀ (freqs : List (Int × ℚ)) (rel : OrdMap Int K),
      (∀ e ∈ freqs, OrdMap.contains s.documents_ e.1 = true) → (OrdMap.keys rel).Nodup →
      ∃ rel', FindAllDocuments.addWord s key_mapper idf freqs rel = .ok rel' ∧
        (OrdMap.keys rel').Nodup ∧
        ∀ id, id ∈ OrdMap.keys rel' ↔
          (id ∈ OrdMap.keys rel ∨ (id ∈ OrdMap.keys freqs ∧ passes s key_mapper id = true)) := by
  intro freqs
  induction freqs with
  | nil =>
    intro rel _ hnd
    exact ⟨rel, rfl, hnd, fun id => by simp [OrdMap.keys]⟩
  | cons e rest ih =>
    intro rel hlive hnd
    obtain ⟨id0, tf⟩ := e
    have h0 : OrdMap.contains s.documents_ id0 = true := hlive (id0, tf) (List.mem_cons_self _ _)
    have hrest : ∀ e ∈ rest, OrdMap.contains s.documents_ e.1 = true :=
      fun e he => hlive e (List.mem_cons_of_mem _ he)
    unfold FindAllDocuments.addWord
    cases hf : OrdMap.find? s.documents_ id0 with
    | none => simp [OrdMap.contains, hf] at h0
    | some data =>
      simp only
      by_cases hp : key_mapper id0 data.status data.rating = true
      · simp only [hp, if_true]
        obtain ⟨rel', h1, h2, h3⟩ := ih _ hrest (OrdMap.nodup_keys_modify rel id0 0 _ hnd)
        refine ⟨rel', h1, h2, fun id => ?_⟩
        rw [h3 id, OrdMap.mem_keys_modify]
        simp only [OrdMap.keys, List.map_cons, List.mem_cons]
        constructor
        · rintro ((h | h) | ⟨h, hpass⟩)
          · refine Or.inr ⟨Or.inl h, ?_⟩
            subst h
            simp [passes, hf, hp]
          · exact Or.inl h
          · exact Or.inr ⟨Or.inr h, hpass⟩
        · rintro (h | ⟨h | h, hpass⟩)
          · exact Or.inl (Or.inr h)
          · exact Or.inl (Or.inl h)
          · exact Or.inr ⟨h, hpass⟩
      · simp only [hp]
        obtain ⟨rel', h1, h2, h3⟩ := ih rel hrest hnd
        refine ⟨rel', h1, h2, fun id => ?_⟩
        rw [h3 id]
        simp only [OrdMap.keys, List.map_cons, List.mem_cons]
        constructor
        · rintro (h | ⟨h, hpass⟩)
          · exact Or.inl h
          · exact Or.inr ⟨Or.inr h, hpass⟩
        · rintro (h | ⟨h | h, hpass⟩)
          · exact Or.inl h
          · subst h
            simp [passes, hf, hp] at hpass
          · exact Or.inr ⟨h, hpass⟩

theorem indexedUnder_of_find? {s : SearchServer} {w : Str} {freqs : OrdMap Int ℚ}
    (h : OrdMap.find? s.word_to_document_freqs_ w = some freqs) (id : Int) :
    s.indexedUnder w id = true ↔ id ∈ OrdMap.keys freqs := by
  unfold indexedUnder
  rw [h]
  exact OrdMap.contains_iff_mem_keys freqs id

theorem indexedUnder_eq (s : SearchServer) (w : Str) (id : Int) :
    s.indexedUnder w id = invertedHas s.word_to_document_freqs_ w id := rfl

theorem plusLoop_spec (log : ℚ → K) (s : SearchServer) (hc : Consistent s)
    (key_mapper : KeyMapper) :
    ∀ (words : List Str) (rel : OrdMap Int K), (OrdMap.keys rel).Nodup →
      ∃ rel', FindAllDocuments.plusLoop log s key_mapper words rel = .ok rel' ∧
        (OrdMap.keys rel').Nodup ∧
        ∀ id, id ∈ OrdMap.keys rel' ↔
          (id ∈ OrdMap.keys rel ∨
            (words.any (fun word => s.indexedUnder word id) = true ∧
              passes s key_mapper id = true)) := by
  intro words
  induction words with
  | nil =>
    intro rel hnd
    exact ⟨rel, rfl, hnd, fun id => by simp⟩
  | cons w rest ih =>
    intro rel hnd
    unfold FindAllDocuments.plusLoop
    cases hf : OrdMap.find? s.word_to_document_freqs_ w with
    | none =>
      simp only
      obtain ⟨rel', h1, h2, h3⟩ := ih rel hnd
      refine ⟨rel', h1, h2, fun id => ?_⟩
      rw [h3 id]
      have : s.indexedUnder w id = false := by simp [indexedUnder, hf]
      simp [this]
    | some freqs =>
      simp only [ComputeWordInverseDocumentFreq, hf]
      have hlive : ∀ e ∈ freqs, OrdMap.contains s.documents_ e.1 = true := by
        intro e he
        apply hc.inverted_live w e.1
        rw [← indexedUnder_eq, indexedUnder_of_find? hf]
        exact List.mem_map_of_mem Prod.fst he
      obtain ⟨rel1, g1, g2, g3⟩ := addWord_spec s key_mapper
        (log ((s.GetDocumentCount : ℚ) * 1 / (freqs.length : ℚ))) freqs rel hlive hnd
      rw [g1]
      simp only
      obtain ⟨rel', h1, h2, h3⟩ := ih rel1 g2
      refine ⟨rel', h1, h2, fun id => ?_⟩
      rw [h3 id, g3 id, ← indexedUnder_of_find? hf id]
      simp only [List.any_cons, Bool.or_eq_true]
      tauto

theorem eraseAll_spec :
    ∀ (freqs : List (Int × ℚ)) (rel : OrdMap Int K), (OrdMap.keys rel).Nodup →
      (OrdMap.keys (freqs.foldl (fun rel e => OrdMap.erase rel e.1) rel)).Nodup ∧
      ∀ id, id ∈ OrdMap.keys (freqs.foldl (fun rel e => OrdMap.erase rel e.1) rel) ↔
        (id ∈ OrdMap.keys rel ∧ id ∉ OrdMap.keys freqs) := by
  intro freqs
  induction freqs with
  | nil => intro rel hnd; exact ⟨hnd, fun id => by simp [OrdMap.keys]⟩
  | cons e rest ih =>
    intro rel hnd
    rw [List.foldl_cons]
    obtain ⟨h1, h2⟩ := ih (OrdMap.erase rel e.1) (OrdMap.nodup_keys_erase rel e.1 hnd)
    refine ⟨h1, fun id => ?_⟩
    rw [h2 id, OrdMap.mem_keys_erase]
    simp only [OrdMap.keys, List.map_cons, List.mem_cons, not_or]
    tauto

theorem minusLoop_spec (s : SearchServer) :
    ∀ (words : List Str) (rel : OrdMap Int K), (OrdMap.keys rel).Nodup →
      (OrdMap.keys (FindAllDocuments.minusLoop s words rel)).Nodup ∧
      ∀ id, id ∈ OrdMap.keys (FindAllDocuments.minusLoop s words rel) ↔
        (id ∈ OrdMap.keys rel ∧ words.any (fun word => s.indexedUnder word id) = false) := by
  intro words
  induction words with
  | nil => intro rel hnd; exact ⟨hnd, fun id => by simp [FindAllDocuments.minusLoop]⟩
  | cons w rest ih =>
    intro rel hnd
    unfold FindAllDocuments.minusLoop
    cases hf : OrdMap.find? s.word_to_document_freqs_ w with
    | none =>
      simp only
      obtain ⟨h1, h2⟩ := ih rel hnd
      refine ⟨h1, fun id => ?_⟩
      rw [h2 id]
      have : s.indexedUnder w id = false := by simp [indexedUnder, hf]
      simp [this]
    | some freqs =>
      simp only
      obtain ⟨g1, g2⟩ := eraseAll_spec freqs rel hnd
      obtain ⟨h1, h2⟩ := ih _ g1
      refine ⟨h1, fun id => ?_⟩
      rw [h2 id, g2 id, ← indexedUnder_of_find? hf id]
      simp only [List.any_cons, Bool.or_eq_false_iff, Bool.not_eq_true]
      tauto

theorem collect_spec (s : SearchServer) :
    ∀ (rel : List (Int × K)), (∀ id ∈ OrdMap.keys rel, OrdMap.contains s.documents_ id = true) →
      ∃ docs, FindAllDocuments.collect s rel = .ok docs ∧
        docs.map Document.id = OrdMap.keys rel ∧
        ∀ d ∈ docs, ∃ data, OrdMap.find? s.documents_ d.id = some data ∧
          d.rating = data.rating := by
  intro rel
  induction rel with
  | nil => intro _; exact ⟨[], rfl, rfl, fun d hd => by simp at hd⟩
  | cons e rest ih =>
    intro h
    obtain ⟨id0, r0⟩ := e
    have h0 : OrdMap.contains s.documents_ id0 = true := h id0 (by simp [OrdMap.keys])
    have hrest : ∀ id ∈ OrdMap.keys rest, OrdMap.contains s.documents_ id = true :=
      fun id hid => h id (by simp only [OrdMap.keys, List.map_cons, List.mem_cons]; exact Or.inr hid)
    obtain ⟨docs, h1, h2, h3⟩ := ih hrest
    unfold FindAllDocuments.collect
    cases hf : OrdMap.find? s.documents_ id0 with
    | none => simp [OrdMap.contains, hf] at h0
    | some data =>
      simp only [h1]
      refine ⟨_, rfl, ?_, ?_⟩
      · simp only [List.map_cons, h2, OrdMap.keys]
      · intro d hd
        rcases List.mem_cons.1 hd with rfl | hd
        · exact ⟨data, hf, rfl⟩
        · exact h3 d hd

end SearchServer

end Search

namespace Search

namespace SearchServer

variable {K : Type} [LinearOrderedField K]

theorem passes_live (s : SearchServer) (key_mapper : KeyMapper) (id : Int)
    (h : passes s key_mapper id = true) : id ∈ OrdMap.keys s.documents_ := by
  rw [← OrdMap.contains_iff_mem_keys]
  unfold passes at h
  cases hf : OrdMap.find? s.documents_ id with
  | none => simp [hf] at h
  | some d => simp [OrdMap.contains, hf]

theorem mem_candidates (s : SearchServer) (query : Query) (key_mapper : KeyMapper) (id : Int) :
    id ∈ candidates s query key_mapper ↔
      (query.plus_words.any (fun word => s.indexedUnder word id) = true ∧
        passes s key_mapper id = true ∧
        query.minus_words.any (fun word => s.indexedUnder word id) = false) := by
  unfold candidates
  rw [List.mem_filter]
  simp only [Bool.and_eq_true, Bool.not_eq_true']
  constructor
  · rintro ⟨_, ⟨h1, h2⟩, h3⟩
    exact ⟨h1, h2, h3⟩
  · rintro ⟨h1, h2, h3⟩
    exact ⟨passes_live s key_mapper id h2, ⟨h1, h2⟩, h3⟩

/-- The sequential `FindAllDocuments` in a consistent state returns one
document for every candidate, with the stored rating. -/
theorem FindAllDocuments_spec (log : ℚ → K) (s : SearchServer) (hc : Consistent s)
    (query : Query) (key_mapper : KeyMapper) :
    ∃ docs, FindAllDocuments log s query key_mapper = .ok docs ∧
      (docs.map Document.id).Nodup ∧
      (docs.map Document.id).Perm (candidates s query key_mapper) ∧
      ∀ d ∈ docs, ∃ data, OrdMap.find? s.documents_ d.id = some data ∧
        d.rating = data.rating := by
  obtain ⟨rel1, h1, h2, h3⟩ := plusLoop_spec log s hc key_mapper query.plus_words []
    (by simp [OrdMap.keys])
  obtain ⟨g1, g2⟩ := minusLoop_spec s query.minus_words rel1 h2
  have hmem : ∀ id, id ∈ OrdMap.keys (FindAllDocuments.minusLoop s query.minus_words rel1) ↔
      id ∈ candidates s query key_mapper := by
    intro id
    rw [g2 id, h3 id, mem_candidates]
    simp only [OrdMap.keys, List.map_nil, List.not_mem_nil, false_or]
    tauto
  have hlive : ∀ id ∈ OrdMap.keys (FindAllDocuments.minusLoop s query.minus_words rel1),
      OrdMap.contains s.documents_ id = true := by
    intro id hid
    rw [OrdMap.contains_iff_mem_keys]
    exact passes_live s key_mapper id ((mem_candidates s query key_mapper id).1
      ((hmem id).1 hid)).2.1
  obtain ⟨docs, c1, c2, c3⟩ := collect_spec s _ hlive
  refine ⟨docs, ?_, ?_, ?_, c3⟩
  · unfold FindAllDocuments
    rw [h1]
    exact c1
  · rw [c2]
    exact g1
  · rw [c2]
    apply (List.perm_ext_iff_of_nodup g1 ?_).2 hmem
    unfold candidates
    exact hc.documents_nodup.filter _

end SearchServer

open SearchServer

/-- Claim C1. In every reachable state, for every query accepted by the
validating parser and every predicate, the sequential `FindTopDocuments`
returns a list of exactly `min(5, |C|)` documents with pairwise distinct ids,
each a member of `C` and carrying the rating stored for it, where `C`
(`candidates`) is the duplicate-free list of the live documents that are
indexed under a plus word, satisfy the predicate and are indexed under no
minus word.  A query word that is not in the index raises no error. -/
theorem C1_FindTopDocuments_returns_top_candidates {K : Type} [LinearOrderedField K]
    (log : ℚ → K) (s : SearchServer) (hs : Reachable s) (raw_query : Str) (query : Query)
    (hq : s.ParseQuery raw_query = .ok query) (key_mapper : KeyMapper) :
    ∃ result, s.FindTopDocuments log raw_query key_mapper = .ok result ∧
      result.length = min 5 (candidates s query key_mapper).length ∧
      (result.map Document.id).Nodup ∧
      (∀ d ∈ result, d.id ∈ candidates s query key_mapper ∧
        ∃ data, OrdMap.find? s.documents_ d.id = some data ∧ d.rating = data.rating) ∧
      (candidates s query key_mapper).Nodup ∧
      (∀ id, id ∈ candidates s query key_mapper ↔
        (id ∈ OrdMap.keys s.documents_ ∧
          (∃ word ∈ query.plus_words, s.indexedUnder word id = true) ∧
          passes s key_mapper id = true ∧
          ¬ ∃ word ∈ query.minus_words, s.indexedUnder word id = true)) := by
  have hc := Reachable_consistent s hs
  obtain ⟨docs, h1, h2, h3, h4⟩ := FindAllDocuments_spec log s hc query key_mapper
  refine ⟨sortAndTruncate docs, ?_, ?_, sortAndTruncate_nodup docs h2, ?_, ?_, ?_⟩
  · unfold FindTopDocuments
    rw [hq]
    simp only [h1]
  · rw [sortAndTruncate_length, ← h3.length_eq, List.length_map]
  · intro d hd
    have hmem := sortAndTruncate_mem docs d hd
    exact ⟨h3.subset (List.mem_map_of_mem Document.id hmem), h4 d hmem⟩
  · exact hc.documents_nodup.filter _
  · intro id
    rw [mem_candidates]
    constructor
    · rintro ⟨a, b, c⟩
      refine ⟨passes_live s key_mapper id b, ?_, b, ?_⟩
      · simpa using a
      · simpa using c
    · rintro ⟨_, a, b, c⟩
      refine ⟨by simpa using a, b, ?_⟩
      simpa using c

end Search

namespace Search

open SearchServer

theorem sortAndTruncate_perm {K : Type} [LinearOrderedField K] (l : List (Document K))
    (h : l.length ≤ 5) : (sortAndTruncate l).Perm l := by
  rw [sortAndTruncate_eq, List.take_of_length_le]
  · exact sort_perm compareDocuments l
  · rw [(sort_perm compareDocuments l).length_eq]
    exact h

/-- C1 on the scenario corpus with the real logarithm: for "a -c" the only
candidate is document 2, and it is the result. -/
theorem C1_witness :
    ∃ result, scenarioServer.FindTopDocuments (fun q : ℚ => Real.log (q : ℝ)) "a -c".toList
        isActual = .ok result ∧
      result.length = 1 ∧ ∀ d ∈ result, d.id = 2 := by
  obtain ⟨r, h1, h2, _, h4, _⟩ := C1_FindTopDocuments_returns_top_candidates
    (fun q : ℚ => Real.log (q : ℝ)) scenarioServer
    (Reachable.add _ 2 "a b".toList DocumentStatus.ACTUAL [4]
      (Reachable.add _ 1 "a b c".toList DocumentStatus.ACTUAL [1, 2, 3]
        (Reachable.construct [] newServer rfl)))
    "a -c".toList { plus_words := ["a".toList], minus_words := ["c".toList] }
    (by decide!) isActual
  have hc : candidates scenarioServer { plus_words := ["a".toList], minus_words := ["c".toList] }
      isActual = [2] := by decide!
  rw [hc] at h2 h4
  exact ⟨r, h1, by simpa using h2, fun d hd => by simpa using (h4 d hd).1⟩

theorem scenario_FindAllDocumentsPar {K : Type} [LinearOrderedField K] (log : ℚ → K)
    (key_mapper : KeyMapper) (minus : List Str) (hm : "a".toList ∉ minus) :
    ∃ docs, scenarioServer.FindAllDocumentsPar log
        { plus_words := ["a".toList], minus_words := minus } key_mapper = .ok docs ∧
      docs.map Document.id = [1, 2] := by
  have h1 : OrdMap.find? scenarioServer.word_to_document_freqs_ "a".toList =
      some [(1, 1 / 3), (2, 1 / 2)] := by decide!
  have h2 : OrdMap.find? scenarioServer.documents_ 1 = some ⟨2, DocumentStatus.ACTUAL⟩ := by
    decide!
  have h3 : OrdMap.find? scenarioServer.documents_ 2 = some ⟨4, DocumentStatus.ACTUAL⟩ := by
    decide!
  have hany : minus.any (fun minus_word => decide (minus_word = "a".toList)) = false := by
    rw [List.any_eq_false]
    intro x hx
    simp only [decide_eq_true_eq]
    rintro rfl
    exact hm hx
  have key : ((scenarioServer.FindAllDocumentsPar log
      { plus_words := ["a".toList], minus_words := minus } key_mapper).toOption.map
        (List.map Document.id)) = some [1, 2] := by
    simp only [FindAllDocumentsPar, List.foldl_cons, List.foldl_nil, OrdMap.contains, h1,
      Option.isSome_some, hany, Bool.not_false, Bool.and_self, if_true,
      ComputeWordInverseDocumentFreq, Option.getD_some]
    rfl
  cases hX : scenarioServer.FindAllDocumentsPar log
      { plus_words := ["a".toList], minus_words := minus } key_mapper with
  | error e =>
    rw [hX] at key
    simp [Except.toOption] at key
  | ok docs =>
    rw [hX] at key
    refine ⟨docs, rfl, ?_⟩
    simpa [Except.toOption] using key

end Search

namespace Search

open SearchServer

/-- The scenario corpus is reachable. -/
theorem scenarioServer_reachable : Reachable scenarioServer :=
  Reachable.add _ 2 "a b".toList DocumentStatus.ACTUAL [4]
    (Reachable.add _ 1 "a b c".toList DocumentStatus.ACTUAL [1, 2, 3]
      (Reachable.construct [] newServer rfl))

/-- Claim C3, the failing input. On the scenario corpus document 1 ("a b c") is
indexed under "c", the query "a -c" is accepted with minus word "c", and the
parallel `FindTopDocuments` returns document 1 all the same; the sequential
variant does not. -/
theorem C3_parallel_FindTopDocuments_returns_vetoed_document {K : Type} [LinearOrderedField K]
    (log : ℚ → K) :
    scenarioServer.indexedUnder "c".toList 1 = true ∧
    scenarioServer.ParseQuery "a -c".toList =
      .ok { plus_words := ["a".toList], minus_words := ["c".toList] } ∧
    (∃ result, scenarioServer.FindTopDocumentsPar log "a -c".toList isActual = .ok result ∧
      ∃ d ∈ result, d.id = 1) ∧
    (∃ result, scenarioServer.FindTopDocuments log "a -c".toList isActual = .ok result ∧
      ∀ d ∈ result, d.id ≠ 1) := by
  have hq : scenarioServer.ParseQuery "a -c".toList =
      .ok { plus_words := ["a".toList], minus_words := ["c".toList] } := by decide
  refine ⟨by decide!, hq, ?_, ?_⟩
  · obtain ⟨docs, h1, h2⟩ := scenario_FindAllDocumentsPar log isActual ["c".toList] (by decide)
    refine ⟨sortAndTruncate docs, ?_, ?_⟩
    · unfold FindTopDocumentsPar
      rw [hq]
      simp only [h1]
    · have hlen : docs.length ≤ 5 := by
        have := congrArg List.length h2
        simp only [List.length_map, List.length_cons, List.length_nil] at this
        omega
      have hmem : (1 : Int) ∈ docs.map Document.id := by
        rw [h2]
        decide
      obtain ⟨d, hd, hid⟩ := List.mem_map.1 hmem
      exact ⟨d, (sortAndTruncate_perm docs hlen).symm.subset hd, hid⟩
  · have hc := Reachable_consistent _ scenarioServer_reachable
    obtain ⟨docs, h1, _, h3, _⟩ := FindAllDocuments_spec log scenarioServer hc
      { plus_words := ["a".toList], minus_words := ["c".toList] } isActual
    have hcand : candidates scenarioServer
        { plus_words := ["a".toList], minus_words := ["c".toList] } isActual = [2] := by decide!
    rw [hcand] at h3
    refine ⟨sortAndTruncate docs, ?_, ?_⟩
    · unfold FindTopDocuments
      rw [hq]
      simp only [h1]
    · intro d hd hid
      have := h3.subset (List.mem_map_of_mem Document.id (sortAndTruncate_mem docs d hd))
      rw [hid] at this
      simp at this

/-- Claim C4, the failing input. On the scenario corpus, for the query "a" and
the predicate "status is BANNED" (no document is BANNED), the sequential
`FindTopDocuments` returns no document and the parallel one returns the
documents 1 and 2. -/
theorem C4_parallel_FindTopDocuments_differs {K : Type} [LinearOrderedField K]
    (log : ℚ → K) :
    scenarioServer.FindTopDocuments log "a".toList (statusIs DocumentStatus.BANNED) = .ok [] ∧
    (∃ result, scenarioServer.FindTopDocumentsPar log "a".toList
        (statusIs DocumentStatus.BANNED) = .ok result ∧
      (result.map Document.id).Perm [1, 2]) := by
  have hq : scenarioServer.ParseQuery "a".toList =
      .ok { plus_words := ["a".toList], minus_words := [] } := by decide
  constructor
  · have hc := Reachable_consistent _ scenarioServer_reachable
    obtain ⟨docs, h1, _, h3, _⟩ := FindAllDocuments_spec log scenarioServer hc
      { plus_words := ["a".toList], minus_words := [] } (statusIs DocumentStatus.BANNED)
    have hcand : candidates scenarioServer
        { plus_words := ["a".toList], minus_words := [] } (statusIs DocumentStatus.BANNED)
          = [] := by decide!
    rw [hcand] at h3
    have hdocs : docs = [] := by
      have := h3.length_eq
      simp only [List.length_map, List.length_nil] at this
      exact List.length_eq_zero.1 this
    subst hdocs
    unfold FindTopDocuments
    rw [hq]
    simp only [h1]
    rfl
  · obtain ⟨docs, h1, h2⟩ := scenario_FindAllDocumentsPar log
      (statusIs DocumentStatus.BANNED) [] (by decide)
    refine ⟨sortAndTruncate docs, ?_, ?_⟩
    · unfold FindTopDocumentsPar
      rw [hq]
      simp only [h1]
    · have hlen : docs.length ≤ 5 := by
        have := congrArg List.length h2
        simp only [List.length_map, List.length_cons, List.length_nil] at this
        omega
      rw [← h2]
      exact (sortAndTruncate_perm docs hlen).map Document.id

/-- Claim C10, the failing input. On the scenario corpus the sequential
`MatchDocument` returns the matching plus words in the order in which the
unordered set enumerates them and does not sort: for "b a" and document 2 it
returns ["b", "a"]; the same list results whenever the set {a, b} is
enumerated as b, a.  The parallel variant returns the sorted ["a", "b"].  The
veto part of the claim holds: "a -c" on document 1 gives the empty list. -/
theorem C10_sequential_MatchDocument_unsorted :
    scenarioServer.MatchDocument "b a".toList 2 =
      .ok (["b".toList, "a".toList], DocumentStatus.ACTUAL) ∧
    MatchDocument.body scenarioServer
        { plus_words := ["b".toList, "a".toList], minus_words := [] } 2 =
      .ok (["b".toList, "a".toList], DocumentStatus.ACTUAL) ∧
    scenarioServer.MatchDocumentPar "b a".toList 2 =
      .ok (["a".toList, "b".toList], DocumentStatus.ACTUAL) ∧
    scenarioServer.MatchDocument "a -c".toList 1 = .ok ([], DocumentStatus.ACTUAL) ∧
    scenarioServer.MatchDocument "a b".toList 2 =
      .ok (["a".toList, "b".toList], DocumentStatus.ACTUAL) := by
  refine ⟨by decide!, by decide!, by decide!, by decide!, by decide!⟩

end Search

namespace Search

/-! # The order of the results -/

theorem sort_insert_mem {α : Type} (comp : α → α → Bool) (x : α) (l : List α) (z : α) :
    z ∈ sort.insert comp x l ↔ z = x ∨ z ∈ l := by
  rw [(sort_insert_perm comp x l).mem_iff, List.mem_cons]

/-- Insertion keeps a list ordered when `comp` never puts two elements each
before the other and "not after" is transitive on the elements at hand. -/
theorem sort_insert_pairwise {α : Type} (comp : α → α → Bool) (x : α) :
    ∀ (l : List α),
      (∀ a b, comp a b = true → comp b a = false) →
      (∀ a ∈ x :: l, ∀ b ∈ x :: l, ∀ c ∈ x :: l,
        comp b a = false → comp c b = false → comp c a = false) →
      l.Pairwise (fun a b => comp b a = false) →
      (sort.insert comp x l).Pairwise (fun a b => comp b a = false) := by
  intro l
  induction l with
  | nil => intro _ _ _; simp [sort.insert]
  | cons y ys ih =>
    intro hasym htrans hl
    have hy := List.pairwise_cons.1 hl
    unfold sort.insert
    by_cases hxy : comp x y = true
    · simp only [hxy, if_true]
      refine List.pairwise_cons.2 ⟨fun z hz => ?_, hl⟩
      rcases List.mem_cons.1 hz with rfl | hz
      · exact hasym _ _ hxy
      · exact htrans x (by simp) y (by simp) z (by simp [hz]) (hasym _ _ hxy) (hy.1 z hz)
    · simp only [hxy]
      have hxy' : comp x y = false := by simpa using hxy
      refine List.pairwise_cons.2 ⟨fun z hz => ?_, ?_⟩
      · rcases (sort_insert_mem comp x ys z).1 hz with rfl | hz
        · exact hxy'
        · exact hy.1 z hz
      · apply ih hasym _ hy.2
        intro a ha b hb c hc
        apply htrans a _ b _ c _
        · rcases List.mem_cons.1 ha with h | h
          · simp [h]
          · simp [h]
        · rcases List.mem_cons.1 hb with h | h
          · simp [h]
          · simp [h]
        · rcases List.mem_cons.1 hc with h | h
          · simp [h]
          · simp [h]

theorem sort_pairwise {α : Type} (comp : α → α → Bool) :
    ∀ (l : List α),
      (∀ a b, comp a b = true → comp b a = false) →
      (∀ a ∈ l, ∀ b ∈ l, ∀ c ∈ l, comp b a = false → comp c b = false → comp c a = false) →
      (sort comp l).Pairwise (fun a b => comp b a = false) := by
  intro l
  induction l with
  | nil => intro _ _; simp [sort]
  | cons x xs ih =>
    intro hasym htrans
    unfold sort
    have hsub : ∀ z, z ∈ x :: sort comp xs → z ∈ x :: xs := by
      intro z hz
      rcases List.mem_cons.1 hz with h | h
      · simp [h]
      · exact List.mem_cons_of_mem _ ((sort_perm comp xs).subset h)
    apply sort_insert_pairwise comp x _ hasym
    · intro a ha b hb c hc
      exact htrans a (hsub a ha) b (hsub b hb) c (hsub c hc)
    · apply ih hasym
      intro a ha b hb c hc
      exact htrans a (List.mem_cons_of_mem _ ha) b (List.mem_cons_of_mem _ hb) c
        (List.mem_cons_of_mem _ hc)

namespace SearchServer

variable {K : Type} [LinearOrderedField K]

theorem compareDocuments_asymm (a b : Document K) (h : compareDocuments a b = true) :
    compareDocuments b a = false := by
  unfold compareDocuments at h ⊢
  rw [abs_sub_comm b.relevance a.relevance]
  by_cases ht : |a.relevance - b.relevance| < 1 / 1000000
  · simp only [ht, if_true, decide_eq_true_eq, decide_eq_false_iff_not, not_lt] at h ⊢
    omega
  · simp only [ht, if_false, decide_eq_true_eq, decide_eq_false_iff_not, not_lt] at h ⊢
    exact le_of_lt h

/-- The comparator does not put `b` before `a` exactly when `a`, `b` are in
the order of the ranking contract. -/
theorem compareDocuments_false_iff (a b : Document K) :
    compareDocuments b a = false ↔ rankedBefore a b := by
  unfold compareDocuments rankedBefore nearTie
  rw [abs_sub_comm b.relevance a.relevance]
  by_cases ht : |a.relevance - b.relevance| < 1 / 1000000
  · simp only [ht, if_true, decide_eq_false_iff_not, not_lt, true_and]
    constructor
    · exact fun h => Or.inr h
    · rintro (h | h)
      · exact absurd (lt_of_le_of_lt (le_abs_self _) ht) (not_lt.2 h)
      · exact h
  · simp only [ht, if_false, decide_eq_false_iff_not, not_lt, false_and, or_false]
    rw [not_lt] at ht
    constructor
    · intro h
      rwa [abs_of_nonneg (sub_nonneg.2 h)] at ht
    · intro h
      have : (0 : K) < 1 / 1000000 := by norm_num
      linarith

/-- When near ties are transitive among some documents, so is the order of the
ranking contract. -/
theorem rankedBefore_trans (l : List (Document K))
    (htie : ∀ a ∈ l, ∀ b ∈ l, ∀ c ∈ l, nearTie a b → nearTie b c → nearTie a c) :
    ∀ a ∈ l, ∀ b ∈ l, ∀ c ∈ l, rankedBefore a b → rankedBefore b c → rankedBefore a c := by
  intro a ha b hb c hc hab hbc
  have hsymm : ∀ x y : Document K, nearTie x y → nearTie y x := by
    intro x y h
    unfold nearTie at h ⊢
    rwa [abs_sub_comm]
  have heps : (0 : K) < 1 / 1000000 := by norm_num
  rcases hab with hab | ⟨tab, rab⟩ <;> rcases hbc with hbc | ⟨tbc, rbc⟩
  · left
    linarith
  · by_cases tac : nearTie a c
    · have : nearTie a b := htie a ha c hc b hb tac (hsymm b c tbc)
      unfold nearTie at this
      exact absurd (lt_of_le_of_lt (le_abs_self _) this) (not_lt.2 hab)
    · left
      unfold nearTie at tac tbc
      rw [not_lt] at tac
      have h1 := (abs_lt.1 tbc).1
      have h2 : 0 ≤ a.relevance - c.relevance := by linarith
      rwa [abs_of_nonneg h2] at tac
  · by_cases tac : nearTie a c
    · have : nearTie b c := htie b hb a ha c hc (hsymm a b tab) tac
      unfold nearTie at this
      exact absurd (lt_of_le_of_lt (le_abs_self _) this) (not_lt.2 hbc)
    · left
      unfold nearTie at tac tab
      rw [not_lt] at tac
      have h1 := (abs_lt.1 tab).1
      have h2 : 0 ≤ a.relevance - c.relevance := by linarith
      rwa [abs_of_nonneg h2] at tac
  · right
    exact ⟨htie a ha b hb c hc tab tbc, le_trans rbc rab⟩

/-- The cut result is in the order of the ranking contract when near ties are
transitive among the matched documents. -/
theorem sortAndTruncate_pairwise (l : List (Document K))
    (htie : ∀ a ∈ l, ∀ b ∈ l, ∀ c ∈ l, nearTie a b → nearTie b c → nearTie a c) :
    (sortAndTruncate l).Pairwise rankedBefore := by
  rw [sortAndTruncate_eq]
  have h := sort_pairwise compareDocuments l compareDocuments_asymm (by
    intro a ha b hb c hc h1 h2
    rw [compareDocuments_false_iff] at h1 h2 ⊢
    exact rankedBefore_trans l htie a ha b hb c hc h1 h2)
  have h' : (sort compareDocuments l).Pairwise rankedBefore :=
    h.imp (fun {a b} hab => (compareDocuments_false_iff a b).1 hab)
  exact h'.sublist (List.take_sublist _ _)

end SearchServer

open SearchServer

/-- Claim C2, amended. For every state, accepted query and predicate such that
near ties (relevance difference below 1e-6) are transitive among the matched
documents, the list returned by the sequential `FindTopDocuments` has at most
5 documents and is ordered: for positions `i < j`, either the relevance at `i`
exceeds the relevance at `j` by at least 1e-6, or the two relevances differ by
less than 1e-6 and the rating at `i` is at least the rating at `j`. -/
theorem C2_FindTopDocuments_sorted_when_ties_transitive {K : Type} [LinearOrderedField K]
    (log : ℚ → K) (s : SearchServer) (raw_query : Str) (query : Query) (key_mapper : KeyMapper)
    (matched : List (Document K))
    (hq : s.ParseQuery raw_query = .ok query)
    (hm : FindAllDocuments log s query key_mapper = .ok matched)
    (htie : ∀ a ∈ matched, ∀ b ∈ matched, ∀ c ∈ matched,
      nearTie a b → nearTie b c → nearTie a c) :
    ∃ result, s.FindTopDocuments log raw_query key_mapper = .ok result ∧
      result.length ≤ 5 ∧ result.Pairwise rankedBefore := by
  refine ⟨sortAndTruncate matched, ?_, ?_, sortAndTruncate_pairwise matched htie⟩
  · unfold FindTopDocuments
    rw [hq]
    simp only [hm]
  · rw [sortAndTruncate_length]
    exact min_le_left _ _

end Search

namespace Search

open SearchServer

theorem scenario_FindAllDocuments_a_d :
    FindAllDocuments (fun q : ℚ => Real.log (q : ℝ)) scenarioServer
      { plus_words := ["a".toList, "d".toList], minus_words := [] } isActual =
      .ok [{ id := 1, relevance := 0, rating := 2 }, { id := 2, relevance := 0, rating := 4 }] := by
  have h1 : OrdMap.find? scenarioServer.word_to_document_freqs_ "a".toList =
      some [(1, 1 / 3), (2, 1 / 2)] := by decide!
  have hd : OrdMap.find? scenarioServer.word_to_document_freqs_ "d".toList = none := by decide!
  have h2 : OrdMap.find? scenarioServer.documents_ 1 = some ⟨2, DocumentStatus.ACTUAL⟩ := by
    decide!
  have h3 : OrdMap.find? scenarioServer.documents_ 2 = some ⟨4, DocumentStatus.ACTUAL⟩ := by
    decide!
  have hN : scenarioServer.GetDocumentCount = 2 := by decide!
  simp only [FindAllDocuments, FindAllDocuments.plusLoop, h1, hd, ComputeWordInverseDocumentFreq,
    FindAllDocuments.addWord, h2, h3, hN, FindAllDocuments.minusLoop]
  simp [isActual, statusIs, OrdMap.modify, OrdMap.contains, OrdMap.find?, OrdMap.insertNew,
    OrdMap.replace, FindAllDocuments.collect, h2, h3]
  decide!

/-- C2 amended, on the scenario corpus with the real logarithm: for "a d" both
documents have relevance 0, near ties are transitive, and the result is
document 2 (rating 4) before document 1 (rating 2). -/
theorem C2_witness :
    ∃ result, scenarioServer.FindTopDocuments (fun q : ℚ => Real.log (q : ℝ)) "a d".toList
        isActual = .ok result ∧
      result.length ≤ 5 ∧ result.Pairwise rankedBefore :=
  C2_FindTopDocuments_sorted_when_ties_transitive (fun q : ℚ => Real.log (q : ℝ))
    scenarioServer "a d".toList { plus_words := ["a".toList, "d".toList], minus_words := [] }
    isActual _ (by decide) scenario_FindAllDocuments_a_d (by
      intro a ha b hb c hc _ _
      simp only [List.mem_cons, List.mem_singleton, List.not_mem_nil, or_false] at ha hc
      unfold nearTie
      rcases ha with rfl | rfl <;> rcases hc with rfl | rfl <;> norm_num)

end Search

namespace Search

/-! # The two tokenizers agree -/

theorem SplitIntoWordsView_loop_eq (text : Str) :
    ∀ (rest done cur : Str) (words : List Str), text = done ++ cur ++ rest → ' ' ∉ cur →
      (SplitIntoWordsView.loop text rest (done.length + cur.length) done.length (cur ++ rest)
          words).1 = (SplitIntoWords.loop rest cur words).1 ∧
      (SplitIntoWordsView.loop text rest (done.length + cur.length) done.length (cur ++ rest)
          words).2 = (SplitIntoWords.loop rest cur words).2 ∧
      ' ' ∉ (SplitIntoWords.loop rest cur words).2 := by
  intro rest
  induction rest with
  | nil =>
    intro done cur words _ hcur
    simp [SplitIntoWordsView.loop, SplitIntoWords.loop, hcur]
  | cons c rest ih =>
    intro done cur words htext hcur
    by_cases hc : c = ' '
    · subst hc
      have hlen : text.length = done.length + cur.length + (rest.length + 1) := by
        rw [htext]
        simp only [List.length_append, List.length_cons]
      have htake : (cur ++ ' ' :: rest).take
          ((cur ++ ' ' :: rest).length - (text.length - (done.length + cur.length))) = cur := by
        have : (cur ++ ' ' :: rest).length - (text.length - (done.length + cur.length))
            = cur.length := by
          rw [hlen]
          simp only [List.length_append, List.length_cons]
          omega
        rw [this]
        exact List.take_left' rfl
      have hdrop : text.drop (done.length + cur.length + 1) = rest := by
        rw [htext]
        have : done ++ cur ++ ' ' :: rest = (done ++ cur ++ [' ']) ++ rest := by simp
        rw [this]
        exact List.drop_left' (by simp; omega)
      have hnext := ih (done ++ cur ++ [' ']) [] (if cur ≠ [] then words ++ [cur] else words)
        (by rw [htext]; simp) (by simp)
      simp only [List.length_append, List.length_singleton, List.length_nil, Nat.add_zero,
        List.nil_append] at hnext
      simp only [SplitIntoWordsView.loop, if_true, htake, hdrop, SplitIntoWords.loop]
      have hcond : (done.length + cur.length ≠ done.length) ↔ cur ≠ [] := by
        rw [← List.length_pos_iff_ne_nil] 
        omega
      by_cases hne : cur ≠ []
      · have h1 : done.length + cur.length ≠ done.length := hcond.2 hne
        simp only [hne, h1, ne_eq, not_false_eq_true, if_true] at hnext ⊢
        exact hnext
      · have h1 : ¬ (done.length + cur.length ≠ done.length) := fun h => hne (hcond.1 h)
        have hnil : cur = [] := by simpa using hne
        subst hnil
        simp only [hne, h1, if_false] at hnext ⊢
        exact hnext
    · have hnext := ih done (cur ++ [c]) words (by rw [htext]; simp) (by
        simp only [List.mem_append, List.mem_singleton, not_or]
        exact ⟨hcur, fun h => hc h.symm⟩)
      simp only [List.length_append, List.length_singleton, List.append_assoc,
        List.singleton_append] at hnext
      simp only [SplitIntoWordsView.loop, hc, if_false, SplitIntoWords.loop]
      rw [← Nat.add_assoc] at hnext
      exact hnext

/-- Both tokenizers, `SplitIntoWordsView` and `SplitIntoWords`, return the same words. -/
theorem SplitIntoWordsView_eq_SplitIntoWords (text : Str) :
    SplitIntoWordsView text = SplitIntoWords text := by
  obtain ⟨h1, h2, h3⟩ := SplitIntoWordsView_loop_eq text text [] [] [] (by simp) (by simp)
  simp only [List.length_nil, Nat.add_zero, List.nil_append] at h1 h2
  unfold SplitIntoWordsView SplitIntoWords
  simp only [h1, h2]
  by_cases hne : (SplitIntoWords.loop text [] []).2 = []
  · simp [hne]
  · have hhead : (SplitIntoWords.loop text [] []).2.head? ≠ some ' ' := by
      intro hh
      exact h3 (List.mem_of_mem_head? hh)
    simp [hne, hhead]

/-! # The corpus with a cycle of near ties -/

theorem SplitIntoWords_loop_filler :
    ∀ (n : Nat) (word : Str) (words : List Str), word ≠ [] →
      (SplitIntoWords.loop (filler n) word words).2 ≠ [] ∧
      (SplitIntoWords.loop (filler n) word words).1 ++
          [(SplitIntoWords.loop (filler n) word words).2] =
        words ++ [word] ++ List.replicate n ['y'] := by
  intro n
  induction n with
  | zero => intro word words h; simp [filler, SplitIntoWords.loop, h]
  | succ n ih =>
    intro word words h
    obtain ⟨h1, h2⟩ := ih ['y'] (words ++ [word]) (by simp)
    simp only [filler, SplitIntoWords.loop, if_true, h, ne_eq, not_false_eq_true,
      show ('y' : Char) ≠ ' ' by decide, if_false, List.nil_append]
    refine ⟨h1, ?_⟩
    rw [h2, List.replicate_succ]
    simp

theorem SplitIntoWords_x_filler (n : Nat) :
    SplitIntoWords ('x' :: filler n) = ['x'] :: List.replicate n ['y'] := by
  obtain ⟨h1, h2⟩ := SplitIntoWords_loop_filler n ['x'] [] (by simp)
  unfold SplitIntoWords
  simp only [SplitIntoWords.loop, show ('x' : Char) ≠ ' ' by decide, if_false, List.nil_append]
  simp only [h1, ne_eq, not_false_eq_true, if_true, h2]
  simp

theorem filler_chars (n : Nat) : ∀ c ∈ filler n, c = ' ' ∨ c = 'y' := by
  induction n with
  | zero => intro c hc; simp [filler] at hc
  | succ n ih =>
    intro c hc
    simp only [filler, List.mem_cons] at hc
    rcases hc with h | h | h
    · exact Or.inl h
    · exact Or.inr h
    · exact ih c h

theorem x_filler_valid (n : Nat) : ¬ ∃ c ∈ 'x' :: filler n, c.toNat ≤ 31 := by
  rintro ⟨c, hc, hle⟩
  rcases List.mem_cons.1 hc with h | h
  · subst h
    revert hle
    decide
  · rcases filler_chars n c h with h | h <;> subst h <;> revert hle <;> decide

namespace SearchServer

/-- The inverted index after the loop of `AddDocument`: the entry of a word of
the document is the old entry with `inv_word_count` added once per occurrence
under the id, the other entries are untouched. -/
theorem inverted_foldl_step (document_id : Int) (inv_word_count : ℚ) :
    ∀ (words : List Str) (s : SearchServer) (w : Str),
      OrdMap.find? (words.foldl (AddDocument.step document_id inv_word_count) s).word_to_document_freqs_ w =
        if w ∈ words then
          some ((fun freqs => OrdMap.modify freqs document_id 0 (fun x => x + inv_word_count))^[words.count w]
            ((OrdMap.find? s.word_to_document_freqs_ w).getD []))
        else OrdMap.find? s.word_to_document_freqs_ w := by
  intro words
  induction words with
  | nil => intro s w; simp
  | cons t rest ih =>
    intro s w
    rw [List.foldl_cons, ih]
    have hstep : OrdMap.find? (AddDocument.step document_id inv_word_count s t).word_to_document_freqs_ w
        = if w = t then
            some (OrdMap.modify ((OrdMap.find? s.word_to_document_freqs_ t).getD []) document_id 0
              (fun x => x + inv_word_count))
          else OrdMap.find? s.word_to_document_freqs_ w := by
      simp only [AddDocument.step, OrdMap.find?_modify]
    rw [hstep]
    by_cases hwt : w = t
    · subst hwt
      by_cases hr : w ∈ rest
      · simp only [hr, if_true, List.mem_cons, true_or, List.count_cons_self, Option.getD_some,
          Function.iterate_succ_apply]
      · simp only [hr, if_false, if_true, List.mem_cons, true_or, List.count_cons_self,
          List.count_eq_zero_of_not_mem hr, Function.iterate_succ_apply, Function.iterate_zero,
          id_eq]
    · have htw : ¬ t = w := fun h => hwt h.symm
      by_cases hr : w ∈ rest
      · simp [hr, hwt, htw, List.count_cons]
      · simp [hr, hwt, htw]

/-- An accepted `AddDocument` on a server without stop words. -/
theorem AddDocument_effect (s : SearchServer) (document_id : Int) (document : Str)
    (status : DocumentStatus) (ratings : List Int) (hstop : s.stop_words_ = [])
    (hvalid : ¬ ∃ c ∈ document, c.toNat ≤ 31) (hid : 0 ≤ document_id)
    (hnew : OrdMap.contains s.documents_ document_id = false) :
    (s.AddDocument document_id document status ratings).2.stop_words_ = [] ∧
    (s.AddDocument document_id document status ratings).2.documents_ =
      OrdMap.emplace s.documents_ document_id
        { rating := ComputeAverageRating ratings, status := status } ∧
    ∀ w, OrdMap.find?
        (s.AddDocument document_id document status ratings).2.word_to_document_freqs_ w =
      if w ∈ SplitIntoWords document then
        some ((fun freqs => OrdMap.modify freqs document_id 0
            (fun x => x + 1 / ((SplitIntoWords document).length : ℚ)))^[(SplitIntoWords document).count w]
          ((OrdMap.find? s.word_to_document_freqs_ w).getD []))
      else OrdMap.find? s.word_to_document_freqs_ w := by
  have hok : (s.AddDocument document_id document status ratings).1 = .ok () := by
    rcases AddDocument_outcome s document_id document status ratings with ⟨hc, _⟩ | ⟨_, hok⟩
    · rcases hc with h | h | h
      · exact absurd h hvalid
      · exact absurd h (not_lt.2 hid)
      · rw [hnew] at h
        cases h
    · exact hok
  obtain ⟨_, hst⟩ := AddDocument_ok_state s document_id document status ratings hok
  have hwords : indexedWords s document = SplitIntoWords document := by
    unfold indexedWords
    rw [SplitIntoWordsView_eq_SplitIntoWords]
    apply List.filter_eq_self.2
    intro w _
    simp [IsStopWord, hstop]
  rw [hst, hwords]
  refine ⟨?_, rfl, fun w => ?_⟩
  · simp only
    rw [(foldl_step_fixed _ _ _ s).2.2, hstop]
  · simp only
    rw [inverted_foldl_step]

end SearchServer

end Search

namespace Search

open SearchServer

theorem AddDocument_x_filler (s : SearchServer) (document_id : Int) (n : Nat)
    (status : DocumentStatus) (ratings : List Int) (hstop : s.stop_words_ = [])
    (hid : 0 ≤ document_id) (hnew : OrdMap.contains s.documents_ document_id = false) :
    (s.AddDocument document_id ('x' :: filler n) status ratings).2.stop_words_ = [] ∧
    (s.AddDocument document_id ('x' :: filler n) status ratings).2.documents_ =
      OrdMap.emplace s.documents_ document_id
        { rating := ComputeAverageRating ratings, status := status } ∧
    OrdMap.find?
        (s.AddDocument document_id ('x' :: filler n) status ratings).2.word_to_document_freqs_
        ['x'] =
      some (OrdMap.modify ((OrdMap.find? s.word_to_document_freqs_ ['x']).getD []) document_id 0
        (fun x => x + 1 / ((n + 1 : ℕ) : ℚ))) := by
  obtain ⟨h1, h2, h3⟩ := AddDocument_effect s document_id ('x' :: filler n) status ratings hstop
    (x_filler_valid n) hid hnew
  refine ⟨h1, h2, ?_⟩
  rw [h3 ['x'], SplitIntoWords_x_filler]
  have hcount : List.count ['x'] (['x'] :: List.replicate n ['y']) = 1 := by
    rw [List.count_cons_self, List.count_replicate]
    simp
  simp only [List.mem_cons, true_or, if_true, hcount, Function.iterate_one, List.length_cons,
    List.length_replicate]

theorem afterAdd_x_filler (s : SearchServer) (document_id : Int) (n : Nat)
    (status : DocumentStatus) (ratings : List Int) (hstop : s.stop_words_ = [])
    (hid : 0 ≤ document_id) (hnew : OrdMap.contains s.documents_ document_id = false) :
    (s.afterAdd document_id ('x' :: filler n) status ratings).stop_words_ = [] ∧
    (s.afterAdd document_id ('x' :: filler n) status ratings).documents_ =
      OrdMap.emplace s.documents_ document_id
        { rating := ComputeAverageRating ratings, status := status } ∧
    OrdMap.find? (s.afterAdd document_id ('x' :: filler n) status ratings).word_to_document_freqs_
        ['x'] =
      some (OrdMap.modify ((OrdMap.find? s.word_to_document_freqs_ ['x']).getD []) document_id 0
        (fun x => x + 1 / ((n + 1 : ℕ) : ℚ))) := by
  unfold afterAdd
  exact AddDocument_x_filler s document_id n status ratings hstop hid hnew

theorem afterAdd_z (s : SearchServer) (document_id : Int)
    (status : DocumentStatus) (ratings : List Int) (hstop : s.stop_words_ = [])
    (hid : 0 ≤ document_id) (hnew : OrdMap.contains s.documents_ document_id = false) :
    (s.afterAdd document_id "z".toList status ratings).stop_words_ = [] ∧
    (s.afterAdd document_id "z".toList status ratings).documents_ =
      OrdMap.emplace s.documents_ document_id
        { rating := ComputeAverageRating ratings, status := status } ∧
    OrdMap.find? (s.afterAdd document_id "z".toList status ratings).word_to_document_freqs_ ['x']
      = OrdMap.find? s.word_to_document_freqs_ ['x'] := by
  unfold afterAdd
  obtain ⟨h1, h2, h3⟩ := AddDocument_effect s document_id "z".toList status ratings hstop
    (by decide) hid hnew
  refine ⟨h1, h2, ?_⟩
  rw [h3 ['x']]
  have : ['x'] ∉ SplitIntoWords "z".toList := by decide
  simp only [this, if_false]

theorem Reachable_afterAdd (s : SearchServer) (h : Reachable s) (document_id : Int)
    (document : Str) (status : DocumentStatus) (ratings : List Int) :
    Reachable (s.afterAdd document_id document status ratings) := by
  unfold afterAdd
  exact Reachable.add s document_id document status ratings h

/-- The corpus with the cycle of near ties is reachable. -/
theorem tieCycleServer_reachable : Reachable tieCycleServer := by
  unfold tieCycleServer
  exact Reachable_afterAdd _ (Reachable_afterAdd _ (Reachable_afterAdd _ (Reachable_afterAdd _
    (Reachable.construct [] newServer rfl) _ _ _ _) _ _ _ _) _ _ _ _) _ _ _ _

theorem tieCycleServer_facts :
    tieCycleServer.stop_words_ = [] ∧
    tieCycleServer.documents_ = [(1, { rating := 3, status := DocumentStatus.ACTUAL }),
      (2, { rating := 2, status := DocumentStatus.ACTUAL }),
      (3, { rating := 1, status := DocumentStatus.ACTUAL }),
      (4, { rating := 0, status := DocumentStatus.ACTUAL })] ∧
    OrdMap.find? tieCycleServer.word_to_document_freqs_ ['x'] =
      some [(1, 1 / 602), (2, 1 / 601), (3, 1 / 600)] := by
  unfold tieCycleServer
  obtain ⟨a1, a2, a3⟩ := afterAdd_x_filler newServer 1 601 DocumentStatus.ACTUAL [3] rfl
    (by decide) (by decide)
  have a2' : (newServer.afterAdd 1 ('x' :: filler 601) DocumentStatus.ACTUAL [3]).documents_ =
      [(1, { rating := 3, status := DocumentStatus.ACTUAL })] := by
    rw [a2]
    decide!
  have a3' : OrdMap.find? (newServer.afterAdd 1 ('x' :: filler 601) DocumentStatus.ACTUAL
      [3]).word_to_document_freqs_ ['x'] = some [(1, 1 / 602)] := by
    rw [a3]
    decide!
  obtain ⟨b1, b2, b3⟩ := afterAdd_x_filler _ 2 600 DocumentStatus.ACTUAL [2] a1
    (by decide) (by rw [a2']; decide)
  rw [a2'] at b2
  rw [a3'] at b3
  have b2' := b2.trans (show _ = [(1, { rating := 3, status := DocumentStatus.ACTUAL }),
      (2, { rating := 2, status := DocumentStatus.ACTUAL })] by decide!)
  have b3' := b3.trans (show _ = some [(1, 1 / 602), (2, 1 / 601)] by decide!)
  obtain ⟨c1, c2, c3⟩ := afterAdd_x_filler _ 3 599 DocumentStatus.ACTUAL [1] b1
    (by decide) (by rw [b2']; decide)
  rw [b2'] at c2
  rw [b3'] at c3
  have c2' := c2.trans (show _ = [(1, { rating := 3, status := DocumentStatus.ACTUAL }),
      (2, { rating := 2, status := DocumentStatus.ACTUAL }),
      (3, { rating := 1, status := DocumentStatus.ACTUAL })] by decide!)
  have c3' := c3.trans (show _ = some [(1, 1 / 602), (2, 1 / 601), (3, 1 / 600)] by decide!)
  obtain ⟨d1, d2, d3⟩ := afterAdd_z _ 4 DocumentStatus.ACTUAL [0] c1
    (by decide) (by rw [c2']; decide)
  rw [c2'] at d2
  rw [c3'] at d3
  exact ⟨d1, d2.trans (by decide!), d3⟩

namespace SearchServer

theorem ParseQuery_loop_congr (s s' : SearchServer) (h : s.stop_words_ = s'.stop_words_) :
    ∀ (tokens : List Str) (q : Query), ParseQuery.loop s tokens q = ParseQuery.loop s' tokens q := by
  intro tokens
  induction tokens with
  | nil => intro q; rfl
  | cons t rest ih =>
    intro q
    simp only [ParseQuery.loop, ParseQueryWord, IsStopWord, h, ih]

/-- The parser depends on the server through its stop words only. -/
theorem ParseQuery_congr (s s' : SearchServer) (h : s.stop_words_ = s'.stop_words_)
    (raw_query : Str) : s.ParseQuery raw_query = s'.ParseQuery raw_query := by
  simp only [ParseQuery, ParseQuery_loop_congr s s' h]

end SearchServer

end Search

namespace Search

open SearchServer

theorem tieCycleServer_ParseQuery :
    tieCycleServer.ParseQuery "x".toList = .ok { plus_words := [['x']], minus_words := [] } := by
  have h : tieCycleServer.stop_words_ = newServer.stop_words_ := tieCycleServer_facts.1
  rw [ParseQuery_congr tieCycleServer newServer h]
  decide

/-- The sequential `FindAllDocuments` for a query of one plus word whose
inverted entry has the documents 1, 2, 3, all ACTUAL. -/
theorem FindAllDocuments_three {K : Type} [LinearOrderedField K] (log : ℚ → K)
    (s : SearchServer) (w : Str) (a1 a2 a3 : ℚ) (r1 r2 r3 : Int)
    (hx : OrdMap.find? s.word_to_document_freqs_ w = some [(1, a1), (2, a2), (3, a3)])
    (hd1 : OrdMap.find? s.documents_ 1 = some ⟨r1, DocumentStatus.ACTUAL⟩)
    (hd2 : OrdMap.find? s.documents_ 2 = some ⟨r2, DocumentStatus.ACTUAL⟩)
    (hd3 : OrdMap.find? s.documents_ 3 = some ⟨r3, DocumentStatus.ACTUAL⟩) :
    FindAllDocuments log s { plus_words := [w], minus_words := [] } isActual =
      .ok [⟨1, 0 + (a1 : K) * log ((s.GetDocumentCount : ℚ) * 1 / ((3 : ℕ) : ℚ)), r1⟩,
        ⟨2, 0 + (a2 : K) * log ((s.GetDocumentCount : ℚ) * 1 / ((3 : ℕ) : ℚ)), r2⟩,
        ⟨3, 0 + (a3 : K) * log ((s.GetDocumentCount : ℚ) * 1 / ((3 : ℕ) : ℚ)), r3⟩] := by
  simp only [FindAllDocuments, FindAllDocuments.plusLoop, hx, ComputeWordInverseDocumentFreq,
    FindAllDocuments.addWord, hd1, hd2, hd3, isActual, statusIs, decide_True, if_true,
    FindAllDocuments.minusLoop, List.length_cons, List.length_nil]
  have e : OrdMap.modify (OrdMap.modify (OrdMap.modify ([] : OrdMap Int K) 1 0
        (fun x => x + (a1 : K) * log ((s.GetDocumentCount : ℚ) * 1 / ((0 + 1 + 1 + 1 : ℕ) : ℚ))))
        2 0 (fun x => x + (a2 : K) * log ((s.GetDocumentCount : ℚ) * 1 / ((0 + 1 + 1 + 1 : ℕ) : ℚ))))
        3 0 (fun x => x + (a3 : K) * log ((s.GetDocumentCount : ℚ) * 1 / ((0 + 1 + 1 + 1 : ℕ) : ℚ)))
      = [(1, 0 + (a1 : K) * log ((s.GetDocumentCount : ℚ) * 1 / ((3 : ℕ) : ℚ))),
        (2, 0 + (a2 : K) * log ((s.GetDocumentCount : ℚ) * 1 / ((3 : ℕ) : ℚ))),
        (3, 0 + (a3 : K) * log ((s.GetDocumentCount : ℚ) * 1 / ((3 : ℕ) : ℚ)))] := by
    rfl
  rw [e]
  simp only [FindAllDocuments.collect, hd1, hd2, hd3]

end Search

namespace Search

open SearchServer

/-- Three documents whose relevances are `L/602`, `L/601`, `L/600` with
`1/4 ≤ L ≤ 1/3` and whose ratings are 3, 2, 1 cannot be put in the order of the
ranking contract: 1 must come before 2 and 2 before 3 (near ties, higher rating
first), but 3 must come before 1 (relevance higher by more than 1e-6). -/
theorem tie_cycle_unsortable (L : ℝ) (h1 : 1 / 4 ≤ L) (h2 : L ≤ 1 / 3) (A B C : Document ℝ)
    (hA : A = ⟨1, 0 + ((1 / 602 : ℚ) : ℝ) * L, 3⟩)
    (hB : B = ⟨2, 0 + ((1 / 601 : ℚ) : ℝ) * L, 2⟩)
    (hC : C = ⟨3, 0 + ((1 / 600 : ℚ) : ℝ) * L, 1⟩) :
    ∀ l : List (Document ℝ), l.Perm [A, B, C] → ¬ l.Pairwise rankedBefore := by
  have hBA : ¬ rankedBefore B A := by
    subst hA hB
    unfold rankedBefore nearTie
    push_cast
    rintro (h | ⟨_, h⟩)
    · norm_num at h
      linarith
    · norm_num at h
  have hCB : ¬ rankedBefore C B := by
    subst hB hC
    unfold rankedBefore nearTie
    push_cast
    rintro (h | ⟨_, h⟩)
    · norm_num at h
      linarith
    · norm_num at h
  have hAC : ¬ rankedBefore A C := by
    subst hA hC
    unfold rankedBefore nearTie
    push_cast
    rintro (h | ⟨h, _⟩)
    · norm_num at h
      linarith
    · rw [abs_lt] at h
      norm_num at h
      linarith [h.1]
  have hAB_ne : A ≠ B := by
    subst hA hB
    intro h
    have := congrArg Document.id h
    norm_num at this
  have hAC_ne : A ≠ C := by
    subst hA hC
    intro h
    have := congrArg Document.id h
    norm_num at this
  have hBC_ne : B ≠ C := by
    subst hB hC
    intro h
    have := congrArg Document.id h
    norm_num at this
  intro l hperm hsorted
  cases l with
  | nil =>
    have := hperm.length_eq
    simp at this
  | cons p t =>
    have hp : p ∈ [A, B, C] := hperm.subset (List.mem_cons_self _ _)
    have hhead := (List.pairwise_cons.1 hsorted).1
    have memA : A ∈ p :: t := hperm.symm.subset (by simp)
    have memB : B ∈ p :: t := hperm.symm.subset (by simp)
    have memC : C ∈ p :: t := hperm.symm.subset (by simp)
    simp only [List.mem_cons, List.mem_singleton, List.not_mem_nil, or_false] at hp
    rcases hp with rfl | rfl | rfl
    · rcases List.mem_cons.1 memC with h | h
      · exact hAC_ne h.symm
      · exact hAC (hhead C h)
    · rcases List.mem_cons.1 memA with h | h
      · exact hAB_ne h
      · exact hBA (hhead A h)
    · rcases List.mem_cons.1 memB with h | h
      · exact hBC_ne h
      · exact hCB (hhead B h)

theorem FindTopDocuments_of_matched {K : Type} [LinearOrderedField K] (log : ℚ → K)
    (s : SearchServer) (raw_query : Str) (query : Query) (key_mapper : KeyMapper)
    (matched : List (Document K)) (hq : s.ParseQuery raw_query = .ok query)
    (hm : FindAllDocuments log s query key_mapper = .ok matched) :
    s.FindTopDocuments log raw_query key_mapper = .ok (sortAndTruncate matched) := by
  unfold FindTopDocuments
  rw [hq]
  simp only [hm]

/-- Claim C2, as stated, fails. On the corpus with a cycle of near ties, with the
real logarithm, the sequential `FindTopDocuments` returns for the query "x" a
list that is not in the order of the ranking contract, and no arrangement of
the returned documents is. -/
theorem C2_counterexample :
    ∃ result, tieCycleServer.FindTopDocuments (fun q : ℚ => Real.log (q : ℝ)) "x".toList
        isActual = .ok result ∧
      ¬ result.Pairwise rankedBefore ∧
      ∀ l : List (Document ℝ), l.Perm result → ¬ l.Pairwise rankedBefore := by
  obtain ⟨_, hdocs, hx⟩ := tieCycleServer_facts
  have hd1 : OrdMap.find? tieCycleServer.documents_ 1 = some ⟨3, DocumentStatus.ACTUAL⟩ := by
    rw [hdocs]
    decide
  have hd2 : OrdMap.find? tieCycleServer.documents_ 2 = some ⟨2, DocumentStatus.ACTUAL⟩ := by
    rw [hdocs]
    decide
  have hd3 : OrdMap.find? tieCycleServer.documents_ 3 = some ⟨1, DocumentStatus.ACTUAL⟩ := by
    rw [hdocs]
    decide
  have hN : tieCycleServer.GetDocumentCount = 4 := by
    unfold GetDocumentCount
    rw [hdocs]
    rfl
  have hall := FindAllDocuments_three (fun q : ℚ => Real.log (q : ℝ)) tieCycleServer ['x']
    (1 / 602) (1 / 601) (1 / 600) 3 2 1 hx hd1 hd2 hd3
  rw [hN] at hall
  have hL : Real.log ((((4 : ℕ) : ℚ) * 1 / ((3 : ℕ) : ℚ) : ℚ) : ℝ) = Real.log (4 / 3) := by
    push_cast
    norm_num
  have hlow : (1 : ℝ) / 4 ≤ Real.log (4 / 3) := by
    have := Real.one_sub_inv_le_log_of_pos (show (0 : ℝ) < 4 / 3 by norm_num)
    norm_num at this ⊢
    linarith
  have hhigh : Real.log (4 / 3) ≤ (1 : ℝ) / 3 := by
    have := Real.log_le_sub_one_of_pos (show (0 : ℝ) < 4 / 3 by norm_num)
    norm_num at this ⊢
    linarith
  simp only [hL] at hall
  have hcycle := tie_cycle_unsortable (Real.log (4 / 3)) hlow hhigh _ _ _ rfl rfl rfl
  refine ⟨sortAndTruncate [⟨1, 0 + ((1 / 602 : ℚ) : ℝ) * Real.log (4 / 3), 3⟩,
    ⟨2, 0 + ((1 / 601 : ℚ) : ℝ) * Real.log (4 / 3), 2⟩,
    ⟨3, 0 + ((1 / 600 : ℚ) : ℝ) * Real.log (4 / 3), 1⟩], ?_, ?_, ?_⟩
  · exact FindTopDocuments_of_matched _ _ _ _ _ _ tieCycleServer_ParseQuery hall
  · exact hcycle _ (sortAndTruncate_perm _ (by simp))
  · intro l hl
    exact hcycle l (hl.trans (sortAndTruncate_perm _ (by simp)))

end Search

namespace Search

/-! # The tokens are the non-empty pieces between spaces -/

theorem modifyHead_self {α : Type} (l : List α) : List.modifyHead (fun x => x) l = l := by
  cases l <;> rfl

theorem SplitIntoWords_loop_eq_splitOn :
    ∀ (rest word : Str) (words : List Str),
      (if (SplitIntoWords.loop rest word words).2 ≠ [] then
          (SplitIntoWords.loop rest word words).1 ++ [(SplitIntoWords.loop rest word words).2]
        else (SplitIntoWords.loop rest word words).1) =
        words ++ (((rest.splitOn ' ').modifyHead (word ++ ·)).filter (fun w => decide (w ≠ []))) := by
  intro rest
  induction rest with
  | nil =>
    intro word words
    by_cases hw : word = []
    · simp [SplitIntoWords.loop, hw, List.modifyHead]
    · simp [SplitIntoWords.loop, hw, List.modifyHead]
  | cons c rest ih =>
    intro word words
    unfold List.splitOn at ih ⊢
    rw [List.splitOnP_cons]
    by_cases hc : c = ' '
    · subst hc
      simp only [SplitIntoWords.loop, if_true, beq_self_eq_true, List.modifyHead,
        List.append_nil]
      by_cases hw : word = []
      · subst hw
        have := ih [] words
        simp only [ne_eq, not_true_eq_false, if_false] at this ⊢
        rw [this]
        simp [modifyHead_self]
      · have := ih [] (words ++ [word])
        simp only [hw, ne_eq, not_false_eq_true, if_true] at this ⊢
        rw [this]
        have hid : (fun x : List Char => [] ++ x) = id := by
          funext x
          simp
        simp [hw, List.filter_cons, modifyHead_self]
    · have hb : (c == ' ') = false := by simpa using hc
      simp only [SplitIntoWords.loop, hc, if_false, hb, Bool.false_eq_true]
      rw [ih (word ++ [c]) words, List.modifyHead_modifyHead]
      congr 3
      funext x
      simp

/-- The words returned by `SplitIntoWords` are the non-empty pieces of the
text between its spaces. -/
theorem SplitIntoWords_eq_splitOn (text : Str) :
    SplitIntoWords text = (text.splitOn ' ').filter (fun w => decide (w ≠ [])) := by
  have h := SplitIntoWords_loop_eq_splitOn text [] []
  unfold SplitIntoWords
  simp only [List.nil_append] at h
  rw [h]
  congr 1
  have hid : (fun x : List Char => [] ++ x) = id := by
    funext x
    simp
  simp [modifyHead_self]

/-- The words returned by `SplitIntoWordsView` are the non-empty pieces of the
text between its spaces. -/
theorem SplitIntoWordsView_eq_splitOn (text : Str) :
    SplitIntoWordsView text = (text.splitOn ' ').filter (fun w => decide (w ≠ [])) := by
  rw [SplitIntoWordsView_eq_SplitIntoWords, SplitIntoWords_eq_splitOn]

end Search

namespace Search

open SearchServer

/-! # `MatchDocument` -/

/-- The parser without validation returns a query for every string. -/
theorem ParseQueryPar_ok (s : SearchServer) (raw_query : Str) :
    ∃ q, s.ParseQueryPar raw_query = .ok q :=
  ParseQuery_loop_ok s _ _ (fun w hw => (SplitIntoWordsView_spec raw_query w hw).1)

/-- The parallel `MatchDocument` ends in `documents_.at(document_id)` on each of
its paths: it throws `out_of_range` when the id has no metadata and returns
the status of the document otherwise, whatever the query is. -/
theorem MatchDocumentPar_outcome (s : SearchServer) (raw_query : Str) (document_id : Int) :
    (OrdMap.find? s.documents_ document_id = none ∧
      s.MatchDocumentPar raw_query document_id = .error .out_of_range) ∨
    (∃ data words, OrdMap.find? s.documents_ document_id = some data ∧
      s.MatchDocumentPar raw_query document_id = .ok (words, data.status)) := by
  obtain ⟨q, hq⟩ := ParseQueryPar_ok s raw_query
  unfold MatchDocumentPar
  rw [hq]
  cases hd : OrdMap.find? s.documents_ document_id with
  | none => left; simp
  | some data =>
    right
    refine ⟨data, ?_⟩
    simp only [exists_and_left, true_and]
    split_ifs <;> exact ⟨_, rfl⟩

/-- The sequential `MatchDocument` on a query the validating parser accepts. -/
theorem MatchDocument_of_ParseQuery (s : SearchServer) (raw_query : Str) (q : Query)
    (document_id : Int) (hq : s.ParseQuery raw_query = .ok q) :
    s.MatchDocument raw_query document_id = MatchDocument.body s q document_id := by
  unfold MatchDocument
  rw [hq]

/-- Claim C11. For every state of the index and every query the validating
parser accepts, `MatchDocument` throws `out_of_range` exactly when the id has
no metadata (is no live document), in the sequential and in the parallel
variant, and for a live id both variants return a result. -/
theorem C11_MatchDocument_out_of_range_iff (s : SearchServer) (raw_query : Str) (q : Query)
    (document_id : Int) (hq : s.ParseQuery raw_query = .ok q) :
    (s.MatchDocument raw_query document_id = .error .out_of_range ↔
        OrdMap.contains s.documents_ document_id = false) ∧
    (s.MatchDocumentPar raw_query document_id = .error .out_of_range ↔
        OrdMap.contains s.documents_ document_id = false) ∧
    (OrdMap.contains s.documents_ document_id = true →
      (∃ r, s.MatchDocument raw_query document_id = .ok r) ∧
      (∃ r, s.MatchDocumentPar raw_query document_id = .ok r)) := by
  rw [MatchDocument_of_ParseQuery s raw_query q document_id hq]
  rcases MatchDocumentPar_outcome s raw_query document_id with ⟨hd, hp⟩ | ⟨data, words, hd, hp⟩
  · have hc : OrdMap.contains s.documents_ document_id = false := by simp [OrdMap.contains, hd]
    have hb : MatchDocument.body s q document_id = .error .out_of_range := by
      simp only [MatchDocument.body, hd]
    rw [hp, hb, hc]
    exact ⟨⟨fun _ => rfl, fun _ => rfl⟩, ⟨fun _ => rfl, fun _ => rfl⟩, fun h => by cases h⟩
  · have hc : OrdMap.contains s.documents_ document_id = true := by simp [OrdMap.contains, hd]
    have hb : ∃ r, MatchDocument.body s q document_id = .ok r := by
      simp only [MatchDocument.body, hd]
      exact ⟨_, rfl⟩
    obtain ⟨r, hr⟩ := hb
    rw [hp, hr, hc]
    exact ⟨⟨fun h => (by cases h), fun h => (by cases h)⟩,
      ⟨fun h => (by cases h), fun h => (by cases h)⟩, fun _ => ⟨⟨_, rfl⟩, ⟨_, rfl⟩⟩⟩

/-- Witness of C11: the query "a -c" on the two-document corpus, for the live
document 2 and for the unknown id 7. -/
theorem C11_witness :
    (scenarioServer.MatchDocument "a -c".toList 7 = .error .out_of_range ↔
        OrdMap.contains scenarioServer.documents_ 7 = false) ∧
    (scenarioServer.MatchDocumentPar "a -c".toList 7 = .error .out_of_range ↔
        OrdMap.contains scenarioServer.documents_ 7 = false) ∧
    (OrdMap.contains scenarioServer.documents_ 7 = true →
      (∃ r, scenarioServer.MatchDocument "a -c".toList 7 = .ok r) ∧
      (∃ r, scenarioServer.MatchDocumentPar "a -c".toList 7 = .ok r)) :=
  C11_MatchDocument_out_of_range_iff scenarioServer "a -c".toList
    { plus_words := ["a".toList], minus_words := ["c".toList] } 7 (by decide!)

end Search

namespace Search

open SearchServer

/-- The two outcomes of the validating parser on a non-empty query. -/
theorem ParseQuery_outcome (s : SearchServer) (raw_query : Str) (h : raw_query ≠ []) :
    (((∃ c ∈ raw_query, c.toNat ≤ 31) ∨ ['-', '-'] <:+: raw_query ∨
        ['-', ' '] <:+: raw_query ∨ raw_query.getLast? = some '-') ∧
      s.ParseQuery raw_query = .error .invalid_argument) ∨
    (¬ ((∃ c ∈ raw_query, c.toNat ≤ 31) ∨ ['-', '-'] <:+: raw_query ∨
        ['-', ' '] <:+: raw_query ∨ raw_query.getLast? = some '-') ∧
      ∃ q, s.ParseQuery raw_query = .ok q) := by
  by_cases hc : (∃ c ∈ raw_query, c.toNat ≤ 31) ∨ ['-', '-'] <:+: raw_query ∨
      ['-', ' '] <:+: raw_query ∨ raw_query.getLast? = some '-'
  · exact Or.inl ⟨hc, ParseQuery_error_of s raw_query hc⟩
  · refine Or.inr ⟨hc, ?_⟩
    push_neg at hc
    obtain ⟨h1, h2, h3, h4⟩ := hc
    rw [ParseQuery_eq_loop s raw_query h (by push_neg; exact h1) h2 h3 h4]
    exact ParseQuery_loop_ok s _ _ (fun w hw => (SplitIntoWordsView_spec raw_query w hw).1)

/-- Claim C12, refuted as stated: document 1 of the two-document corpus is
live, and the sequential `MatchDocument` throws `invalid_argument` on each of
the queries "--bad", "word -" and "word - other", because it parses with the
validating `ParseQuery`. -/
theorem C12_counterexample :
    OrdMap.contains scenarioServer.documents_ 1 = true ∧
    scenarioServer.MatchDocument "--bad".toList 1 = .error .invalid_argument ∧
    scenarioServer.MatchDocument "word -".toList 1 = .error .invalid_argument ∧
    scenarioServer.MatchDocument "word - other".toList 1 = .error .invalid_argument := by
  decide!

/-- Claim C12, amended. Only the parallel `MatchDocument` parses its query
without validation: for every state, every live id and every query string it
returns a result.  The sequential `MatchDocument` validates: on a non-empty
query it throws `invalid_argument` exactly when the query has a character with
code 0..31, contains "--", contains "- " or ends with '-', and returns a
result on every other non-empty query. -/
theorem C12_MatchDocument_parsing (s : SearchServer) (raw_query : Str) (document_id : Int)
    (hlive : OrdMap.contains s.documents_ document_id = true) :
    (∃ r, s.MatchDocumentPar raw_query document_id = .ok r) ∧
    (raw_query ≠ [] →
      (s.MatchDocument raw_query document_id = .error .invalid_argument ↔
        ((∃ c ∈ raw_query, c.toNat ≤ 31) ∨ ['-', '-'] <:+: raw_query ∨
          ['-', ' '] <:+: raw_query ∨ raw_query.getLast? = some '-')) ∧
      (¬ ((∃ c ∈ raw_query, c.toNat ≤ 31) ∨ ['-', '-'] <:+: raw_query ∨
          ['-', ' '] <:+: raw_query ∨ raw_query.getLast? = some '-') →
        ∃ r, s.MatchDocument raw_query document_id = .ok r)) := by
  have hd : ∃ data, OrdMap.find? s.documents_ document_id = some data := by
    cases hf : OrdMap.find? s.documents_ document_id with
    | none => simp [OrdMap.contains, hf] at hlive
    | some data => exact ⟨data, rfl⟩
  obtain ⟨data, hd⟩ := hd
  refine ⟨?_, fun hne => ?_⟩
  · rcases MatchDocumentPar_outcome s raw_query document_id with ⟨hn, _⟩ | ⟨_, words, _, hp⟩
    · rw [hd] at hn
      cases hn
    · exact ⟨_, hp⟩
  · rcases ParseQuery_outcome s raw_query hne with ⟨hc, herr⟩ | ⟨hc, q, hq⟩
    · have hm : s.MatchDocument raw_query document_id = .error .invalid_argument := by
        unfold MatchDocument
        rw [herr]
      exact ⟨⟨fun _ => hc, fun _ => hm⟩, fun hn => absurd hc hn⟩
    · have hm : ∃ r, s.MatchDocument raw_query document_id = .ok r := by
        rw [MatchDocument_of_ParseQuery s raw_query q document_id hq]
        simp only [MatchDocument.body, hd]
        exact ⟨_, rfl⟩
      refine ⟨⟨fun herr => ?_, fun h => absurd h hc⟩, fun _ => hm⟩
      obtain ⟨r, hr⟩ := hm
      rw [hr] at herr
      cases herr

/-- Witness of C12: the parallel variant on "--bad" and on "word - other" for
the live document 1 of the two-document corpus. -/
theorem C12_witness :
    OrdMap.contains scenarioServer.documents_ 1 = true ∧
    scenarioServer.MatchDocumentPar "--bad".toList 1 =
      .ok ([], DocumentStatus.ACTUAL) ∧
    (∃ r, scenarioServer.MatchDocumentPar "word - other".toList 1 = .ok r) ∧
    (∃ r, scenarioServer.MatchDocument "a -d".toList 1 = .ok r) :=
  ⟨by decide!, by decide!,
    (C12_MatchDocument_parsing scenarioServer "word - other".toList 1 (by decide!)).1,
    ((C12_MatchDocument_parsing scenarioServer "a -d".toList 1 (by decide!)).2 (by decide)).2
      (by decide)⟩

end Search

namespace Search

open SearchServer

/-! # The two variants of `MatchDocument` in a sequentially reached state -/

theorem ReachableSeq_reachable (s : SearchServer) (h : ReachableSeq s) : Reachable s := by
  induction h with
  | construct stop_words s hc => exact Reachable.construct stop_words s hc
  | add s document_id document status ratings _ ih =>
    exact Reachable.add s document_id document status ratings ih
  | remove s document_id _ ih => exact Reachable.remove s document_id ih
  | removeSeq s document_id _ ih => exact Reachable.removeSeq s document_id ih

/-- Without the parallel `RemoveDocument`, a word of a forward entry has the
document in its inverted entry. -/
theorem ReachableSeq_forward_inverted (s : SearchServer) (h : ReachableSeq s) :
    ∀ id w, forwardHas s.document_to_word_freqs_ id w = true →
      invertedHas s.word_to_document_freqs_ w id = true := by
  have step_remove : ∀ (s : SearchServer) (document_id : Int), ReachableSeq s →
      (∀ id w, forwardHas s.document_to_word_freqs_ id w = true →
        invertedHas s.word_to_document_freqs_ w id = true) →
      ∀ id w, forwardHas (s.RemoveDocument document_id).2.document_to_word_freqs_ id w = true →
        invertedHas (s.RemoveDocument document_id).2.word_to_document_freqs_ w id = true := by
    intro s document_id hs ih id w hid
    have hc : Consistent s := Reachable_consistent s (ReachableSeq_reachable s hs)
    rcases RemoveDocument_state s hc document_id with ⟨_, he⟩ | ⟨wf, hf, _, hok⟩
    · rw [he] at hid ⊢
      exact ih id w hid
    · rw [hok] at hid ⊢
      have hwords : ∀ w ∈ OrdMap.keys wf, OrdMap.contains s.word_to_document_freqs_ w = true :=
        fun w hw => hc.forward_word document_id w ((forwardHas_of_find? hf w).2 hw)
      obtain ⟨_, h2, _⟩ := RemoveDocument_loop_spec document_id wf s.word_to_document_freqs_ hwords
      simp only [forwardHas_erase, Bool.and_eq_true, Bool.not_eq_true', decide_eq_false_iff_not]
        at hid
      simp only [h2 w id, Bool.and_eq_true, Bool.not_eq_true', Bool.and_eq_false_iff,
        decide_eq_false_iff_not]
      exact ⟨ih id w hid.2, Or.inr hid.1⟩
  induction h with
  | construct stop_words s hc =>
    obtain ⟨_, _, _, h4, _⟩ := construct_state stop_words s hc
    intro id w hid
    simp [h4, forwardHas, OrdMap.find?] at hid
  | add s document_id document status ratings _ ih =>
    intro id w hid
    cases hres : (s.AddDocument document_id document status ratings).1 with
    | error e =>
      have := (AddDocument_error_state s document_id document status ratings e hres)
      rw [this] at hid ⊢
      exact ih id w hid
    | ok u =>
      obtain ⟨_, hst⟩ := AddDocument_ok_state s document_id document status ratings hres
      rw [hst] at hid ⊢
      obtain ⟨h1, h2, _⟩ := indexes_foldl_step document_id
        (1 / ((indexedWords s document).length : ℚ)) (indexedWords s document) s w id
      simp only at hid ⊢
      rw [h2] at hid
      rw [h1]
      rw [Bool.or_eq_true] at hid ⊢
      rcases hid with hid | hid
      · exact Or.inl (ih id w hid)
      · exact Or.inr hid
  | remove s document_id hs ih => exact step_remove s document_id hs ih
  | removeSeq s document_id hs ih => exact step_remove s document_id hs ih

/-- In a sequentially reached state the inverted and the forward index hold
the same (word, document) pairs. -/
theorem ReachableSeq_indexedUnder (s : SearchServer) (h : ReachableSeq s) (w : Str) (id : Int) :
    s.indexedUnder w id = forwardHas s.document_to_word_freqs_ id w := by
  have hc : Consistent s := Reachable_consistent s (ReachableSeq_reachable s h)
  rw [indexedUnder_eq, Bool.eq_iff_iff]
  exact ⟨hc.inverted_forward w id, ReachableSeq_forward_inverted s h id w⟩

/-- The order of `std::sort` on strings puts the list in ascending order. -/
theorem sort_strings_pairwise (l : List Str) :
    (sort (fun (a b : Str) => decide (a < b)) l).Pairwise (fun a b => a ≤ b) := by
  have h := sort_pairwise (fun (a b : Str) => decide (a < b)) l
    (fun a b hab => by
      simp only [decide_eq_true_eq, decide_eq_false_iff_not] at hab ⊢
      exact lt_asymm hab)
    (fun a _ b _ c _ hba hcb => by
      simp only [decide_eq_false_iff_not, not_lt] at hba hcb ⊢
      exact le_trans hba hcb)
  refine h.imp ?_
  intro a b hab
  simpa only [decide_eq_false_iff_not, not_lt] using hab

theorem nil_lt_iff (w : Str) : ([] : Str) < w ↔ w ≠ [] := by
  cases w with
  | nil => simp
  | cons c rest => exact ⟨fun _ => by simp, fun _ => List.Lex.nil⟩

/-- What `erase(begin, upper_bound(begin, end, ""))` keeps of an ascending
vector: the strings that are not empty. -/
theorem mem_dropWhile_empty (w : Str) :
    ∀ (l : List Str), l.Pairwise (fun a b => a ≤ b) →
      (w ∈ l.dropWhile (fun word => !decide (([] : Str) < word)) ↔ w ∈ l ∧ w ≠ []) := by
  intro l
  induction l with
  | nil => simp
  | cons x xs ih =>
    intro hp
    rw [List.pairwise_cons] at hp
    by_cases hx : x = []
    · subst hx
      rw [List.dropWhile_cons_of_pos (by simp), ih hp.2]
      constructor
      · rintro ⟨h1, h2⟩
        exact ⟨List.mem_cons_of_mem _ h1, h2⟩
      · rintro ⟨h1, h2⟩
        rcases List.mem_cons.1 h1 with h | h
        · exact absurd h h2
        · exact ⟨h, h2⟩
    · have hlt : ([] : Str) < x := (nil_lt_iff x).2 hx
      rw [List.dropWhile_cons_of_neg (by simpa using hlt)]
      refine ⟨fun h => ⟨h, ?_⟩, fun h => h.1⟩
      rcases List.mem_cons.1 h with h | h
      · rw [h]
        exact hx
      · exact (nil_lt_iff w).1 (lt_of_lt_of_le hlt (hp.1 w h))

end Search

namespace Search

open SearchServer

/-- The words the parallel `MatchDocument` keeps of the padded, sorted vector
are the copied words that are not empty. -/
theorem mem_kept_words (copied : List Str) (n : Nat) (w : Str) :
    w ∈ (sort (fun (a b : Str) => decide (a < b)) (copied ++ List.replicate n [])).dropWhile
        (fun word => !decide (([] : Str) < word)) ↔ w ∈ copied ∧ w ≠ [] := by
  rw [mem_dropWhile_empty w _ (sort_strings_pairwise _), (sort_perm _ _).mem_iff,
    List.mem_append, List.mem_replicate]
  constructor
  · rintro ⟨h | h, hne⟩
    · exact ⟨h, hne⟩
    · exact absurd h.2 hne
  · rintro ⟨h, hne⟩
    exact ⟨Or.inl h, hne⟩

/-- Claim C13. In every state reached from a new server by `AddDocument` and
the sequential `RemoveDocument`, for every live id and every query the
validating parser accepts, the parallel and the sequential `MatchDocument`
both return, with the same status and the same set of matched words. -/
theorem C13_MatchDocument_variants_agree (s : SearchServer) (hs : ReachableSeq s)
    (raw_query : Str) (q : Query) (document_id : Int)
    (hq : s.ParseQuery raw_query = .ok q)
    (hlive : OrdMap.contains s.documents_ document_id = true) :
    ∃ seq_words par_words status,
      s.MatchDocument raw_query document_id = .ok (seq_words, status) ∧
      s.MatchDocumentPar raw_query document_id = .ok (par_words, status) ∧
      ∀ w, w ∈ seq_words ↔ w ∈ par_words := by
  have hd : ∃ data, OrdMap.find? s.documents_ document_id = some data := by
    cases hf : OrdMap.find? s.documents_ document_id with
    | none => simp [OrdMap.contains, hf] at hlive
    | some data => exact ⟨data, rfl⟩
  obtain ⟨data, hd⟩ := hd
  obtain ⟨_, hloop⟩ := ParseQuery_ok s raw_query q hq
  have hpar : s.ParseQueryPar raw_query = .ok q := hloop
  have hplus : ∀ w ∈ q.plus_words, w ≠ [] := by
    intro w hw
    obtain ⟨_, h2, _, _⟩ := ParseQuery_loop_spec s _ _ q hloop
    rcases (h2 w).1 hw with h | ⟨h, _, _⟩
    · simp at h
    · exact (SplitIntoWordsView_spec raw_query w h).1
  rw [MatchDocument_of_ParseQuery s raw_query q document_id hq]
  unfold MatchDocumentPar MatchDocument.body
  rw [hpar]
  simp only [hd]
  have hsame : (fun word => s.indexedUnder word document_id) =
      (fun word => forwardHas s.document_to_word_freqs_ document_id word) :=
    funext (fun w => ReachableSeq_indexedUnder s hs w document_id)
  rw [hsame]
  cases hf : OrdMap.find? s.document_to_word_freqs_ document_id with
  | none =>
    have hfalse : (fun word => forwardHas s.document_to_word_freqs_ document_id word) =
        (fun _ => false) := by
      funext w
      simp [forwardHas, hf]
    rw [hfalse]
    refine ⟨[], [], data.status, ?_, ?_, fun w => Iff.rfl⟩
    · simp
    · simp [OrdMap.contains, hf]
  | some wf =>
    have hfw : (fun word => forwardHas s.document_to_word_freqs_ document_id word) =
        (fun word => OrdMap.contains wf word) := by
      funext w
      simp [forwardHas, hf]
    rw [hfw]
    have hcont : OrdMap.contains s.document_to_word_freqs_ document_id = true := by
      simp [OrdMap.contains, hf]
    simp only [hcont, if_true, Option.getD_some]
    by_cases hminus : q.minus_words.any (fun word => OrdMap.contains wf word) = true
    · refine ⟨[], [], data.status, ?_, ?_, fun w => Iff.rfl⟩
      · simp [hminus]
      · simp [hminus]
    · have hm : q.minus_words.any (fun word => OrdMap.contains wf word) = false := by
        simpa using hminus
      simp only [hm, Bool.not_false, if_true, Bool.false_eq_true, if_false]
      refine ⟨_, _, data.status, rfl, rfl, ?_⟩
      intro w
      rw [mem_kept_words]
      constructor
      · intro h
        exact ⟨h, hplus w (List.mem_filter.1 h).1⟩
      · exact fun h => h.1

/-- Witness of C13: the query "c b -d" on document 1 of the two-document
corpus; both variants return the words "b" and "c". -/
theorem C13_witness :
    ∃ seq_words par_words status,
      scenarioServer.MatchDocument "c b -d".toList 1 = .ok (seq_words, status) ∧
      scenarioServer.MatchDocumentPar "c b -d".toList 1 = .ok (par_words, status) ∧
      ∀ w, w ∈ seq_words ↔ w ∈ par_words :=
  C13_MatchDocument_variants_agree scenarioServer
    (ReachableSeq.add _ 2 "a b".toList DocumentStatus.ACTUAL [4]
      (ReachableSeq.add _ 1 "a b c".toList DocumentStatus.ACTUAL [1, 2, 3]
        (ReachableSeq.construct [] newServer (by decide))))
    "c b -d".toList { plus_words := ["c".toList, "b".toList], minus_words := ["d".toList] } 1
    (by decide!) (by decide!)

end Search

namespace Search

open SearchServer

/-! # `RemoveDocument` -/

/-- Claim C14, the defect. `AddDocument(1, "", ACTUAL, {})` is accepted by a new
server, document 1 is then live and has no forward entry, and the three
variants of `RemoveDocument(1)` each throw `out_of_range` from
`document_to_word_freqs_.at(1)` and leave document 1 in the index. -/
theorem C14_RemoveDocument_throws_on_wordless_document :
    (newServer.AddDocument 1 [] DocumentStatus.ACTUAL []).1 = .ok () ∧
    OrdMap.contains emptyTextServer.documents_ 1 = true ∧
    emptyTextServer.ids = [1] ∧
    emptyTextServer.RemoveDocument 1 = (.error .out_of_range, emptyTextServer) ∧
    emptyTextServer.RemoveDocumentSeq 1 = (.error .out_of_range, emptyTextServer) ∧
    emptyTextServer.RemoveDocumentPar 1 = (.error .out_of_range, emptyTextServer) := by
  decide!

/-- Claim C15, the defect. The id 7 is unknown to the two-document corpus; the
plain and the sequential `RemoveDocument(7)` throw `out_of_range` from
`document_to_word_freqs_.at(7)`, where the parallel variant returns at its
guard `documents_.count(7) == 0`.  None of the three changes the state. -/
theorem C15_RemoveDocument_throws_on_unknown_id :
    OrdMap.contains scenarioServer.documents_ 7 = false ∧
    scenarioServer.RemoveDocument 7 = (.error .out_of_range, scenarioServer) ∧
    scenarioServer.RemoveDocumentSeq 7 = (.error .out_of_range, scenarioServer) ∧
    scenarioServer.RemoveDocumentPar 7 = (.ok (), scenarioServer) := by
  decide!

/-- Claim C16, the defect. Document 1 of the two-document corpus is live and has
the words "a", "b", "c".  Both variants of `RemoveDocument(1)` return and
leave one document, the id 2; after the sequential variant
`GetWordFrequencies(1)` is empty, after the parallel variant it still is the
forward entry of the removed document, which that variant does not erase. -/
theorem C16_parallel_RemoveDocument_keeps_forward_entry :
    OrdMap.contains scenarioServer.documents_ 1 = true ∧
    (scenarioServer.RemoveDocumentSeq 1).1 = .ok () ∧
    (scenarioServer.RemoveDocumentPar 1).1 = .ok () ∧
    (scenarioServer.RemoveDocumentSeq 1).2.GetDocumentCount = 1 ∧
    (scenarioServer.RemoveDocumentPar 1).2.GetDocumentCount = 1 ∧
    (scenarioServer.RemoveDocumentSeq 1).2.ids = [2] ∧
    (scenarioServer.RemoveDocumentPar 1).2.ids = [2] ∧
    (scenarioServer.RemoveDocumentSeq 1).2.GetWordFrequencies 1 = [] ∧
    (scenarioServer.RemoveDocumentPar 1).2.GetWordFrequencies 1 =
      [("a".toList, 1 / 3), ("b".toList, 1 / 3), ("c".toList, 1 / 3)] := by
  decide!

end Search

namespace Search

namespace OrdMap

variable {κ V : Type} [DecidableEq κ] [LT κ] [DecidableRel (LT.lt : κ → κ → Prop)]

theorem erase_insertNew (m : OrdMap κ V) (k : κ) (v : V) :
    erase (insertNew k v m) k = erase m k := by
  induction m with
  | nil => simp [insertNew, erase]
  | cons e rest ih =>
    obtain ⟨k', v'⟩ := e
    unfold insertNew
    split_ifs with h
    · simp [erase]
    · unfold erase at ih ⊢
      simp only [List.filter_cons, ih]

theorem erase_replace (m : OrdMap κ V) (k : κ) (f : V → V) :
    erase (replace k f m) k = erase m k := by
  induction m with
  | nil => simp [replace]
  | cons e rest ih =>
    obtain ⟨k', v'⟩ := e
    unfold replace
    split_ifs with h
    · simp [erase, h]
    · unfold erase at ih ⊢
      simp only [List.filter_cons, ih]

theorem erase_modify (m : OrdMap κ V) (k : κ) (d : V) (f : V → V) :
    erase (modify m k d f) k = erase m k := by
  unfold modify
  split_ifs
  · exact erase_replace m k f
  · exact erase_insertNew m k (f d)

theorem erase_of_not_contains (m : OrdMap κ V) (k : κ) (h : contains m k = false) :
    erase m k = m := by
  have hk : k ∉ keys m := by
    rw [← contains_iff_mem_keys, h]
    simp
  unfold erase
  rw [List.filter_eq_self]
  intro e he
  have : e.1 ∈ keys m := List.mem_map_of_mem Prod.fst he
  simp only [ne_eq, decide_not, Bool.not_eq_true', decide_eq_false_iff_not]
  rintro rfl
  exact hk this

theorem erase_emplace (m : OrdMap κ V) (k : κ) (v : V) (h : contains m k = false) :
    erase (emplace m k v) k = m := by
  unfold emplace
  rw [h]
  simp only [Bool.false_eq_true, if_false]
  rw [erase_insertNew, erase_of_not_contains m k h]

end OrdMap

namespace OrdSet

variable {κ : Type} [DecidableEq κ] [LT κ] [DecidableRel (LT.lt : κ → κ → Prop)]

theorem mem_insertNew (s : OrdSet κ) (k k' : κ) : k' ∈ insertNew k s ↔ k' = k ∨ k' ∈ s := by
  induction s with
  | nil => simp [insertNew]
  | cons x rest ih =>
    unfold insertNew
    split_ifs
    · simp
    · simp only [List.mem_cons, ih]
      tauto

theorem mem_insert (s : OrdSet κ) (k k' : κ) : k' ∈ insert s k ↔ k' = k ∨ k' ∈ s := by
  unfold insert
  split_ifs with h
  · constructor
    · exact Or.inr
    · rintro (rfl | h')
      · exact h
      · exact h'
  · exact mem_insertNew s k k'

theorem mem_erase (s : OrdSet κ) (k k' : κ) : k' ∈ erase s k ↔ k' ≠ k ∧ k' ∈ s := by
  unfold erase
  simp only [List.mem_filter, ne_eq, decide_not, Bool.not_eq_true', decide_eq_false_iff_not]
  tauto

theorem erase_insertNew_self (s : OrdSet κ) (k : κ) (h : k ∉ s) :
    erase (insertNew k s) k = s := by
  induction s with
  | nil => simp [insertNew, erase]
  | cons x rest ih =>
    have hx : x ≠ k := fun hh => h (by simp [hh])
    have hr : k ∉ rest := fun hh => h (List.mem_cons_of_mem _ hh)
    unfold insertNew
    split_ifs
    · unfold erase
      rw [List.filter_cons]
      simp only [ne_eq, not_true_eq_false, decide_False, Bool.false_eq_true, if_false]
      rw [List.filter_eq_self]
      intro e he
      simp only [decide_not, Bool.not_eq_true', decide_eq_false_iff_not]
      rintro rfl
      exact h he
    · unfold erase at ih ⊢
      rw [List.filter_cons]
      simp only [ne_eq, hx, not_false_eq_true, decide_True, if_true]
      rw [ih hr]

theorem erase_insert_self (s : OrdSet κ) (k : κ) (h : k ∉ s) : erase (insert s k) k = s := by
  unfold insert
  rw [if_neg h]
  exact erase_insertNew_self s k h

end OrdSet

end Search

namespace Search

open SearchServer

/-! # `AddDocument` followed by `RemoveDocument` -/

/-- Without the parallel `RemoveDocument`, every id of `document_ids_` has
metadata. -/
theorem ReachableSeq_ids_live (s : SearchServer) (h : ReachableSeq s) :
    ∀ id ∈ s.document_ids_, OrdMap.contains s.documents_ id = true := by
  have step_remove : ∀ (s : SearchServer) (document_id : Int), ReachableSeq s →
      (∀ id ∈ s.document_ids_, OrdMap.contains s.documents_ id = true) →
      ∀ id ∈ (s.RemoveDocument document_id).2.document_ids_,
        OrdMap.contains (s.RemoveDocument document_id).2.documents_ id = true := by
    intro s document_id hs ih id hid
    have hc : Consistent s := Reachable_consistent s (ReachableSeq_reachable s hs)
    rcases RemoveDocument_state s hc document_id with ⟨_, he⟩ | ⟨wf, _, _, hok⟩
    · rw [he] at hid ⊢
      exact ih id hid
    · rw [hok] at hid ⊢
      simp only [OrdSet.mem_erase] at hid
      simp only [OrdMap.contains_erase, hid.1, decide_False, Bool.not_false, Bool.true_and]
      exact ih id hid.2
  induction h with
  | construct stop_words s hc =>
    obtain ⟨_, _, h3, _, _⟩ := construct_state stop_words s hc
    intro id hid
    simp [h3] at hid
  | add s document_id document status ratings _ ih =>
    intro id hid
    cases hres : (s.AddDocument document_id document status ratings).1 with
    | error e =>
      have := (AddDocument_error_state s document_id document status ratings e hres)
      rw [this] at hid ⊢
      exact ih id hid
    | ok u =>
      obtain ⟨_, hst⟩ := AddDocument_ok_state s document_id document status ratings hres
      rw [hst] at hid ⊢
      simp only [OrdSet.mem_insert] at hid
      simp only [OrdMap.contains_emplace, Bool.or_eq_true, decide_eq_true_eq]
      rcases hid with hid | hid
      · exact Or.inl hid
      · exact Or.inr (ih id hid)
  | remove s document_id hs ih => exact step_remove s document_id hs ih
  | removeSeq s document_id hs ih => exact step_remove s document_id hs ih

theorem erase_erase_self (f : OrdMap Int ℚ) (document_id : Int) :
    OrdMap.erase (OrdMap.erase f document_id) document_id = OrdMap.erase f document_id := by
  unfold OrdMap.erase
  rw [List.filter_filter]
  simp

/-- The inverted entries after the loop of the sequential `RemoveDocument`. -/
theorem RemoveDocument_loop_find? (document_id : Int) :
    ∀ (word_freqs : List (Str × ℚ)) (inv : OrdMap Str (OrdMap Int ℚ)),
      (∀ w ∈ OrdMap.keys word_freqs, OrdMap.contains inv w = true) →
      ∀ w, OrdMap.find? (RemoveDocument.loop document_id word_freqs inv).2 w =
        if w ∈ OrdMap.keys word_freqs then
          (OrdMap.find? inv w).map (fun freqs => OrdMap.erase freqs document_id)
        else OrdMap.find? inv w := by
  intro word_freqs
  induction word_freqs with
  | nil => intro inv _ w; simp [RemoveDocument.loop, OrdMap.keys]
  | cons e rest ih =>
    intro inv h w
    obtain ⟨w0, tf⟩ := e
    have hw0 : OrdMap.contains inv w0 = true := h w0 (by simp [OrdMap.keys])
    have hrest : ∀ w ∈ OrdMap.keys rest,
        OrdMap.contains (OrdMap.replace w0 (fun freqs => OrdMap.erase freqs document_id) inv) w
          = true := by
      intro w hw
      rw [OrdMap.contains_replace]
      exact h w (by simp only [OrdMap.keys, List.map_cons, List.mem_cons]; exact Or.inr hw)
    simp only [RemoveDocument.loop, hw0, if_true]
    rw [ih _ hrest w, OrdMap.find?_replace]
    by_cases hw : w = w0
    · subst hw
      have hmem : w ∈ OrdMap.keys ((w, tf) :: rest) := by simp [OrdMap.keys]
      simp only [if_true, hmem]
      split_ifs
      · cases OrdMap.find? inv w with
        | none => rfl
        | some f => simp [erase_erase_self]
      · rfl
    · have hmem : (w ∈ OrdMap.keys ((w0, tf) :: rest)) ↔ w ∈ OrdMap.keys rest := by
        simp [OrdMap.keys, hw]
      simp only [hw, if_false, hmem]

/-- The loop of `AddDocument` changes the forward index at the new id only. -/
theorem erase_forward_foldl_step (document_id : Int) (inv_word_count : ℚ) :
    ∀ (words : List Str) (s : SearchServer),
      OrdMap.erase (words.foldl (AddDocument.step document_id inv_word_count) s).document_to_word_freqs_
          document_id = OrdMap.erase s.document_to_word_freqs_ document_id := by
  intro words
  induction words with
  | nil => intro s; rfl
  | cons t rest ih =>
    intro s
    rw [List.foldl_cons, ih]
    simp only [AddDocument.step]
    rw [OrdMap.erase_modify]

/-- Repeated addition to the entry of one document leaves the entries of the
other documents alone. -/
theorem find?_iterate_modify (document_id : Int) (inv_word_count : ℚ) (id : Int)
    (hid : id ≠ document_id) :
    ∀ (n : Nat) (freqs : OrdMap Int ℚ),
      OrdMap.find? ((fun freqs => OrdMap.modify freqs document_id 0
        (fun x => x + inv_word_count))^[n] freqs) id = OrdMap.find? freqs id := by
  intro n
  induction n with
  | zero => intro freqs; rfl
  | succ n ih =>
    intro freqs
    rw [Function.iterate_succ_apply, ih, OrdMap.find?_modify, if_neg hid]

end Search

namespace Search

open SearchServer

/-- The two-document corpus is reached without the parallel `RemoveDocument`. -/
theorem scenarioServer_reachableSeq : ReachableSeq scenarioServer :=
  ReachableSeq.add _ 2 "a b".toList DocumentStatus.ACTUAL [4]
    (ReachableSeq.add _ 1 "a b c".toList DocumentStatus.ACTUAL [1, 2, 3]
      (ReachableSeq.construct [] newServer (by decide)))

/-- Claim C17. In every state reached by `AddDocument` and the sequential
`RemoveDocument`, after an accepted `AddDocument(id, text, ...)` whose text has
at least one word that is no stop word, `RemoveDocument(id)` returns and
restores `GetDocumentCount()`, the sequence of live ids, the metadata, the
forward index, and the term frequency the inverted index stores for every
pair (word, document), that is its set of (word, document, term frequency)
entries.  (`RemoveDocument(execution::seq, id)` is the same function.) -/
theorem C17_AddDocument_RemoveDocument_round_trip (s : SearchServer) (hs : ReachableSeq s)
    (document_id : Int) (document : Str) (status : DocumentStatus) (ratings : List Int)
    (hok : (s.AddDocument document_id document status ratings).1 = .ok ())
    (hn : 1 ≤ (indexedWords s document).length) :
    ((s.AddDocument document_id document status ratings).2.RemoveDocument document_id).1
      = .ok () ∧
    ((s.AddDocument document_id document status ratings).2.RemoveDocument
      document_id).2.GetDocumentCount = s.GetDocumentCount ∧
    ((s.AddDocument document_id document status ratings).2.RemoveDocument document_id).2.ids
      = s.ids ∧
    ((s.AddDocument document_id document status ratings).2.RemoveDocument
      document_id).2.documents_ = s.documents_ ∧
    ((s.AddDocument document_id document status ratings).2.RemoveDocument
      document_id).2.document_to_word_freqs_ = s.document_to_word_freqs_ ∧
    ∀ w id, invertedFreq ((s.AddDocument document_id document status ratings).2.RemoveDocument
        document_id).2.word_to_document_freqs_ w id =
      invertedFreq s.word_to_document_freqs_ w id := by
  have hc : Consistent s := Reachable_consistent s (ReachableSeq_reachable s hs)
  have hc' : Consistent (s.AddDocument document_id document status ratings).2 :=
    Consistent_AddDocument s hc document_id document status ratings
  obtain ⟨hnew, hst⟩ := AddDocument_ok_state s document_id document status ratings hok
  have hne : indexedWords s document ≠ [] := by
    intro h0
    rw [h0] at hn
    simp at hn
  have hfwd : OrdMap.contains s.document_to_word_freqs_ document_id = false := by
    cases hcon : OrdMap.contains s.document_to_word_freqs_ document_id with
    | false => rfl
    | true =>
      rw [ReachableSeq_forward_live s hs document_id hcon] at hnew
      cases hnew
  have hids : document_id ∉ s.document_ids_ := by
    intro hmem
    rw [ReachableSeq_ids_live s hs document_id hmem] at hnew
    cases hnew
  generalize hs' : (s.AddDocument document_id document status ratings).2 = s' at hst hc' ⊢
  have hd' : s'.documents_ = OrdMap.emplace s.documents_ document_id
      { rating := ComputeAverageRating ratings, status := status } := by rw [hst]
  have hi' : s'.document_ids_ = OrdSet.insert s.document_ids_ document_id := by rw [hst]
  have hf' : s'.document_to_word_freqs_ =
      ((indexedWords s document).foldl
        (AddDocument.step document_id (1 / ((indexedWords s document).length : ℚ)))
        s).document_to_word_freqs_ := by rw [hst]
  have hw' : s'.word_to_document_freqs_ =
      ((indexedWords s document).foldl
        (AddDocument.step document_id (1 / ((indexedWords s document).length : ℚ)))
        s).word_to_document_freqs_ := by rw [hst]
  have hfs : ∀ w, forwardHas s.document_to_word_freqs_ document_id w = false := by
    intro w
    have hnone : OrdMap.find? s.document_to_word_freqs_ document_id = none := by
      cases hf : OrdMap.find? s.document_to_word_freqs_ document_id with
      | none => rfl
      | some v => simp [OrdMap.contains, hf] at hfwd
    simp [forwardHas, hnone]
  rcases RemoveDocument_state s' hc' document_id with ⟨hnone, _⟩ | ⟨wf, hwf, _, hrem⟩
  · exfalso
    rw [hf', forward_foldl_step] at hnone
    simp [hne] at hnone
  · have hkeys : ∀ w, w ∈ OrdMap.keys wf ↔ w ∈ indexedWords s document := by
      intro w
      rw [← forwardHas_of_find? hwf w, hf',
        (indexes_foldl_step document_id _ (indexedWords s document) s w document_id).2.1, hfs w]
      simp
    have hwords : ∀ w ∈ OrdMap.keys wf, OrdMap.contains s'.word_to_document_freqs_ w = true :=
      fun w hw => hc'.forward_word document_id w ((forwardHas_of_find? hwf w).2 hw)
    rw [hrem]
    refine ⟨rfl, ?_, ?_, ?_, ?_, ?_⟩
    · show (OrdMap.erase s'.documents_ document_id).length = s.documents_.length
      rw [hd', OrdMap.erase_emplace _ _ _ hnew]
    · show OrdSet.erase s'.document_ids_ document_id = s.document_ids_
      rw [hi', OrdSet.erase_insert_self _ _ hids]
    · show OrdMap.erase s'.documents_ document_id = s.documents_
      rw [hd', OrdMap.erase_emplace _ _ _ hnew]
    · show OrdMap.erase s'.document_to_word_freqs_ document_id = s.document_to_word_freqs_
      rw [hf', erase_forward_foldl_step, OrdMap.erase_of_not_contains _ _ hfwd]
    · intro w id
      show invertedFreq (RemoveDocument.loop document_id wf s'.word_to_document_freqs_).2 w id =
        invertedFreq s.word_to_document_freqs_ w id
      unfold invertedFreq
      rw [RemoveDocument_loop_find? document_id wf _ hwords w, hw', inverted_foldl_step]
      by_cases hw : w ∈ indexedWords s document
      · simp only [(hkeys w).2 hw, hw, if_true, Option.map_some', OrdMap.find?_erase]
        by_cases hid : id = document_id
        · subst hid
          simp only [if_true]
          cases hfind : OrdMap.find? s.word_to_document_freqs_ w with
          | none => rfl
          | some f =>
            have hnot : invertedHas s.word_to_document_freqs_ w id = false := by
              cases hh : invertedHas s.word_to_document_freqs_ w id with
              | false => rfl
              | true =>
                rw [hc.inverted_live w id hh] at hnew
                cases hnew
            simp only [invertedHas, hfind, OrdMap.contains] at hnot
            cases hf2 : OrdMap.find? f id with
            | none => exact hf2.symm
            | some v => simp [hf2] at hnot
        · simp only [hid, if_false]
          rw [find?_iterate_modify document_id _ id hid]
          cases hfind : OrdMap.find? s.word_to_document_freqs_ w with
          | none => rfl
          | some f => rfl
      · have hk : w ∉ OrdMap.keys wf := fun h => hw ((hkeys w).1 h)
        simp only [hk, hw, if_false]

/-- Witness of C17: document 3 = "a d" is added to the two-document corpus and
removed again. -/
theorem C17_witness :
    ((scenarioServer.AddDocument 3 "a d".toList DocumentStatus.ACTUAL [5]).2.RemoveDocument 3).1
      = .ok () ∧
    ((scenarioServer.AddDocument 3 "a d".toList DocumentStatus.ACTUAL [5]).2.RemoveDocument
      3).2.document_to_word_freqs_ = scenarioServer.document_to_word_freqs_ ∧
    ((scenarioServer.AddDocument 3 "a d".toList DocumentStatus.ACTUAL [5]).2.RemoveDocument
      3).2.word_to_document_freqs_ ≠ scenarioServer.word_to_document_freqs_ :=
  ⟨(C17_AddDocument_RemoveDocument_round_trip scenarioServer scenarioServer_reachableSeq 3
      "a d".toList DocumentStatus.ACTUAL [5] (by decide!) (by decide!)).1,
    (C17_AddDocument_RemoveDocument_round_trip scenarioServer scenarioServer_reachableSeq 3
      "a d".toList DocumentStatus.ACTUAL [5] (by decide!) (by decide!)).2.2.2.2.1,
    by decide!⟩

end Search

namespace Search

open SearchServer

/-! # The average rating -/

theorem wrapInt32_eq_self (x : Int) (h1 : -2147483648 ≤ x) (h2 : x < 2147483648) :
    wrapInt32 x = x := by
  unfold wrapInt32
  omega

theorem wrapInt32_add_wrapInt32 (a b : Int) : wrapInt32 (wrapInt32 a + b) = wrapInt32 (a + b) := by
  unfold wrapInt32
  omega

/-- The sum of `std::accumulate` in 32-bit arithmetic is the wrapped sum. -/
theorem foldl_wrapInt32 : ∀ (ratings : List Int) (a : Int),
    ratings.foldl (fun acc r => wrapInt32 (acc + r)) (wrapInt32 a) =
      wrapInt32 (a + ratings.sum) := by
  intro ratings
  induction ratings with
  | nil => intro a; simp
  | cons r rest ih =>
    intro a
    rw [List.foldl_cons, wrapInt32_add_wrapInt32, ih, List.sum_cons, add_assoc]

/-- The function `ComputeAverageRating` on a list whose sum and whose length fit
an `int`. -/
theorem ComputeAverageRating_eq (ratings : List Int)
    (hsum : -2147483648 ≤ ratings.sum ∧ ratings.sum < 2147483648)
    (hlen : ratings.length < 2147483648) :
    ComputeAverageRating ratings =
      if ratings = [] then 0 else Int.tdiv ratings.sum ratings.length := by
  unfold ComputeAverageRating
  split_ifs with h
  · rfl
  · have h0 : (0 : Int) = wrapInt32 0 := by decide
    simp only []
    rw [h0, foldl_wrapInt32, zero_add, wrapInt32_eq_self _ hsum.1 hsum.2,
      wrapInt32_eq_self _ (by omega) (by omega)]

/-- The metadata an accepted `AddDocument` stores. -/
theorem AddDocument_stored (s : SearchServer) (document_id : Int) (document : Str)
    (status : DocumentStatus) (ratings : List Int)
    (hok : (s.AddDocument document_id document status ratings).1 = .ok ()) :
    OrdMap.find? (s.AddDocument document_id document status ratings).2.documents_ document_id =
      some { rating := ComputeAverageRating ratings, status := status } := by
  obtain ⟨hnew, hst⟩ := AddDocument_ok_state s document_id document status ratings hok
  rw [hst]
  simp only
  rw [OrdMap.find?_emplace]
  cases hf : OrdMap.find? s.documents_ document_id with
  | none => simp
  | some v => simp [OrdMap.contains, hf] at hnew

/-- Every result of the sequential `FindTopDocuments` carries the rating stored
for its id. -/
theorem FindTopDocuments_rating {K : Type} [LinearOrderedField K] (log : ℚ → K)
    (s : SearchServer) (hc : Consistent s) (raw_query : Str) (key_mapper : KeyMapper)
    (result : List (Document K))
    (h : s.FindTopDocuments log raw_query key_mapper = .ok result) :
    ∀ d ∈ result, ∃ data, OrdMap.find? s.documents_ d.id = some data ∧
      d.rating = data.rating := by
  unfold FindTopDocuments at h
  cases hq : s.ParseQuery raw_query with
  | error e => simp [hq] at h
  | ok query =>
    obtain ⟨docs, h1, _, _, h4⟩ := FindAllDocuments_spec log s hc query key_mapper
    simp only [hq, h1, Except.ok.injEq] at h
    subst h
    intro d hd
    exact h4 d (sortAndTruncate_mem docs d hd)

end Search

namespace Search

open SearchServer

/-- Claim C18, refuted as stated: a ratings list of 2147483648 entries, all 0
but the last, which is -2147483648.  Its sum, -2147483648, fits an `int`, the
document is accepted, and the stored rating is 1, because
`static_cast<int>(ratings.size())` is -2147483648; the sum divided by the
length, truncated toward zero, is -1. -/
theorem C18_counterexample :
    (-2147483648 ≤ (List.replicate 2147483647 (0 : Int) ++ [-2147483648]).sum ∧
      (List.replicate 2147483647 (0 : Int) ++ [-2147483648]).sum < 2147483648) ∧
    OrdMap.find? (newServer.AddDocument 1 "a".toList DocumentStatus.ACTUAL
        (List.replicate 2147483647 (0 : Int) ++ [-2147483648])).2.documents_ 1 =
      some { rating := 1, status := DocumentStatus.ACTUAL } ∧
    Int.tdiv (List.replicate 2147483647 (0 : Int) ++ [-2147483648]).sum
      ((List.replicate 2147483647 (0 : Int) ++ [-2147483648]).length : Int) = -1 := by
  have hsum : (List.replicate 2147483647 (0 : Int) ++ [-2147483648]).sum = -2147483648 := by
    rw [List.sum_append, List.sum_replicate]
    simp
  have hlen : (List.replicate 2147483647 (0 : Int) ++ [-2147483648]).length = 2147483648 := by
    rw [List.length_append, List.length_replicate]
    rfl
  have hne : List.replicate 2147483647 (0 : Int) ++ [-2147483648] ≠ [] := by
    intro h
    have := congrArg List.length h
    rw [hlen] at this
    cases this
  have hok : (newServer.AddDocument 1 "a".toList DocumentStatus.ACTUAL
      (List.replicate 2147483647 (0 : Int) ++ [-2147483648])).1 = .ok () := by
    rcases AddDocument_outcome newServer 1 "a".toList DocumentStatus.ACTUAL
      (List.replicate 2147483647 (0 : Int) ++ [-2147483648]) with ⟨hc, _⟩ | ⟨_, h⟩
    · exact absurd hc (by decide)
    · exact h
  have havg : ComputeAverageRating (List.replicate 2147483647 (0 : Int) ++ [-2147483648]) = 1 := by
    unfold ComputeAverageRating
    rw [if_neg hne]
    have hf := foldl_wrapInt32 (List.replicate 2147483647 (0 : Int) ++ [-2147483648]) 0
    rw [show wrapInt32 0 = 0 from by decide, zero_add, hsum] at hf
    simp only []
    rw [hf, hlen]
    decide
  refine ⟨?_, ?_, ?_⟩
  · rw [hsum]
    decide
  · rw [AddDocument_stored _ _ _ _ _ hok, havg]
  · rw [hsum, hlen]
    decide

/-- Claim C18, amended. For every accepted `AddDocument` whose ratings list has
fewer than 2147483648 entries and a sum that fits a signed 32-bit integer, the
rating stored for the document is 0 when the list is empty and otherwise its
sum divided by its length, truncated toward zero; in a reachable state every
later result of `FindTopDocuments` for this id reports that rating.  The lists
1, 2, 3 and 4 and -1, -2 give 2, 4 and -1. -/
theorem C18_average_rating_stored {K : Type} [LinearOrderedField K] (log : ℚ → K)
    (s : SearchServer) (document_id : Int) (document : Str)
    (status : DocumentStatus) (ratings : List Int)
    (hok : (s.AddDocument document_id document status ratings).1 = .ok ())
    (hsum : -2147483648 ≤ ratings.sum ∧ ratings.sum < 2147483648)
    (hlen : ratings.length < 2147483648) :
    OrdMap.find? (s.AddDocument document_id document status ratings).2.documents_ document_id =
      some { rating := if ratings = [] then 0 else Int.tdiv ratings.sum ratings.length,
             status := status } ∧
    (Reachable s → ∀ (raw_query : Str) (key_mapper : KeyMapper) (result : List (Document K)),
      (s.AddDocument document_id document status ratings).2.FindTopDocuments
          log raw_query key_mapper = .ok result →
      ∀ d ∈ result, d.id = document_id →
        d.rating = if ratings = [] then 0 else Int.tdiv ratings.sum ratings.length) ∧
    ComputeAverageRating [1, 2, 3] = 2 ∧ ComputeAverageRating [4] = 4 ∧
    ComputeAverageRating [-1, -2] = -1 := by
  have hstored := AddDocument_stored s document_id document status ratings hok
  rw [ComputeAverageRating_eq ratings hsum hlen] at hstored
  refine ⟨hstored, ?_, by decide, by decide, by decide⟩
  intro hs raw_query key_mapper result hres d hd hid
  have hc : Consistent (s.AddDocument document_id document status ratings).2 :=
    Consistent_AddDocument s (Reachable_consistent s hs) document_id document status ratings
  obtain ⟨data, h1, h2⟩ := FindTopDocuments_rating _ _ hc raw_query key_mapper result hres d hd
  rw [hid, hstored] at h1
  cases h1
  exact h2

/-- Witness of C18: the document 3 = "a" with the ratings -1, -2 is added to
the two-document corpus; the stored rating is -1. -/
theorem C18_witness :
    OrdMap.find? (scenarioServer.AddDocument 3 "a".toList DocumentStatus.ACTUAL
        [-1, -2]).2.documents_ 3 = some { rating := -1, status := DocumentStatus.ACTUAL } :=
  (C18_average_rating_stored (fun q : ℚ => Real.log (q : ℝ)) scenarioServer 3 "a".toList
    DocumentStatus.ACTUAL [-1, -2]
    (by decide!) (by decide) (by decide)).1

end Search

namespace Search

open SearchServer

/-! # The tie-break by rating -/

/-- Claim C19. For every state, accepted query and predicate such that all
matched documents have the same relevance, the sequential `FindTopDocuments`
returns a list in non-increasing order of rating: the rating at a position is
at least the rating at every later position. -/
theorem C19_equal_relevance_sorted_by_rating {K : Type} [LinearOrderedField K]
    (log : ℚ → K) (s : SearchServer) (raw_query : Str) (query : Query) (key_mapper : KeyMapper)
    (matched : List (Document K))
    (hq : s.ParseQuery raw_query = .ok query)
    (hm : FindAllDocuments log s query key_mapper = .ok matched)
    (heq : ∀ a ∈ matched, ∀ b ∈ matched, a.relevance = b.relevance) :
    ∃ result, s.FindTopDocuments log raw_query key_mapper = .ok result ∧
      result.Pairwise (fun a b => a.rating ≥ b.rating) := by
  have htie : ∀ a ∈ matched, ∀ b ∈ matched, ∀ c ∈ matched,
      nearTie a b → nearTie b c → nearTie a c := by
    intro a ha _ _ c hc _ _
    unfold nearTie
    rw [heq a ha c hc, sub_self, abs_zero]
    norm_num
  refine ⟨sortAndTruncate matched,
    FindTopDocuments_of_matched log s raw_query query key_mapper matched hq hm, ?_⟩
  refine (sortAndTruncate_pairwise matched htie).imp_of_mem ?_
  intro a b ha hb hab
  have hrel : a.relevance - b.relevance = 0 := by
    rw [heq a (sortAndTruncate_mem matched a ha) b (sortAndTruncate_mem matched b hb), sub_self]
  rcases hab with h | ⟨_, h⟩
  · rw [hrel] at h
    norm_num at h
  · exact h

/-- Witness of C19: on the two-document corpus, with the real logarithm, the
query "a d" gives both documents the relevance 0, and `FindTopDocuments`
returns document 2 (rating 4) before document 1 (rating 2). -/
theorem C19_witness :
    scenarioServer.FindTopDocuments (fun q : ℚ => Real.log (q : ℝ)) "a d".toList isActual =
      .ok [{ id := 2, relevance := 0, rating := 4 }, { id := 1, relevance := 0, rating := 2 }] ∧
    ∃ result, scenarioServer.FindTopDocuments (fun q : ℚ => Real.log (q : ℝ)) "a d".toList
        isActual = .ok result ∧
      result.Pairwise (fun a b => a.rating ≥ b.rating) := by
  refine ⟨?_, C19_equal_relevance_sorted_by_rating (fun q : ℚ => Real.log (q : ℝ))
    scenarioServer "a d".toList { plus_words := ["a".toList, "d".toList], minus_words := [] }
    isActual _ (by decide) scenario_FindAllDocuments_a_d (by
      intro a ha b hb
      simp only [List.mem_cons, List.mem_singleton, List.not_mem_nil, or_false] at ha hb
      rcases ha with rfl | rfl <;> rcases hb with rfl | rfl <;> rfl)⟩
  rw [FindTopDocuments_of_matched _ scenarioServer "a d".toList
    { plus_words := ["a".toList, "d".toList], minus_words := [] } isActual _ (by decide)
    scenario_FindAllDocuments_a_d]
  simp [sortAndTruncate, sort, sort.insert, compareDocuments, MAX_RESULT_DOCUMENT_COUNT]

end Search

namespace Search

namespace RequestQueue

/-! # The request queue -/

theorem records_append (c : Int) : ∀ (l : List Int) (start : Nat),
    records start (l ++ [c]) =
      records start l ++
        [{ timestamp := (start + l.length + 1) % 18446744073709551616, results := c }] := by
  intro l
  induction l with
  | nil => intro start; rfl
  | cons x rest ih =>
    intro start
    have h : start + 1 + rest.length + 1 = start + (rest.length + 1) + 1 := by omega
    show ({ timestamp := (start + 1) % 18446744073709551616, results := x } : QueryResult) ::
      records (start + 1) (rest ++ [c]) = _
    rw [ih, h]
    rfl

theorem records_results : ∀ (l : List Int) (start : Nat),
    (records start l).map QueryResult.results = l := by
  intro l
  induction l with
  | nil => intro start; rfl
  | cons x rest ih => intro start; simp [records, ih]

theorem records_timestamp : ∀ (l : List Int) (start : Nat),
    (records start l).map QueryResult.timestamp =
      (List.range' (start + 1) l.length).map (fun i => i % 18446744073709551616) := by
  intro l
  induction l with
  | nil => intro start; rfl
  | cons x rest ih =>
    intro start
    simp [records, ih, List.range'_succ]

theorem records_length (l : List Int) (start : Nat) : (records start l).length = l.length := by
  rw [← List.length_map (records start l) QueryResult.results, records_results]

/-- The loop of `AddRequest` stops at a front that is less than 1440 ticks
old. -/
theorem evict_young (current_time start : Nat) (l : List Int) (n : Int)
    (h : l = [] ∨ subUInt64 current_time ((start + 1) % 18446744073709551616) < 1440) :
    AddRequest.evict current_time (records start l) n = (records start l, n) := by
  cases l with
  | nil => rfl
  | cons x rest =>
    rcases h with h | h
    · cases h
    · simp only [records, AddRequest.evict, minute_in_day_]
      rw [if_neg (by omega)]

end RequestQueue

end Search

namespace Search

namespace RequestQueue

/-- The state of the queue after the calls of `AddRequest` with the result
counts `counts`, in this order, on a new queue. -/
theorem AddRequest_foldl (counts : List Int) :
    (counts.foldl AddRequest create).current_time_ = counts.length % 18446744073709551616 ∧
    (counts.foldl AddRequest create).requests_ =
      records (counts.length - 1440) (counts.drop (counts.length - 1440)) ∧
    (counts.foldl AddRequest create).no_result_requests_ =
      (((counts.drop (counts.length - 1440)).count 0 : Nat) : Int) := by
  induction counts using List.reverseRecOn with
  | nil => exact ⟨rfl, rfl, rfl⟩
  | append_singleton l c ih =>
    obtain ⟨h1, h2, h3⟩ := ih
    rw [List.foldl_append, List.foldl_cons, List.foldl_nil]
    generalize l.foldl AddRequest create = q at h1 h2 h3
    unfold AddRequest
    simp only [h1, h2, h3, List.length_append, List.length_singleton]
    have hcur : (l.length % 18446744073709551616 + 1) % 18446744073709551616 =
        (l.length + 1) % 18446744073709551616 := by omega
    rw [hcur]
    by_cases hn : l.length < 1440
    · have e1 : l.length - 1440 = 0 := by omega
      have e2 : l.length + 1 - 1440 = 0 := by omega
      have hcount : (l.count 0) ≤ l.length := List.count_le_length _ _
      rw [e1, e2, List.drop_zero, List.drop_zero,
        evict_young _ 0 l _ (by
          right
          unfold subUInt64
          omega)]
      refine ⟨rfl, ?_, ?_⟩
      · rw [records_append, Nat.zero_add]
      · simp only [List.count_append, List.count_singleton]
        by_cases hc : c = 0
        · subst hc
          simp only [if_true, beq_self_eq_true]
          rw [wrapInt32_eq_self _ (by omega) (by omega)]
          push_cast
          rfl
        · have hb : (c == (0 : Int)) = false := by simpa using hc
          simp only [hc, if_false, hb, Bool.false_eq_true, add_zero]
    · have hst : l.length - 1440 < l.length := by omega
      have e2 : l.length + 1 - 1440 = (l.length - 1440) + 1 := by omega
      have hdrop : l.drop (l.length - 1440) =
          l[l.length - 1440] :: l.drop (l.length - 1440 + 1) := List.drop_eq_getElem_cons hst
      have hlen : (l.drop (l.length - 1440 + 1)).length = 1439 := by
        rw [List.length_drop]
        omega
      have hcount : ((l.drop (l.length - 1440 + 1)).count 0) ≤ 1439 := by
        rw [← hlen]
        exact List.count_le_length _ _
      rw [e2, List.drop_append_of_le_length (by omega), hdrop]
      generalize l.drop (l.length - 1440 + 1) = tail at hlen hcount
      generalize l[l.length - 1440] = c0
      have hev : AddRequest.evict ((l.length + 1) % 18446744073709551616)
          (records (l.length - 1440) (c0 :: tail)) ((List.count 0 (c0 :: tail) : Nat) : Int) =
          (records (l.length - 1440 + 1) tail, ((List.count 0 tail : Nat) : Int)) := by
        simp only [records, AddRequest.evict, minute_in_day_]
        rw [if_pos (by
          unfold subUInt64
          omega)]
        rw [evict_young _ _ tail _ (by
          right
          unfold subUInt64
          omega)]
        refine Prod.ext rfl ?_
        show (if c0 = 0 then wrapInt32 (((List.count 0 (c0 :: tail) : Nat) : Int) - 1)
          else ((List.count 0 (c0 :: tail) : Nat) : Int)) = ((List.count 0 tail : Nat) : Int)
        by_cases hc0 : c0 = 0
        · subst hc0
          simp only [if_true, List.count_cons_self]
          rw [wrapInt32_eq_self _ (by omega) (by omega)]
          push_cast
          ring
        · have hb : (c0 == (0 : Int)) = false := by simpa using hc0
          simp only [hc0, if_false, List.count_cons, hb, Bool.false_eq_true, add_zero]
      rw [hev]
      refine ⟨rfl, ?_, ?_⟩
      · have hh : l.length - 1440 + 1 + 1439 + 1 = l.length + 1 := by omega
        simp only []
        rw [records_append, hlen, hh]
      · simp only [List.count_append, List.count_singleton]
        by_cases hc : c = 0
        · subst hc
          simp only [if_true, beq_self_eq_true]
          rw [wrapInt32_eq_self _ (by omega) (by omega)]
          push_cast
          rfl
        · have hb : (c == (0 : Int)) = false := by simpa using hc
          simp only [hc, if_false, hb, Bool.false_eq_true, add_zero]

end RequestQueue

end Search

namespace Search

namespace RequestQueue

open SearchServer

/-- A call of `AddFindRequest` is the call of `AddRequest` with the number of
documents `FindTopDocuments` returns; when `FindTopDocuments` throws, the
queue is left as it is. -/
theorem AddFindRequest_eq {K : Type} [LinearOrderedField K] (log : ℚ → K) (q : RequestQueue)
    (search_server : SearchServer) (raw_query : Str) (document_predicate : KeyMapper) :
    (∃ e, search_server.FindTopDocuments log raw_query document_predicate = .error e ∧
      AddFindRequest log q search_server raw_query document_predicate = (.error e, q)) ∨
    (∃ documents, search_server.FindTopDocuments log raw_query document_predicate = .ok documents ∧
      AddFindRequest log q search_server raw_query document_predicate =
        (.ok documents, q.AddRequest documents.length)) := by
  unfold AddFindRequest
  cases hres : search_server.FindTopDocuments log raw_query document_predicate with
  | error e => exact Or.inl ⟨e, rfl, rfl⟩
  | ok documents =>
    refine Or.inr ⟨documents, rfl, ?_⟩
    have hlen : documents.length ≤ 5 := by
      unfold FindTopDocuments at hres
      cases hq : search_server.ParseQuery raw_query with
      | error e => simp [hq] at hres
      | ok query =>
        cases hm : FindAllDocuments log search_server query document_predicate with
        | error e => simp [hq, hm] at hres
        | ok matched =>
          simp only [hq, hm, Except.ok.injEq] at hres
          rw [← hres, sortAndTruncate_length]
          exact min_le_left _ _
    simp only []
    rw [wrapInt32_eq_self _ (by omega) (by omega)]

/-- The window of `AddRequest`: after `n` calls on a new queue, with arbitrary
result counts, the deque holds, oldest first, the records of exactly the last
`min(n, 1440)` calls, the record of call number `i` being
`(i mod 2^64, its result count)`, and `GetNoResultRequests()` is the number of
those records whose result count is 0. -/
theorem AddRequest_window (counts : List Int) :
    (counts.foldl AddRequest create).requests_ =
      records (counts.length - 1440) (counts.drop (counts.length - 1440)) ∧
    (counts.foldl AddRequest create).requests_.length = min counts.length 1440 ∧
    (counts.foldl AddRequest create).requests_.map QueryResult.results =
      counts.drop (counts.length - 1440) ∧
    (counts.foldl AddRequest create).requests_.map QueryResult.timestamp =
      (List.range' (counts.length - 1440 + 1) (min counts.length 1440)).map
        (fun i => i % 18446744073709551616) ∧
    (counts.foldl AddRequest create).GetNoResultRequests =
      ((((counts.foldl AddRequest create).requests_.filter
        (fun r => decide (r.results = 0))).length : Nat) : Int) ∧
    (counts.foldl AddRequest create).GetNoResultRequests =
      (((counts.drop (counts.length - 1440)).count 0 : Nat) : Int) := by
  obtain ⟨_, h2, h3⟩ := AddRequest_foldl counts
  have hlen : (counts.drop (counts.length - 1440)).length = min counts.length 1440 := by
    rw [List.length_drop]
    omega
  refine ⟨h2, ?_, ?_, ?_, ?_, h3⟩
  · rw [h2, records_length, hlen]
  · rw [h2, records_results]
  · rw [h2, records_timestamp, hlen]
  · have hf : ((counts.foldl AddRequest create).requests_.filter
        (fun r => decide (r.results = 0))).length =
        (((counts.foldl AddRequest create).requests_.map QueryResult.results).filter
          (fun c => decide (c = 0))).length := by
      rw [List.filter_map, List.length_map]
      rfl
    have hg : (fun c : Int => decide (c = 0)) = (fun c => c == 0) := rfl
    unfold GetNoResultRequests
    rw [h3, hf, h2, records_results, List.count, List.countP_eq_length_filter, hg]

end RequestQueue

end Search

namespace Search

open SearchServer

/-! # The forward and the inverted index hold the same entries -/

/-- Repeated addition to the entry of one document: its value after `n`
rounds. -/
theorem find?_iterate_modify_self (document_id : Int) (inv_word_count : ℚ) :
    ∀ (n : Nat) (freqs : OrdMap Int ℚ),
      OrdMap.find? ((fun freqs => OrdMap.modify freqs document_id 0
        (fun x => x + inv_word_count))^[n] freqs) document_id =
        if n = 0 then OrdMap.find? freqs document_id
        else some ((OrdMap.find? freqs document_id).getD 0 + (n : ℚ) * inv_word_count) := by
  intro n
  induction n with
  | zero => intro freqs; rfl
  | succ n ih =>
    intro freqs
    rw [Function.iterate_succ_apply', OrdMap.find?_modify, ih]
    simp only [if_true, Nat.succ_ne_zero, if_false]
    by_cases hn : n = 0
    · subst hn
      simp
    · simp only [hn, if_false, Option.getD_some]
      congr 1
      push_cast
      ring

theorem invertedFreq_of_none {inv : OrdMap Str (OrdMap Int ℚ)} {w : Str}
    (h : OrdMap.find? inv w = none) (id : Int) : invertedFreq inv w id = none := by
  simp [invertedFreq, h]

theorem invertedFreq_of_some {inv : OrdMap Str (OrdMap Int ℚ)} {w : Str} {f : OrdMap Int ℚ}
    (h : OrdMap.find? inv w = some f) (id : Int) :
    invertedFreq inv w id = OrdMap.find? f id := by
  simp [invertedFreq, h]

theorem invertedFreq_getD (inv : OrdMap Str (OrdMap Int ℚ)) (w : Str) (id : Int) :
    OrdMap.find? ((OrdMap.find? inv w).getD []) id = invertedFreq inv w id := by
  cases h : OrdMap.find? inv w with
  | none => simp [invertedFreq, h, OrdMap.find?]
  | some f => simp [invertedFreq, h]

theorem forwardFreq_of_none {fwd : OrdMap Int (OrdMap Str ℚ)} {id : Int}
    (h : OrdMap.find? fwd id = none) (w : Str) : forwardFreq fwd id w = none := by
  simp [forwardFreq, h]

theorem forwardFreq_of_some {fwd : OrdMap Int (OrdMap Str ℚ)} {id : Int} {f : OrdMap Str ℚ}
    (h : OrdMap.find? fwd id = some f) (w : Str) :
    forwardFreq fwd id w = OrdMap.find? f w := by
  simp [forwardFreq, h]

/-- An entry of the inverted index is an entry with a document in it. -/
theorem invertedHas_of_invertedFreq {inv : OrdMap Str (OrdMap Int ℚ)} {w : Str} {id : Int}
    {tf : ℚ} (h : invertedFreq inv w id = some tf) : invertedHas inv w id = true := by
  unfold invertedFreq at h
  unfold invertedHas
  cases hf : OrdMap.find? inv w with
  | none => simp [hf] at h
  | some f =>
    simp only [hf] at h ⊢
    simp [OrdMap.contains, h]

theorem invertedFreq_eq_none_of_not_has {inv : OrdMap Str (OrdMap Int ℚ)} {w : Str} {id : Int}
    (h : invertedHas inv w id = false) : invertedFreq inv w id = none := by
  cases hf : invertedFreq inv w id with
  | none => rfl
  | some tf =>
    rw [invertedHas_of_invertedFreq hf] at h
    cases h

end Search

namespace Search

open SearchServer

/-- Without the parallel `RemoveDocument`, the inverted index stores for a pair
(word, document) what the forward index stores for it. -/
theorem ReachableSeq_freq (s : SearchServer) (h : ReachableSeq s) :
    ∀ w id, invertedFreq s.word_to_document_freqs_ w id =
      forwardFreq s.document_to_word_freqs_ id w := by
  have step_remove : ∀ (s : SearchServer) (document_id : Int), ReachableSeq s →
      (∀ w id, invertedFreq s.word_to_document_freqs_ w id =
        forwardFreq s.document_to_word_freqs_ id w) →
      ∀ w id, invertedFreq (s.RemoveDocument document_id).2.word_to_document_freqs_ w id =
        forwardFreq (s.RemoveDocument document_id).2.document_to_word_freqs_ id w := by
    intro s document_id hs ih w id
    have hc : Consistent s := Reachable_consistent s (ReachableSeq_reachable s hs)
    rcases RemoveDocument_state s hc document_id with ⟨_, he⟩ | ⟨wf, hf, _, hok⟩
    · rw [he]
      exact ih w id
    · rw [hok]
      have hwords : ∀ w ∈ OrdMap.keys wf, OrdMap.contains s.word_to_document_freqs_ w = true :=
        fun w hw => hc.forward_word document_id w ((forwardHas_of_find? hf w).2 hw)
      show invertedFreq (RemoveDocument.loop document_id wf s.word_to_document_freqs_).2 w id =
        forwardFreq (OrdMap.erase s.document_to_word_freqs_ document_id) id w
      have hright : forwardFreq (OrdMap.erase s.document_to_word_freqs_ document_id) id w =
          if id = document_id then none else forwardFreq s.document_to_word_freqs_ id w := by
        unfold forwardFreq
        rw [OrdMap.find?_erase]
        split_ifs <;> rfl
      have hleft : invertedFreq (RemoveDocument.loop document_id wf s.word_to_document_freqs_).2
          w id = if id = document_id ∧ w ∈ OrdMap.keys wf then none
            else invertedFreq s.word_to_document_freqs_ w id := by
        unfold invertedFreq
        rw [RemoveDocument_loop_find? document_id wf _ hwords w]
        by_cases hw : w ∈ OrdMap.keys wf
        · simp only [hw, if_true, and_true]
          cases hfw : OrdMap.find? s.word_to_document_freqs_ w with
          | none => simp
          | some f =>
            simp only [Option.map_some', OrdMap.find?_erase]
        · simp only [hw, if_false, and_false]
      rw [hleft, hright]
      by_cases hid : id = document_id
      · subst hid
        by_cases hw : w ∈ OrdMap.keys wf
        · simp [hw]
        · simp only [hw, and_false, if_false, if_true]
          rw [ih w id, forwardFreq_of_some hf]
          exact (OrdMap.find?_eq_none_iff wf w).2 hw
      · simp only [hid, false_and, if_false]
        exact ih w id
  induction h with
  | construct stop_words s hc =>
    obtain ⟨h1, _, _, h4, _⟩ := construct_state stop_words s hc
    intro w id
    simp [invertedFreq, forwardFreq, h1, h4, OrdMap.find?]
  | add s document_id document status ratings hs ih =>
    intro w id
    cases hres : (s.AddDocument document_id document status ratings).1 with
    | error e =>
      rw [AddDocument_error_state s document_id document status ratings e hres]
      exact ih w id
    | ok u =>
      obtain ⟨hnew, hst⟩ := AddDocument_ok_state s document_id document status ratings hres
      have hc : Consistent s := Reachable_consistent s (ReachableSeq_reachable s hs)
      have hfnone : OrdMap.find? s.document_to_word_freqs_ document_id = none := by
        cases hf : OrdMap.find? s.document_to_word_freqs_ document_id with
        | none => rfl
        | some v =>
          have hcon : OrdMap.contains s.document_to_word_freqs_ document_id = true := by
            simp [OrdMap.contains, hf]
          rw [ReachableSeq_forward_live s hs document_id hcon] at hnew
          cases hnew
      have hinone : ∀ w, invertedFreq s.word_to_document_freqs_ w document_id = none := by
        intro w
        apply invertedFreq_eq_none_of_not_has
        cases hh : invertedHas s.word_to_document_freqs_ w document_id with
        | false => rfl
        | true =>
          rw [hc.inverted_live w document_id hh] at hnew
          cases hnew
      rw [hst]
      show invertedFreq ((indexedWords s document).foldl
          (AddDocument.step document_id (1 / ((indexedWords s document).length : ℚ)))
          s).word_to_document_freqs_ w id =
        forwardFreq ((indexedWords s document).foldl
          (AddDocument.step document_id (1 / ((indexedWords s document).length : ℚ)))
          s).document_to_word_freqs_ id w
      have hleft : invertedFreq ((indexedWords s document).foldl
          (AddDocument.step document_id (1 / ((indexedWords s document).length : ℚ)))
          s).word_to_document_freqs_ w id =
          if id = document_id ∧ w ∈ indexedWords s document then
            some (((indexedWords s document).count w : ℚ) *
              (1 / ((indexedWords s document).length : ℚ)))
          else invertedFreq s.word_to_document_freqs_ w id := by
        unfold invertedFreq
        rw [inverted_foldl_step]
        by_cases hw : w ∈ indexedWords s document
        · simp only [hw, if_true, and_true]
          by_cases hid : id = document_id
          · subst hid
            have hcount : (indexedWords s document).count w ≠ 0 :=
              (List.count_pos_iff.2 hw).ne'
            rw [find?_iterate_modify_self, if_neg hcount, invertedFreq_getD, hinone w]
            simp
          · rw [find?_iterate_modify _ _ id hid, invertedFreq_getD]
            simp only [hid, if_false]
            rfl
        · simp only [hw, if_false, and_false]
      have hright : forwardFreq ((indexedWords s document).foldl
          (AddDocument.step document_id (1 / ((indexedWords s document).length : ℚ)))
          s).document_to_word_freqs_ id w =
          if id = document_id ∧ w ∈ indexedWords s document then
            some (((indexedWords s document).count w : ℚ) *
              (1 / ((indexedWords s document).length : ℚ)))
          else forwardFreq s.document_to_word_freqs_ id w := by
        unfold forwardFreq
        rw [forward_foldl_step]
        by_cases hid : id = document_id
        · subst hid
          by_cases hne : indexedWords s document = []
          · simp [hne, hfnone]
          · simp only [hne, ne_eq, not_false_eq_true, and_self, if_true, true_and]
            rw [find?_foldl_modify_add, hfnone]
            by_cases hw : w ∈ indexedWords s document
            · simp [hw, OrdMap.find?]
            · simp [hw, OrdMap.find?]
        · simp only [hid, false_and, if_false]
      rw [hleft, hright]
      split_ifs
      · rfl
      · exact ih w id
  | remove s document_id hs ih => exact step_remove s document_id hs ih
  | removeSeq s document_id hs ih => exact step_remove s document_id hs ih

/-- Without the parallel `RemoveDocument`, every document with metadata is in
the set of ids. -/
theorem ReachableSeq_live_ids (s : SearchServer) (h : ReachableSeq s) :
    ∀ id, OrdMap.contains s.documents_ id = true → id ∈ s.document_ids_ := by
  have step_remove : ∀ (s : SearchServer) (document_id : Int), ReachableSeq s →
      (∀ id, OrdMap.contains s.documents_ id = true → id ∈ s.document_ids_) →
      ∀ id, OrdMap.contains (s.RemoveDocument document_id).2.documents_ id = true →
        id ∈ (s.RemoveDocument document_id).2.document_ids_ := by
    intro s document_id hs ih id hid
    have hc : Consistent s := Reachable_consistent s (ReachableSeq_reachable s hs)
    rcases RemoveDocument_state s hc document_id with ⟨_, he⟩ | ⟨wf, _, _, hok⟩
    · rw [he] at hid ⊢
      exact ih id hid
    · rw [hok] at hid ⊢
      simp only [OrdMap.contains_erase, Bool.and_eq_true, Bool.not_eq_true',
        decide_eq_false_iff_not] at hid
      simp only [OrdSet.mem_erase]
      exact ⟨hid.1, ih id hid.2⟩
  induction h with
  | construct stop_words s hc =>
    obtain ⟨_, h2, _, _, _⟩ := construct_state stop_words s hc
    intro id hid
    simp [h2, OrdMap.contains, OrdMap.find?] at hid
  | add s document_id document status ratings _ ih =>
    intro id hid
    cases hres : (s.AddDocument document_id document status ratings).1 with
    | error e =>
      have := (AddDocument_error_state s document_id document status ratings e hres)
      rw [this] at hid ⊢
      exact ih id hid
    | ok u =>
      obtain ⟨_, hst⟩ := AddDocument_ok_state s document_id document status ratings hres
      rw [hst] at hid ⊢
      simp only [OrdMap.contains_emplace, Bool.or_eq_true, decide_eq_true_eq] at hid
      simp only [OrdSet.mem_insert]
      rcases hid with hid | hid
      · exact Or.inl hid
      · exact Or.inr (ih id hid)
  | remove s document_id hs ih => exact step_remove s document_id hs ih
  | removeSeq s document_id hs ih => exact step_remove s document_id hs ih

end Search

namespace Search

open SearchServer

/-- Claim C21. In every state reached from a newly constructed server by calls
of `AddDocument` and of the sequential `RemoveDocument`, accepted or rejected,
the inverted index has the entry (word, document, term frequency) exactly when
the forward index has it, and every document that occurs in an inverted entry
or has a forward entry is live: it has metadata and is in the set of ids. -/
theorem C21_forward_inverted_consistent (s : SearchServer) (hs : ReachableSeq s) :
    (∀ w id tf, invertedFreq s.word_to_document_freqs_ w id = some tf ↔
      forwardFreq s.document_to_word_freqs_ id w = some tf) ∧
    (∀ w id, invertedHas s.word_to_document_freqs_ w id = true →
      OrdMap.contains s.documents_ id = true ∧ id ∈ s.document_ids_) ∧
    (∀ id, OrdMap.contains s.document_to_word_freqs_ id = true →
      OrdMap.contains s.documents_ id = true ∧ id ∈ s.document_ids_) := by
  have hc : Consistent s := Reachable_consistent s (ReachableSeq_reachable s hs)
  refine ⟨fun w id tf => ?_, fun w id h => ?_, fun id h => ?_⟩
  · rw [ReachableSeq_freq s hs w id]
  · have hlive := hc.inverted_live w id h
    exact ⟨hlive, ReachableSeq_live_ids s hs id hlive⟩
  · have hlive := ReachableSeq_forward_live s hs id h
    exact ⟨hlive, ReachableSeq_live_ids s hs id hlive⟩

/-- Witness of C21: the two-document corpus after `RemoveDocument(1)`; the
entry ("a", 2, 1/2) is in both indexes. -/
theorem C21_witness :
    (invertedFreq (scenarioServer.RemoveDocument 1).2.word_to_document_freqs_ "a".toList 2
        = some (1 / 2) ↔
      forwardFreq (scenarioServer.RemoveDocument 1).2.document_to_word_freqs_ 2 "a".toList
        = some (1 / 2)) ∧
    forwardFreq (scenarioServer.RemoveDocument 1).2.document_to_word_freqs_ 2 "a".toList
      = some (1 / 2) ∧
    invertedFreq (scenarioServer.RemoveDocument 1).2.word_to_document_freqs_ "a".toList 1
      = none :=
  ⟨(C21_forward_inverted_consistent (scenarioServer.RemoveDocument 1).2
      (ReachableSeq.remove scenarioServer 1 scenarioServer_reachableSeq)).1 "a".toList 2 (1 / 2),
    by decide!, by decide!⟩

/-! # Reads of the validating parser -/

/-- Claim C22, the defect. On the empty query the validating parser passes its
first three tests and then reads `raw_query[size(raw_query) - 1]`, a position
outside the string; `FindTopDocuments("")` parses first and so does the same,
on every server and for every predicate. -/
theorem C22_ParseQuery_reads_outside_empty_query {K : Type} [LinearOrderedField K]
    (log : ℚ → K) (s : SearchServer) (key_mapper : KeyMapper) :
    IsValidWord [] = true ∧ find [] ['-', '-'] = none ∧ find [] ['-', ' '] = none ∧
    ([] : Str)[([] : Str).length - 1]? = none ∧
    s.ParseQuery [] = .error .undefined_behaviour ∧
    s.FindTopDocuments log [] key_mapper = .error .undefined_behaviour := by
  have hp : s.ParseQuery [] = .error .undefined_behaviour := by
    simp [ParseQuery, IsValidWord, find, find.loop]
  refine ⟨by decide, by decide, by decide, rfl, hp, ?_⟩
  unfold FindTopDocuments
  rw [hp]

/-! # The divisor of the inverse document frequency -/

/-- Claim C23, the defect. After `RemoveDocument(1)` on the two-document corpus
the word "c" still is a key of the inverted index, with an empty map.  For the
query "c" the test `word_to_document_freqs_.count(word) == 0` of
`FindAllDocuments` does not skip the word, and
`ComputeWordInverseDocumentFreq("c")` divides the document count 1 by the size
0 of that map.  The quotient is not used: `FindTopDocuments("c")` returns the
empty list. -/
theorem C23_inverse_document_freq_divides_by_zero {K : Type} [LinearOrderedField K]
    (log : ℚ → K) :
    (scenarioServer.RemoveDocument 1).1 = .ok () ∧
    (scenarioServer.RemoveDocument 1).2.ParseQuery "c".toList =
      .ok { plus_words := ["c".toList], minus_words := [] } ∧
    OrdMap.contains (scenarioServer.RemoveDocument 1).2.word_to_document_freqs_ "c".toList
      = true ∧
    OrdMap.find? (scenarioServer.RemoveDocument 1).2.word_to_document_freqs_ "c".toList
      = some [] ∧
    (scenarioServer.RemoveDocument 1).2.GetDocumentCount = 1 ∧
    ComputeWordInverseDocumentFreq log (scenarioServer.RemoveDocument 1).2 "c".toList =
      .ok (log ((1 : ℚ) * 1 / ((0 : Nat) : ℚ))) ∧
    (scenarioServer.RemoveDocument 1).2.FindTopDocuments log "c".toList isActual = .ok [] := by
  have hq : (scenarioServer.RemoveDocument 1).2.ParseQuery "c".toList =
      .ok { plus_words := ["c".toList], minus_words := [] } := by decide!
  have hfind : OrdMap.find? (scenarioServer.RemoveDocument 1).2.word_to_document_freqs_
      "c".toList = some [] := by decide!
  have hN : (scenarioServer.RemoveDocument 1).2.GetDocumentCount = 1 := by decide!
  have hidf : ComputeWordInverseDocumentFreq log (scenarioServer.RemoveDocument 1).2 "c".toList =
      .ok (log ((1 : ℚ) * 1 / ((0 : Nat) : ℚ))) := by
    unfold ComputeWordInverseDocumentFreq
    rw [hfind, hN]
    simp
  refine ⟨by decide!, hq, by decide!, hfind, hN, hidf, ?_⟩
  unfold FindTopDocuments
  rw [hq]
  simp only [FindAllDocuments, FindAllDocuments.plusLoop, hfind, hidf,
    FindAllDocuments.addWord, FindAllDocuments.minusLoop, FindAllDocuments.collect]
  rfl

end Search

namespace Search

namespace RequestQueue

open SearchServer

/-! # Sequences of `AddFindRequest` -/

/-- A sequence of calls of `AddFindRequest` leaves the queue that the calls of
`AddRequest` with the result counts of the returning calls leave. -/
theorem AddFindRequests_eq {K : Type} [LinearOrderedField K] (log : ℚ → K) :
    ∀ (calls : List FindRequest) (q : RequestQueue),
      AddFindRequests log q calls = (returnedCounts log calls).foldl AddRequest q := by
  intro calls
  induction calls with
  | nil => intro q; rfl
  | cons call rest ih =>
    intro q
    have hstep : AddFindRequests log q (call :: rest) =
        AddFindRequests log
          (AddFindRequest log q call.search_server call.raw_query call.document_predicate).2
          rest := rfl
    rw [hstep, ih]
    rcases AddFindRequest_eq log q call.search_server call.raw_query call.document_predicate
      with ⟨e, hres, hq⟩ | ⟨documents, hres, hq⟩
    · rw [hq]
      simp only [returnedCounts, hres]
    · rw [hq]
      simp only [returnedCounts, hres, List.foldl_cons]

theorem returnedCounts_length {K : Type} [LinearOrderedField K] (log : ℚ → K) :
    ∀ (calls : List FindRequest), (returnedCounts log calls).length ≤ calls.length := by
  intro calls
  induction calls with
  | nil => exact le_refl _
  | cons call rest ih =>
    unfold returnedCounts
    split
    · exact le_trans ih (Nat.le_succ _)
    · simpa using ih

/-- Claim C20, amended. After any sequence of calls of `AddFindRequest` on a new
queue, of which `n` return (a call whose `FindTopDocuments` throws records
nothing), the deque holds, oldest first, the records of exactly the last
`min(n, 1440)` returning calls, the record of the returning call number `i`
being `(i mod 2^64, its number of documents)`, and `GetNoResultRequests()` is
the number of those records whose result count is 0.  `n` is at most the
number of calls. -/
theorem C20_AddFindRequest_window {K : Type} [LinearOrderedField K] (log : ℚ → K)
    (calls : List FindRequest) :
    (returnedCounts log calls).length ≤ calls.length ∧
    (AddFindRequests log create calls).requests_ =
      records ((returnedCounts log calls).length - 1440)
        ((returnedCounts log calls).drop ((returnedCounts log calls).length - 1440)) ∧
    (AddFindRequests log create calls).requests_.length =
      min (returnedCounts log calls).length 1440 ∧
    (AddFindRequests log create calls).requests_.map QueryResult.results =
      (returnedCounts log calls).drop ((returnedCounts log calls).length - 1440) ∧
    (AddFindRequests log create calls).requests_.map QueryResult.timestamp =
      (List.range' ((returnedCounts log calls).length - 1440 + 1)
        (min (returnedCounts log calls).length 1440)).map
        (fun i => i % 18446744073709551616) ∧
    (AddFindRequests log create calls).GetNoResultRequests =
      ((((AddFindRequests log create calls).requests_.filter
        (fun r => decide (r.results = 0))).length : Nat) : Int) := by
  rw [AddFindRequests_eq log calls create]
  obtain ⟨h1, h2, h3, h4, h5, _⟩ := AddRequest_window (returnedCounts log calls)
  exact ⟨returnedCounts_length log calls, h1, h2, h3, h4, h5⟩

end RequestQueue

end Search

namespace Search

namespace RequestQueue

open SearchServer

/-- The number of documents the sequential `FindTopDocuments` returns in a
consistent state. -/
theorem FindTopDocuments_length {K : Type} [LinearOrderedField K] (log : ℚ → K)
    (s : SearchServer) (hc : Consistent s) (raw_query : Str) (query : Query)
    (key_mapper : KeyMapper) (hq : s.ParseQuery raw_query = .ok query) :
    ∃ result, s.FindTopDocuments log raw_query key_mapper = .ok result ∧
      result.length = min 5 (candidates s query key_mapper).length := by
  obtain ⟨docs, h1, _, h3, _⟩ := FindAllDocuments_spec log s hc query key_mapper
  refine ⟨sortAndTruncate docs,
    FindTopDocuments_of_matched log s raw_query query key_mapper docs hq h1, ?_⟩
  rw [sortAndTruncate_length, ← h3.length_eq, List.length_map]

/-- The result counts of the three calls on the corpus of the scenario: "a"
finds two documents, "--bad" throws, "zzz" finds none. -/
theorem scenarioCalls_returnedCounts {K : Type} [LinearOrderedField K] (log : ℚ → K) :
    returnedCounts log scenarioCalls = [2, 0] := by
  have hc : Consistent scenarioServer := Reachable_consistent _ scenarioServer_reachable
  obtain ⟨r1, h1, l1⟩ := FindTopDocuments_length log scenarioServer hc "a".toList
    { plus_words := ["a".toList], minus_words := [] } isActual (by decide)
  have h2 : scenarioServer.FindTopDocuments log "--bad".toList isActual =
      .error .invalid_argument := by
    unfold FindTopDocuments
    rw [ParseQuery_error_of scenarioServer "--bad".toList (Or.inr (Or.inl (by decide)))]
  obtain ⟨r3, h3, l3⟩ := FindTopDocuments_length log scenarioServer hc "zzz".toList
    { plus_words := ["zzz".toList], minus_words := [] } isActual (by decide)
  have c1 : (candidates scenarioServer { plus_words := ["a".toList], minus_words := [] }
      isActual).length = 2 := by decide!
  have c3 : (candidates scenarioServer { plus_words := ["zzz".toList], minus_words := [] }
      isActual).length = 0 := by decide!
  rw [c1] at l1
  rw [c3] at l3
  simp only [scenarioCalls, returnedCounts, h1, h2, h3, l1, l3]
  rfl

/-- Claim C20, refuted as stated: three calls of `AddFindRequest` on the corpus
of the scenario, with the real logarithm.  The second call, "--bad", throws
`invalid_argument` and records nothing, so after the three calls the deque
holds two records, not `min(3, 1440) = 3`. -/
theorem C20_counterexample :
    scenarioCalls.length = 3 ∧
    (AddFindRequest (fun q : ℚ => Real.log (q : ℝ)) create scenarioServer "--bad".toList
      isActual) = (.error .invalid_argument, create) ∧
    (AddFindRequests (fun q : ℚ => Real.log (q : ℝ)) create scenarioCalls).requests_ =
      [{ timestamp := 1, results := 2 }, { timestamp := 2, results := 0 }] ∧
    (AddFindRequests (fun q : ℚ => Real.log (q : ℝ)) create scenarioCalls).requests_.length
      ≠ min 3 1440 := by
  have hq : (AddFindRequests (fun q : ℚ => Real.log (q : ℝ)) create scenarioCalls).requests_ =
      [{ timestamp := 1, results := 2 }, { timestamp := 2, results := 0 }] := by
    rw [AddFindRequests_eq, scenarioCalls_returnedCounts]
    decide
  refine ⟨rfl, ?_, hq, ?_⟩
  · rcases AddFindRequest_eq (fun q : ℚ => Real.log (q : ℝ)) create scenarioServer
      "--bad".toList isActual with ⟨e, hres, h⟩ | ⟨documents, hres, _⟩
    · have h2 : scenarioServer.FindTopDocuments (fun q : ℚ => Real.log (q : ℝ))
          "--bad".toList isActual = .error .invalid_argument := by
        unfold FindTopDocuments
        rw [ParseQuery_error_of scenarioServer "--bad".toList (Or.inr (Or.inl (by decide)))]
      rw [h2] at hres
      cases hres
      exact h
    · exfalso
      unfold FindTopDocuments at hres
      rw [ParseQuery_error_of scenarioServer "--bad".toList (Or.inr (Or.inl (by decide)))]
        at hres
      cases hres
  · rw [hq]
    decide

/-- Witness of C20: the three calls on the corpus of the scenario, two of which
return; the deque holds the two records and one of them has no result. -/
theorem C20_witness :
    (returnedCounts (fun q : ℚ => Real.log (q : ℝ)) scenarioCalls).length = 2 ∧
    (AddFindRequests (fun q : ℚ => Real.log (q : ℝ)) create scenarioCalls).requests_.length =
      min (returnedCounts (fun q : ℚ => Real.log (q : ℝ)) scenarioCalls).length 1440 ∧
    (AddFindRequests (fun q : ℚ => Real.log (q : ℝ)) create scenarioCalls).requests_.map
        QueryResult.results =
      (returnedCounts (fun q : ℚ => Real.log (q : ℝ)) scenarioCalls).drop
        ((returnedCounts (fun q : ℚ => Real.log (q : ℝ)) scenarioCalls).length - 1440) :=
  ⟨by rw [scenarioCalls_returnedCounts]; rfl,
    (C20_AddFindRequest_window (fun q : ℚ => Real.log (q : ℝ)) scenarioCalls).2.2.1,
    (C20_AddFindRequest_window (fun q : ℚ => Real.log (q : ℝ)) scenarioCalls).2.2.2.1⟩

end RequestQueue

end Search
